import Mathlib

/-!
Verification development for the intervention-design repository (`main.py`).

Graph representation (from the source header comment):
* a DAG is an integer matrix where `m[i][j] = 1` iff `i -> j`, else `0`;
* a CPDAG is an integer matrix where `m[i][j] = 1` iff `i -> j`,
  `-1` iff `i - j` (undirected), else `0`.

Matrices are embedded as lists of rows of integers; `numpy` indexing with a
default of `0` out of range.  Floating point values are modelled as exact
rationals.  Randomness (`np.random.*`) is modelled by explicit oracle
parameters supplying the drawn values.
-/

set_option allowUnsafeReducibility true
attribute [semireducible] Rat.add Rat.sub Rat.mul Rat.div Rat.inv Rat.neg

namespace MPED

/-- Integer matrix: list of rows (numpy 2-d integer array). -/
abbrev Mat := List (List Int)

/-- Matrix entry read, defaulting to 0 out of range. -/
def mget (m : Mat) (i j : Nat) : Int :=
  (m.getD i []).getD j 0

/-- Matrix entry write (`m[i][j] = v`); out-of-range writes are dropped. -/
def mset (m : Mat) (i j : Nat) (v : Int) : Mat :=
  m.set i ((m.getD i []).set j v)

/-- Number of rows (`m.shape[0]`). -/
def msize (m : Mat) : Nat := m.length

/-- `extract_undirected(cpdag, v)`: all `d` with `cpdag[v][d] < 0`
(`np.flatnonzero(np.minimum(cpdag[v], 0))`). -/
def extract_undirected (c : Mat) (v : Nat) : List Nat :=
  (List.range (msize c)).filter (fun d => mget c v d < 0)

/-- `extract_all_directed(cpdag)`: row-major list of `(v, u)` with
`cpdag[v][u] == 1`. -/
def extract_all_directed (c : Mat) : List (Nat × Nat) :=
  (List.range (msize c)).flatMap (fun v =>
    ((List.range (msize c)).filter (fun u => mget c v u == 1)).map
      (fun u => (v, u)))

/-- `np.flatnonzero(np.maximum(cpdag[:, u], 0))`: all `w` with
`cpdag[w][u] > 0`. -/
def nodesInto (c : Mat) (u : Nat) : List Nat :=
  (List.range (msize c)).filter (fun w => mget c w u > 0)

/-- `np.flatnonzero(np.maximum(cpdag[v], 0))`: all `w` with `cpdag[v][w] > 0`. -/
def nodesOut (c : Mat) (v : Nat) : List Nat :=
  (List.range (msize c)).filter (fun w => mget c v w > 0)

/-- State threaded through one outer iteration of `meek`: the matrix, the
`latest_edges_temp` accumulator and the `edges_found` flag. -/
structure MState where
  c : Mat
  temp : List (Nat × Nat)
  found : Bool
deriving Repr, DecidableEq

/-- `if ((a,b)) not in latest_edges_temp: latest_edges_temp.append((a,b))`. -/
def pushEdge (temp : List (Nat × Nat)) (e : Nat × Nat) : List (Nat × Nat) :=
  if e ∈ temp then temp else temp ++ [e]

/-- Direct edge `a→b` in the state and record it (shared body of every rule
firing: `cpdag[a][b] = 1; cpdag[b][a] = 0`). -/
def fireEdge (st : MState) (a b : Nat) : MState :=
  { c := mset (mset st.c a b 1) b a 0
    temp := pushEdge st.temp (a, b)
    found := true }

/-- Body of rule R1 for one candidate node `d` (lines 341-349). -/
def r1Step (u v : Nat) (st : MState) (d : Nat) : MState :=
  if mget st.c v d == -1 then
    if mget st.c d u == 0 && mget st.c u d == 0 && u ≠ d then
      fireEdge st v d
    else st
  else st

/-- Rule R1 for a single worklist edge `(u, v)`. -/
def r1Edge (st : MState) (e : Nat × Nat) : MState :=
  (extract_undirected st.c e.2).foldl (r1Step e.1 e.2) st

/-- Body of rule R2's first loop (edges into `u`) for one node `w`. -/
def r2StepA (v : Nat) (st : MState) (w : Nat) : MState :=
  if mget st.c w v == -1 then fireEdge st w v else st

/-- Body of rule R2's second loop (edges out of `v`) for one node `w`
(lines 373-379: `cpdag[w][u] = 0; cpdag[u][w] = 1`). -/
def r2StepB (u : Nat) (st : MState) (w : Nat) : MState :=
  if mget st.c w u == -1 then
    { c := mset (mset st.c w u 0) u w 1
      temp := pushEdge st.temp (u, w)
      found := true }
  else st

/-- Rule R2 for a single worklist edge `(u, v)`: first edges into `u`, then
edges out of `v`. -/
def r2Edge (st : MState) (e : Nat × Nat) : MState :=
  let st := (nodesInto st.c e.1).foldl (r2StepA e.2) st
  (nodesOut st.c e.2).foldl (r2StepB e.1) st

/-- Body of rule R3's innermost loop for one diagonal candidate `t`. -/
def r3StepT (u w v : Nat) (st : MState) (t : Nat) : MState :=
  if t = u ∨ t = w ∨ t = v then st
  else
    if mget st.c t u == -1 && mget st.c t w == -1 &&
        mget st.c t v == -1 && mget st.c u w == 0 &&
        mget st.c w u == 0 then
      fireEdge st t v
    else st

/-- Body of rule R3's collider loop for one node `w`; the diagonal
candidate list is recomputed from the current matrix. -/
def r3StepW (u v : Nat) (st : MState) (w : Nat) : MState :=
  if w = u then st
  else
    ((List.range (msize st.c)).filter (fun t => mget st.c t u < 0)).foldl
      (r3StepT u w v) st

/-- Rule R3 for a single worklist edge `(u, v)`. -/
def r3Edge (st : MState) (e : Nat × Nat) : MState :=
  (nodesInto st.c e.2).foldl (r3StepW e.1 e.2) st

/-- Rule R4, first form, for a single worklist edge `(u, v)` (the seed edge is
the left side of the pattern). -/
def r4Step (u w : Nat) (st : MState) (t : Nat) : MState :=
  if t = u ∨ t = w then st
  else
    if mget st.c t u == -1 && mget st.c t w == -1 &&
        mget st.c u w == 0 && mget st.c w u == 0 then
      fireEdge st t w
    else st

/-- Inner loop of the first R4 pass: fixed seed corner `u`, current bottom
edge target `w`, fold over the diagonal candidates. -/
def r4Outer (u : Nat) (diags : List Nat) (st : MState) (w : Nat) : MState :=
  diags.foldl (r4Step u w) st

/-- Inner loop of the second R4 pass: fixed bottom edge target `w`, current
top corner `u`, fold over the diagonal candidates. -/
def r4OuterB (w : Nat) (diags : List Nat) (st : MState) (u : Nat) : MState :=
  diags.foldl (r4Step u w) st

def r4aEdge (st : MState) (e : Nat × Nat) : MState :=
  let u := e.1
  let v := e.2
  let outs := nodesOut st.c v
  if outs = [] then st
  else
    let diags := nodesInto st.c v ++ nodesOut st.c v ++
      (List.range (msize st.c)).filter (fun t => mget st.c t v < 0)
    outs.foldl (r4Outer u diags) st

/-- Rule R4, second form, for a single worklist edge `(v, w)` (the seed edge is
the bottom side of the pattern). -/
def r4bEdge (st : MState) (e : Nat × Nat) : MState :=
  let v := e.1
  let w := e.2
  let ins := nodesInto st.c v
  if ins = [] then st
  else
    let diags := nodesInto st.c v ++ nodesOut st.c v ++
      (List.range (msize st.c)).filter (fun t => mget st.c t v < 0)
    ins.foldl (r4OuterB w diags) st

/-- One iteration of `meek`'s outer `while` loop: apply R1 to every worklist
edge, then (unless `is_tree`) R2, R3 (unless `skip_r3`), and both R4 passes. -/
def meekPass (c : Mat) (edges : List (Nat × Nat)) (skipR3 isTree : Bool) :
    MState :=
  let st : MState := { c := c, temp := [], found := false }
  let st := edges.foldl r1Edge st
  if isTree then st
  else
    let st := edges.foldl r2Edge st
    let st := if skipR3 then st else edges.foldl r3Edge st
    let st := edges.foldl r4aEdge st
    edges.foldl r4bEdge st

/-- Fuelled fixpoint loop of `meek`; the fuel never runs out for the fuel
budget used by `meek` (proved below via the undirected-entry count). -/
def meekFuel : Nat → Mat → List (Nat × Nat) → Bool → Bool → Mat
  | 0, c, _, _, _ => c
  | fuel + 1, c, edges, skipR3, isTree =>
    let st := meekPass c edges skipR3 isTree
    if st.found then meekFuel fuel st.c st.temp skipR3 isTree else st.c

/-- Number of negative entries of the matrix (undirected-edge marks). -/
def undirCount (c : Mat) : Nat :=
  (c.map (fun row => (row.filter (fun x => x < 0)).length)).sum

/-- `meek(cpdag, new_edges, skip_r3, is_tree)` with an explicit worklist. -/
def meekSeeded (c : Mat) (newEdges : List (Nat × Nat))
    (skipR3 isTree : Bool) : Mat :=
  meekFuel (undirCount c + 1) c newEdges skipR3 isTree

/-- `meek(cpdag, None, skip_r3, is_tree)`: the worklist starts as every
already-directed edge. -/
def meek (c : Mat) (skipR3 isTree : Bool) : Mat :=
  meekSeeded c (extract_all_directed c) skipR3 isTree

/-- Body of the R0 copying loop of `orient_from_intervention` for one node
`i` (lines 492-501): if `i` is outside the intervention and the edge `v–i`
is still undirected, copy both entries from the true dag and record the
newly directed edges. -/
def r0CopyInner (dag : Mat) (intervention : List Nat) (v : Nat)
    (acc : Mat × List (Nat × Nat)) (i : Nat) : Mat × List (Nat × Nat) :=
  if i ∉ intervention then
    if mget acc.1 v i ≠ -1 then acc
    else
      (mset (mset acc.1 v i (mget dag v i)) i v (mget dag i v),
       acc.2 ++ (if mget dag v i == 1 then [(v, i)] else []) ++
         (if mget dag i v == 1 then [(i, v)] else []))
  else acc

/-- The R0 copying loop of `orient_from_intervention` (lines 485-501): for
every intervention, every `v` in it and every node `i` outside it with
`cpdag[v][i] == -1`, copy both entries from the true dag and record the
newly directed edges. -/
def r0Copy (dag : Mat) (c : Mat) (interventionSet : List (List Nat)) :
    Mat × List (Nat × Nat) :=
  interventionSet.foldl (fun acc intervention =>
    intervention.foldl (fun acc v =>
      (List.range (msize dag)).foldl (r0CopyInner dag intervention v) acc)
      acc) (c, [])

/-- `orient_from_intervention(dag, cpdag, intervention_set, hard, is_tree)`:
R0 copying followed by `meek` seeded with the new edges; the source passes
`skip_r3 = False` at line 503. -/
def orient_from_intervention (dag : Mat) (c : Mat)
    (interventionSet : List (List Nat)) (isTree : Bool) : Mat :=
  let res := r0Copy dag c interventionSet
  meekSeeded res.1 res.2 false isTree

/-- `cpdag_obj_val(cpdag)` (edge-orienting objective): the number of directed
edges, `len(extract_all_directed(cpdag))`. -/
def cpdag_obj_val (c : Mat) : Nat :=
  (extract_all_directed c).length

/-! ### Pipage rounding (`pipage`, lines 727-810)

Floats are modelled as exact rationals; `np.round` and Python's `round`
round half to even.  The two random draws (`np.random.choice` of a pair of
non-integral coordinates and `np.random.binomial`) are supplied by an
oracle, indexed by the number of loop iterations performed so far. -/

/-- Round to the nearest integer, ties to even (`np.round` / Python
`round`). -/
def roundHalfEven (q : ℚ) : ℤ :=
  let f := ⌊q⌋
  let r := q - f
  if r < 1/2 then f
  else if 1/2 < r then f + 1
  else if f % 2 = 0 then f else f + 1

/-- `np.round(x, decimals=10)` on one entry. -/
def round10 (q : ℚ) : ℚ :=
  (roundHalfEven (q * 10 ^ 10) : ℚ) / 10 ^ 10

/-- Oracle for `pipage`'s random draws: `pair t` is the pair of coordinates
drawn by `np.random.choice(T, 2, replace=False)` at loop iteration `t`, and
`flip t` the `np.random.binomial(1, _)` draw at binomial call `t`. -/
structure POracle where
  pair : Nat → Nat × Nat
  flip : Nat → Bool

/-- `epsilon = 0.001`, the rounding threshold inside `pipage`. -/
def peps : ℚ := 1/1000

/-- The post-move snap check of one coordinate `m` (lines 786-791): if its
value is within `epsilon` of `0` or `1`, round it and drop `m` from `T`. -/
def snapAt (m : Nat) (s : List ℚ × List Nat) : List ℚ × List Nat :=
  if |s.1.getD m 0 - 1| < peps ∨ |s.1.getD m 0| < peps then
    (s.1.set m (roundHalfEven (s.1.getD m 0) : ℚ), s.2.erase m)
  else s

def pipageBody (o : POracle) (t : Nat) (x : List ℚ) (T : List Nat) :
    Option (List ℚ × List Nat) :=
  let i := (o.pair t).1
  let j := (o.pair t).2
  let di := min (1 - x.getD i 0) (x.getD j 0)
  let xi := (x.set i (x.getD i 0 + di)).set j (x.getD j 0 - di)
  let dj := min (1 - x.getD j 0) (x.getD i 0)
  let xj := (x.set i (x.getD i 0 - dj)).set j (x.getD j 0 + dj)
  if dj + di = 0 then none
  else
    let p := |di / (dj + di)|
    if ¬ p < 1 + peps then none
    else some (snapAt j (snapAt i (if o.flip t then xj else xi, T)))

/-- The `while len(T) > 1` loop of `pipage`.  Returns the vector, the list
of still non-integral coordinate indices, and the number of binomial draws
consumed.  `none` models an `AssertionError` — including the `nan`
produced when both boundary distances are zero — or exhausted fuel; the
fuel `T.length` supplied by `pipage` suffices whenever the oracle draws
valid pairs, since every iteration then removes at least one index from
`T` (proved below).  The clamping of `p` to `[0, 1]` before the binomial
draw only shapes the distribution of the drawn bit, which the oracle
supplies directly. -/
def pipageLoop (o : POracle) : Nat → Nat → List ℚ → List Nat →
    Option (List ℚ × List Nat × Nat)
  | 0, t, x, T => if T.length ≤ 1 then some (x, T, t) else none
  | fuel + 1, t, x, T =>
    if T.length ≤ 1 then some (x, T, t)
    else
      match pipageBody o t x T with
      | none => none
      | some (x', T') => pipageLoop o fuel (t + 1) x' T'

/-- The oracle draws valid pairs along the whole run: at every executed
iteration `np.random.choice(T, 2, replace=False)` yields two distinct
members of the current `T` (which is what the numpy call guarantees). -/
def validPairs (o : POracle) : Nat → Nat → List ℚ → List Nat → Bool
  | 0, _, _, _ => true
  | fuel + 1, t, x, T =>
    if T.length ≤ 1 then true
    else
      decide ((o.pair t).1 ∈ T) && decide ((o.pair t).2 ∈ T) &&
        ((o.pair t).1 != (o.pair t).2) &&
        match pipageBody o t x T with
        | none => true
        | some (x', T') => validPairs o fuel (t + 1) x' T'

/-- `np.flatnonzero(np.round(x, 0) - x).tolist()`: the indices of the
non-integral entries. -/
def pipageT (x : List ℚ) : List Nat :=
  (List.range x.length).filter
    (fun m => (roundHalfEven (x.getD m 0) : ℚ) - x.getD m 0 ≠ 0)

/-- Invariant of the pipage loop: the vector keeps its length, `T` is a
duplicate-free list of in-range indices, entries off `T` are `0` or `1`,
entries on `T` lie strictly between `0` and `1`, the sum plus an
`epsilon` budget per pending index never exceeds `B`, and the sum is a
natural number plus the pending entries. -/
def LoopInv (d : Nat) (B : ℚ) (x : List ℚ) (T : List Nat) : Prop :=
  x.length = d ∧ T.Nodup ∧ (∀ m ∈ T, m < d) ∧
  (∀ m, m < d → m ∉ T → (x.getD m 0 = 0 ∨ x.getD m 0 = 1)) ∧
  (∀ m ∈ T, 0 < x.getD m 0 ∧ x.getD m 0 < 1) ∧
  x.sum + peps * T.length ≤ B ∧
  (∃ n : ℕ, x.sum = (n : ℚ) + (T.map (fun m => x.getD m 0)).sum)

def pipage (x : List ℚ) (k : ℚ) (o : POracle) : Option (List ℚ) :=
  let x := x.map round10
  let T := pipageT x
  match pipageLoop o T.length 0 x T with
  | none => none
  | some (x, T, t) =>
    match T with
    | [] => some x
    | T0 :: _ =>
      if x.sum > k ∧ x.sum < k + 1/10 then some (x.set T0 0)
      else if x.sum ≤ 1 then some (x.set T0 1)
      else if 0 ≤ x.getD T0 0 ∧ x.getD T0 0 ≤ 1 then
        some (x.set T0 (if o.flip t then 1 else 0))
      else none

/-! ### Separating-system construction (`ss_construct`, lines 1372-1437)

The float arithmetic (`math.pow`, `divmod`, `math.log`) is exact on the
integer values involved and is modelled by natural-number arithmetic, with
`math.ceil(math.log(n, a))` modelled as the ceiling logarithm.  `math.log`
with base `a = 1` raises a `ZeroDivisionError` (and `ceil(n/k)` one for
`k = 0`), modelled as `none`. -/

/-- Step 1 of the labelling lemma: append the digit `num` in blocks of size
`B`, cycling `num` through `0..a-1`, until `r` entries are produced.  The
block size is at least one whenever `B ≥ 1`, so the fuel `r` supplied below
always suffices. -/
def cycleDigits (B a : Nat) : Nat → Nat → Nat → List Nat
  | 0, _, _ => []
  | _ + 1, 0, _ => []
  | fuel + 1, r, num =>
    List.replicate (min r B) num ++
      cycleDigits B a fuel (r - min r B)
        (if a - 1 < num + 1 then 0 else num + 1)

/-- Step 2 of the labelling lemma: append the digit `num` in blocks of size
`c`, increasing `num` by one per block, until `r` entries are produced. -/
def stepTwoDigits (c : Nat) : Nat → Nat → Nat → List Nat
  | 0, _, _ => []
  | _ + 1, 0, _ => []
  | fuel + 1, r, num =>
    List.replicate (min c r) num ++
      stepTwoDigits c fuel (r - min c r) (num + 1)

/-- `math.ceil(math.log(n, a))` on the exact integer inputs involved: the
least `l` with `n ≤ a ^ l` (searched structurally so that it evaluates by
kernel reduction). -/
def ceilLog (a n : Nat) : Nat :=
  (((List.range (n + 1)).filter (fun l => n ≤ a ^ l)).headD 0)

/-- The digits written at label position `d_ind` (steps 1-3 of the lemma):
step 1 fills the first `p·a^d` entries, step 2 the remaining `n mod a^d`
entries, and step 3 increments the digit of every node index at or beyond
`a^d_ind · (n div a^d_ind)`. -/
def ssDigits (n a dInd : Nat) : List Nat :=
  let B := a ^ dInd
  let A := a ^ (dInd + 1)
  let p := n / A
  let r := n % A
  let q := n / B
  let base := cycleDigits B a (p * A) (p * A) 0 ++
    stepTwoDigits ((r + a - 1) / a) (n - p * A) (n - p * A) 0
  List.zipWith (fun i d => if B * q ≤ i then d + 1 else d)
    (List.range base.length) base

/-- `ss_construct(n, k)`: one candidate per (digit position, digit value)
pair, collecting the nodes whose label carries that value at that
position. -/
def ss_construct (n k : Nat) : Option (List (List Nat)) :=
  if k = 0 then none
  else
    let a := (n + k - 1) / k
    if a ≤ 1 then none
    else
      let l := ceilLog a n
      let digitss := (List.range l).map (ssDigits n a)
      some ((List.range l).flatMap (fun pos =>
        (List.range a).map (fun j =>
          (List.range n).filter (fun m => (digitss.getD pos []).getD m 0 = j))))

/-- Closed form of the digit written at label position `pos` for node `m`,
read off the three steps of the labelling lemma: the base-`a` digit on the
step-1 prefix, the block index of size `⌈(n mod a^(pos+1))/a⌉` on the
step-2 suffix, plus the step-3 increment on the final `n mod a^pos`
nodes. -/
def digitFn (n a pos m : Nat) : Nat :=
  if m < n / a ^ (pos + 1) * a ^ (pos + 1) then m / a ^ pos % a
  else (m - n / a ^ (pos + 1) * a ^ (pos + 1)) / ((n % a ^ (pos + 1) + a - 1) / a) +
    (if a ^ pos * (n / a ^ pos) ≤ m then 1 else 0)

/-! ### The post-ascent constraint checks of the continuous optimizers -/

/-- Lines 933-934 of `scdpp`: after the `T` ascent rounds,
`if np.sum(x_t) > k + 0.1: raise Exception`, then proceed to pipage
rounding with `x_t` unchanged. -/
def scdpp_post (x : List ℚ) (k : ℚ) : Except Unit (List ℚ) :=
  if x.sum > k + 1/10 then .error () else .ok x

/-- `np.linalg.norm(x, ord=1)`: the sum of absolute values. -/
def l1norm (x : List ℚ) : ℚ := (x.map (fun v => |v|)).sum

/-- Lines 994-997 of `scdpp_ss`: raise when the iterate exceeds `n_b + 0.1`,
otherwise rescale by the L1 norm times `n_b` and clamp each entry to `1`
before rounding. -/
def scdpp_ss_post (x : List ℚ) (nb : ℚ) : Except Unit (List ℚ) :=
  if x.sum > nb + 1/10 then .error ()
  else .ok (x.map (fun v => min (v / l1norm x * nb) 1))

/-- Lines 1069-1070 of `gred_intervention_set`: raise when the iterate
exceeds `k + 0.1`, otherwise proceed to pipage rounding unchanged. -/
def gred_intervention_set_post (x : List ℚ) (k : ℚ) : Except Unit (List ℚ) :=
  if x.sum > k + 1/10 then .error () else .ok x

/-! ### The Hessian estimator (`gen_hess_fun`, lines 812-852)

The inner `hess_fun` is deterministic once the dags drawn by the external
sampler `mec_size.uniform_sample_dag_plural` are fixed, so the sampled dag
list is passed as a parameter.  Python set literals over small node indices
are modelled as sorted duplicate-free lists (the list order only shapes the
memoisation keys `np.array(S_mod).tobytes()`, which are in bijection with
the lists themselves). -/

/-- Insert into an ascending list (stable insertion sort step). -/
def insertOrd (le : Nat → Nat → Bool) (x : Nat) : List Nat → List Nat
  | [] => [x]
  | y :: ys => if le x y then x :: y :: ys else y :: insertOrd le x ys

/-- Stable insertion sort of a list of indices. -/
def sortBy (le : Nat → Nat → Bool) (l : List Nat) : List Nat :=
  l.foldr (insertOrd le) []

/-- Sorted duplicate-free list representation of a set of node indices. -/
def setList (s : List Nat) : List Nat :=
  sortBy (fun i j => i ≤ j) s.eraseDups

/-- The objective evaluation inside `hess_fun`:
`cpdag_obj_val(orient_from_intervention(dag, cpdag.copy(), intervention_set + [S_mod]))`. -/
def fEval (dag c : Mat) (iset : List (List Nat)) (isTree : Bool)
    (sMod : List Nat) : ℚ :=
  (cpdag_obj_val (orient_from_intervention dag c (iset ++ [sMod]) isTree) : ℚ)

/-- One `if S_mod not in computed_val: computed_val[...] = ...` step of the
memo dictionary, keyed by the list itself. -/
def memoStep (dag c : Mat) (iset : List (List Nat)) (isTree : Bool)
    (cache : List (List Nat × ℚ)) (key : List Nat) : List (List Nat × ℚ) :=
  match cache.lookup key with
  | some _ => cache
  | none => cache ++ [(key, fEval dag c iset isTree key)]

/-- Rational matrix (numpy float 2-d array). -/
abbrev QMat := List (List ℚ)

/-- Read an entry of a rational matrix, defaulting to 0. -/
def qget (m : QMat) (i j : Nat) : ℚ := (m.getD i []).getD j 0

/-- Write an entry of a rational matrix. -/
def qset (m : QMat) (i j : Nat) (v : ℚ) : QMat :=
  m.set i ((m.getD i []).set j v)

/-- The `n × n` zero matrix (`np.zeros((n, n))`). -/
def qzeros (n : Nat) : QMat := List.replicate n (List.replicate n (0 : ℚ))

/-- One pair `(i, j)` of the `hess_fun` body: skip the diagonal, memoise the
four forced subsets `S_ij`, `S_i`, `S_j`, `S_minus` (lines 839-846) and
accumulate the finite difference into `hess[i, j]`. -/
def hessPairStep (dag c : Mat) (iset : List (List Nat)) (isTree : Bool)
    (numSample totalX : Nat) (S : List Nat) (i : Nat)
    (acc : QMat × List (List Nat × ℚ)) (j : Nat) :
    QMat × List (List Nat × ℚ) :=
  if i = j then acc
  else
    let sij := setList ([i, j] ++ S)
    let si := setList (([i] ++ S).filter (fun m => m ≠ j))
    let sj := setList (([j] ++ S).filter (fun m => m ≠ i))
    let sminus := setList (S.filter (fun m => m ≠ i ∧ m ≠ j))
    let cache := [sij, si, sj, sminus].foldl
      (memoStep dag c iset isTree) acc.2
    let v := fun key => ((cache.lookup key).getD 0)
    (qset acc.1 i j (qget acc.1 i j +
      (v sij - v si - v sj + v sminus) / ((numSample * totalX : Nat) : ℚ)),
     cache)

/-- The body of `hess_fun` for one sampled dag and one repetition: the
thresholded set `S = [s for s in range(n) if e[s] < x[s]]` is fixed, and for
every pair `i < j` the four forced subsets are memoised and the finite
difference accumulated into `hess[i, j]`. -/
def hessRep (dag c : Mat) (iset : List (List Nat)) (isTree : Bool)
    (numSample totalX : Nat) (x e : List ℚ)
    (acc : QMat × List (List Nat × ℚ)) : QMat × List (List Nat × ℚ) :=
  let n := msize c
  let S := (List.range n).filter (fun s => e.getD s 0 < x.getD s 0)
  (List.range n).foldl (fun acc i =>
    (List.range' i (n - i)).foldl
      (hessPairStep dag c iset isTree numSample totalX S i) acc) acc

/-- `gen_hess_fun(cpdag, ...)`'s `hess_fun(intervention_set, x, e)` with the
dags drawn by the external sampler passed explicitly: accumulate the
per-dag, per-repetition finite differences (the memo dictionary is reset
for every dag, and the repetitions of the inner loop are identical because
`S` depends only on `x` and `e`). -/
def hess_fun (c : Mat) (numSample totalX : Nat) (isTree : Bool)
    (dags : List Mat) (iset : List (List Nat)) (x e : List ℚ) : QMat :=
  dags.foldl (fun hess dag =>
    ((List.range totalX).foldl
      (fun acc _ => hessRep dag c iset isTree numSample totalX x e acc)
      (hess, [])).1)
    (qzeros (msize c))

/-! ### The lazy greedy selectors (`lazy_ss_intervention`, `lazy_drg`)

The marginal-gain arrays start at `np.inf`, modelled as `Option ℚ` with
`none` standing for `+∞`.  `np.argsort` is modelled as a stable ascending
sort (numpy's sort of the small arrays involved is insertion sort, which is
stable); `np.flip` reverses it.  The objective is a parameter, and the
random draws come from oracles. -/

/-- `a ≤ b` on marginal gains, where `none` is `+∞`. -/
def topLE (a b : Option ℚ) : Bool :=
  match a, b with
  | none, none => true
  | none, some _ => false
  | some _, none => true
  | some p, some q => p ≤ q

/-- `q > a` comparing a float with a possibly infinite gain. -/
def gtQtop (q : ℚ) (a : Option ℚ) : Bool :=
  match a with
  | none => false
  | some v => v < q

/-- `q ≥ a` comparing a float with a possibly infinite gain. -/
def geQtop (q : ℚ) (a : Option ℚ) : Bool :=
  match a with
  | none => false
  | some v => v ≤ q

/-- `np.max` over a gain array (only used on nonempty arrays). -/
def topMax (l : List (Option ℚ)) : Option ℚ :=
  match l with
  | [] => none
  | h :: t => t.foldl (fun m a => if topLE m a then a else m) h

/-- `np.argsort`: the indices of the array sorted ascending by value
(stable). -/
def argsortAsc (l : List (Option ℚ)) : List Nat :=
  sortBy (fun i j => topLE (l.getD i none) (l.getD j none))
    (List.range l.length)

/-- Oracle for the random draws of the selectors: `randint t` is the `t`-th
`np.random.randint` value drawn, `choice` resolves an
`np.random.choice` over a list of tied candidate indices. -/
structure SOracle where
  randint : Nat → Nat
  choice : List Nat → Nat

/-- The state of the lazy scan over one batch slot of
`lazy_ss_intervention`. -/
structure LazyState where
  delta : List (Option ℚ)
  stopped : Bool

/-- The `for j in np.flip(np.argsort(delta_v))` scan of
`lazy_ss_intervention` (lines 1586-1615): re-evaluate candidates in cached-
gain order, updating the cache, until the refreshed gain is at least every
cached gain. -/
def lazyScan (obj : List (List Nat) → ℚ) (ss interventions : List (List Nat))
    (current : ℚ) (delta : List (Option ℚ)) : List (Option ℚ) :=
  (((argsortAsc delta).reverse).foldl (fun (s : LazyState) j =>
    if s.stopped then s
    else
      let cand := obj (interventions ++ [ss.getD j []])
      let rel := cand - current
      let delta := s.delta.set j (some rel)
      { delta := delta, stopped := geQtop rel (topMax delta) })
    { delta := delta, stopped := false }).delta

/-- One batch slot of `lazy_ss_intervention` (lines 1579-1626): lazy scan,
then pick uniformly among the candidates of maximal cached gain. -/
def lazySlot (obj : List (List Nat) → ℚ) (ss : List (List Nat)) (o : SOracle)
    (st : List (List Nat) × ℚ × List (Option ℚ)) :
    List (List Nat) × ℚ × List (Option ℚ) :=
  let (interventions, current, delta) := st
  let delta := lazyScan obj ss interventions current delta
  let m := topMax delta
  let best := o.choice ((List.range delta.length).filter
    (fun j => delta.getD j none = m))
  let gain := (delta.getD best none).getD 0
  (interventions ++ [ss.getD best []], gain + current, delta)

/-- One candidate cap size `k_cand` of `lazy_ss_intervention(n, n_b, k, obj,
cpdag, smart_ss, all_k)`, with the separating-system constructor `ssc`
(covering both `smart_ss_construct` and `ss_construct`) passed as a
parameter.  An empty separating system returns `n_b` interventions of `k`
`np.random.randint(n)` draws each (lines 1568-1570, an early `return`
modelled as `Except.error`); otherwise the cap size contributes a greedily
selected batch and the best-scoring batch so far is kept. -/
def lazySSStep (n nb k : Nat) (obj : List (List Nat) → ℚ)
    (ssc : Nat → List (List Nat)) (smartSS allK : Bool) (o : SOracle)
    (acc : Except (List (List Nat)) (Option (ℚ × List (List Nat))))
    (kCand : Nat) : Except (List (List Nat)) (Option (ℚ × List (List Nat))) :=
  match acc with
  | .error r => .error r
  | .ok best =>
    let kc := if smartSS then k else if ¬ allK then k else kCand
    let ss := ssc kc
    if ss = [] then
      .error ((List.range nb).map (fun b =>
        (List.range k).map (fun s => o.randint (b * k + s))))
    else
      let fin := (List.range nb).foldl (fun st _ => lazySlot obj ss o st)
        ([], 0, List.replicate ss.length (none : Option ℚ))
      let interventions := fin.1
      let score := obj interventions
      match best with
      | none => .ok (some (score, interventions))
      | some (bs, bi) =>
        if score > bs then .ok (some (score, interventions))
        else .ok (some (bs, bi))

/-- Body of `lazy_ss_intervention`: fold `lazySSStep` over the candidate cap
sizes `1..k` and unpack the result (an early `return` is an `error`). -/
def lazy_ss_intervention (n nb k : Nat) (obj : List (List Nat) → ℚ)
    (ssc : Nat → List (List Nat)) (smartSS allK : Bool) (o : SOracle) :
    List (List Nat) :=
  match (List.range' 1 k).foldl (lazySSStep n nb k obj ssc smartSS allK o)
    (Except.ok none) with
  | .error r => r
  | .ok none => []
  | .ok (some (_, bi)) => bi

/-- The state of the scan over one inner round of `lazy_drg`. -/
structure DrgState where
  delta : List (Option ℚ)
  numUpdated : Nat
  stopped : Bool

/-- The `for j in np.flip(np.argsort(delta_v))` scan of one inner round of
`lazy_drg` (lines 1670-1696).  The `cand_score = -np.inf` store for an
index already in the intervention (line 1679) is dead: the following
`if j >= n / else` always overwrites `cand_score`, so it is not modelled. -/
def drgScan (n k : Nat) (obj : List (List Nat) → ℚ)
    (interventions : List (List Nat)) (intervention : List Nat) (current : ℚ)
    (delta : List (Option ℚ)) : List (Option ℚ) :=
  (((argsortAsc delta).reverse).foldl (fun (s : DrgState) j =>
    if s.stopped then s
    else if k ≤ s.numUpdated ∧
        gtQtop (((argsortAsc s.delta).getD (k - 1) 0 : Nat) : ℚ)
          (s.delta.getD j none) then
      { s with stopped := true }
    else
      let cand := if n ≤ j then current
        else obj (interventions ++ [intervention ++ [j]])
      { delta := s.delta.set j (some (cand - current))
        numUpdated := s.numUpdated + 1
        stopped := false })
    { delta := delta, numUpdated := 0, stopped := false }).delta

/-- One inner round of `lazy_drg`: scan, then draw one of the top `k`
cached-gain indices (`np.flip(np.argsort(delta_v))[np.random.randint(0, k)]`)
and append it to the intervention unless it is a dummy index. -/
def drgRound (n k : Nat) (obj : List (List Nat) → ℚ) (o : SOracle)
    (interventions : List (List Nat)) (t : Nat)
    (st : List Nat × ℚ × List (Option ℚ)) : List Nat × ℚ × List (Option ℚ) :=
  let (intervention, current, delta) := st
  let delta := drgScan n k obj interventions intervention current delta
  let best := ((argsortAsc delta).reverse).getD (o.randint t) 0
  let current := match delta.getD best none with
    | some d => d + current
    | none => current
  (if best < n then intervention ++ [best] else intervention, current, delta)

/-- `lazy_drg(n, n_b, k, obj)` (lines 1639-1714): for each batch slot run `k`
discrete-random-greedy rounds over the `n` nodes padded with `2k` dummy
indices of zero marginal gain, then append the built intervention. -/
def lazy_drg (n nb k : Nat) (obj : List (List Nat) → ℚ) (o : SOracle) :
    List (List Nat) :=
  (List.range nb).foldl (fun interventions i =>
    let fin := (List.range k).foldl
      (fun st r => drgRound n k obj o interventions (i * k + r) st)
      ([], 0, List.replicate (n + 2 * k) (none : Option ℚ))
    interventions ++ [fin.1]) []

/-! ### Claim-level definitions -/

/-- Variant of `orient_from_intervention` with the `skip_r3` argument of the
final `meek` call exposed as a parameter. -/
def simulateInterventionFlag (dag : Mat) (c : Mat)
    (interventionSet : List (List Nat)) (skipR3 isTree : Bool) : Mat :=
  let res := r0Copy dag c interventionSet
  meekSeeded res.1 res.2 skipR3 isTree

/-- Modelled from the spec: `simulateIntervention` "collects all newly
oriented edges and feeds them to `closure` with `skipRule3=true`", i.e. the
R0 copying step followed by `meek` with `skip_r3 = True`. -/
def simulateIntervention_spec (dag : Mat) (c : Mat)
    (interventionSet : List (List Nat)) (isTree : Bool) : Mat :=
  simulateInterventionFlag dag c interventionSet true isTree

/-- The C1 counterexample CPDAG on five nodes: `2→0`, `4→3` directed;
`0–1`, `0–3`, `1–3`, `1–4`, `2–3` undirected; `1–2`, `0–4`, `2–4` absent. -/
def cpdagC1 : Mat :=
  [[0, -1, 0, -1, 0],
   [-1, 0, 0, -1, -1],
   [1, 0, 0, -1, 0],
   [-1, -1, -1, 0, 0],
   [0, -1, 0, 1, 0]]

/-- The C1 counterexample true DAG: `0→3`, `1→0`, `1→3`, `2→0`, `2→3`,
`4→1`, `4→3`. -/
def dagC1 : Mat :=
  [[0, 0, 0, 1, 0],
   [1, 0, 0, 1, 0],
   [1, 0, 0, 1, 0],
   [0, 0, 0, 0, 0],
   [0, 1, 0, 1, 0]]

/-- Modelled from the claim: the Hessian finite difference with base set `S`
itself, `f(S∪{i,j}) − f(S∪{i}) − f(S∪{j}) + f(S)`, where
`S = {s : e[s] < x[s]}`. -/
def hess_spec_entry (dag c : Mat) (iset : List (List Nat)) (isTree : Bool)
    (x e : List ℚ) (i j : Nat) : ℚ :=
  let n := msize c
  let S := (List.range n).filter (fun s => e.getD s 0 < x.getD s 0)
  fEval dag c iset isTree (setList ([i, j] ++ S)) -
    fEval dag c iset isTree (setList ([i] ++ S)) -
    fEval dag c iset isTree (setList ([j] ++ S)) +
    fEval dag c iset isTree (setList S)

/-- The code's Hessian finite difference: base set `S` with `i` and `j`
forced out, exactly the four subsets `S_ij`, `S_i`, `S_j`, `S_minus` built
at lines 839-842. -/
def hess_code_entry (dag c : Mat) (iset : List (List Nat)) (isTree : Bool)
    (x e : List ℚ) (i j : Nat) : ℚ :=
  let n := msize c
  let S := (List.range n).filter (fun s => e.getD s 0 < x.getD s 0)
  fEval dag c iset isTree (setList ([i, j] ++ S)) -
    fEval dag c iset isTree (setList (([i] ++ S).filter (fun m => m ≠ j))) -
    fEval dag c iset isTree (setList (([j] ++ S).filter (fun m => m ≠ i))) +
    fEval dag c iset isTree (setList (S.filter (fun m => m ≠ i ∧ m ≠ j)))

/-- The two-node instance used against C7 (and by C2): true DAG `0→1`,
CPDAG with the single edge `0–1` undirected. -/
def dag01 : Mat := [[0, 1], [0, 0]]

/-- CPDAG over two nodes with `0–1` undirected. -/
def cpdag01 : Mat := [[0, -1], [-1, 0]]

/-- Does some candidate of `ss` separate the pair `{i, j}` (contain exactly
one of the two)? -/
def separates (ss : List (List Nat)) (i j : Nat) : Bool :=
  ss.any (fun s => xor (s.contains i) (s.contains j))

/-- Does some candidate of size at most `k` separate the pair `{i, j}`? -/
def separatesWithin (k : Nat) (ss : List (List Nat)) (i j : Nat) : Bool :=
  ss.any (fun s => decide (s.length ≤ k) && xor (s.contains i) (s.contains j))

/-- Does `ss_construct n k` succeed and separate every pair of distinct node
indices below `n`? -/
def ssOK (n k : Nat) : Bool :=
  match ss_construct n k with
  | none => false
  | some ss => (List.range n).all (fun i => (List.range n).all (fun j =>
      i == j || separates ss i j))


/-- An `n × n` matrix: `n` rows of length `n` (the shape every CPDAG and
DAG share). -/
def Square (c : Mat) (n : Nat) : Prop :=
  c.length = n ∧ ∀ row ∈ c, row.length = n

/-- The matrix effect of one R0 copying step for the pair `(v, i)`:
if `cpdag[v][i] == -1`, set `cpdag[v][i] = dag[v][i]` and
`cpdag[i][v] = dag[i][v]`. -/
def copyStep (dag : Mat) (M : Mat) (vi : Nat × Nat) : Mat :=
  if mget M vi.1 vi.2 ≠ -1 then M
  else mset (mset M vi.1 vi.2 (mget dag vi.1 vi.2)) vi.2 vi.1 (mget dag vi.2 vi.1)

/-- The `(v, i)` pairs visited by the R0 copying loop of
`orient_from_intervention`, in visiting order. -/
def copyPairs (n : Nat) (iset : List (List Nat)) : List (Nat × Nat) :=
  iset.flatMap (fun I => I.flatMap (fun v =>
    ((List.range n).filter (fun i => i ∉ I)).map (fun i => (v, i))))

/-- Transition property of every `meek` rule application: the undirected
count never grows, it strictly shrinks whenever the `edges_found` flag
flips from false to true, and the flag is never unset. -/
def MeekDecr (st st' : MState) : Prop :=
  undirCount st'.c ≤ undirCount st.c ∧
  (st.found = false → st'.found = true →
    undirCount st'.c < undirCount st.c) ∧
  (st.found = true → st'.found = true)

/-- Pairwise well-formedness of opposite matrix entries: an absent edge, a
directed edge (either way), or an undirected edge — the CPDAG encoding of
the source header. -/
abbrev WFpair (x y : Int) : Prop :=
  (x = 0 ∧ y = 0) ∨ (x = 1 ∧ y = 0) ∨ (x = 0 ∧ y = 1) ∨ (x = -1 ∧ y = -1)

/-- Well-formed CPDAG matrix: square, zero diagonal, and every opposite
pair of entries encodes an absent, directed or undirected edge. -/
def WF (M : Mat) : Prop :=
  Square M (msize M) ∧ (∀ a, mget M a a = 0) ∧
  ∀ a b, WFpair (mget M a b) (mget M b a)

/-- Adjacency of `a` and `b` in the matrix. -/
def Adj (M : Mat) (a b : Nat) : Prop := mget M a b ≠ 0 ∨ mget M b a ≠ 0

/-- An enabled instance of rule R1: `u → v`, `v – d` undirected, `u` and
`d` distinct and nonadjacent (lines 341-349). -/
def R1inst (M : Mat) (u v d : Nat) : Prop :=
  mget M u v = 1 ∧ mget M v d = -1 ∧ mget M d u = 0 ∧ mget M u d = 0 ∧ u ≠ d

/-- An enabled instance of rule R2: a chain `a → b → c` with `a – c` still
undirected (lines 353-379). -/
def R2inst (M : Mat) (a b c : Nat) : Prop :=
  mget M a b = 1 ∧ mget M b c = 1 ∧ mget M a c = -1

/-- An enabled instance of rule R3: a collider `u → v ← w` with `u, w`
nonadjacent and a diagonal node `t` undirectedly adjacent to all three
(lines 381-406). -/
def R3inst (M : Mat) (u w v t : Nat) : Prop :=
  mget M u v = 1 ∧ mget M w v = 1 ∧ w ≠ u ∧ t ≠ u ∧ t ≠ w ∧ t ≠ v ∧
  mget M t u = -1 ∧ mget M t w = -1 ∧ mget M t v = -1 ∧
  mget M u w = 0 ∧ mget M w u = 0

/-- An enabled instance of rule R4 (both code passes): a chain
`u → v → w`, `t` adjacent to `v`, `t – u` and `t – w` undirected, `u, w`
nonadjacent (lines 408-466). -/
def R4inst (M : Mat) (u v w t : Nat) : Prop :=
  mget M u v = 1 ∧ mget M v w = 1 ∧ Adj M t v ∧ t ≠ u ∧ t ≠ w ∧
  mget M t u = -1 ∧ mget M t w = -1 ∧ mget M u w = 0 ∧ mget M w u = 0

/-- No rule instance of the active rule set is enabled. -/
def NoInst (M : Mat) (skipR3 isTree : Bool) : Prop :=
  (∀ u v d, ¬ R1inst M u v d) ∧
  (isTree = false →
    (∀ a b c, ¬ R2inst M a b c) ∧
    (skipR3 = false → ∀ u w v t, ¬ R3inst M u w v t) ∧
    (∀ u v w t, ¬ R4inst M u v w t))

/-- Worklist invariant: every pending edge is directed, and every enabled
instance of an active rule has a triggering premise edge pending. -/
def InvW (M : Mat) (W : List (Nat × Nat)) (skipR3 isTree : Bool) : Prop :=
  (∀ e ∈ W, mget M e.1 e.2 = 1) ∧
  (∀ u v d, R1inst M u v d → (u, v) ∈ W) ∧
  (isTree = false →
    (∀ a b c, R2inst M a b c → (a, b) ∈ W ∨ (b, c) ∈ W) ∧
    (skipR3 = false →
      ∀ u w v t, R3inst M u w v t → (u, v) ∈ W ∨ (w, v) ∈ W) ∧
    (∀ u v w t, R4inst M u v w t → (u, v) ∈ W ∨ (v, w) ∈ W))

/-- Matrix evolution under rule firings: every opposite pair of entries is
either unchanged or goes from undirected to directed. -/
def Mono (X Y : Mat) : Prop :=
  ∀ a b, (mget Y a b = mget X a b ∧ mget Y b a = mget X b a) ∨
    (mget X a b = -1 ∧ mget X b a = -1 ∧
      ((mget Y a b = 1 ∧ mget Y b a = 0) ∨
       (mget Y a b = 0 ∧ mget Y b a = 1)))

/-- Relation between meek states along a pass, relative to well-formedness
of the starting matrix: the matrix evolves monotonically, stays well formed
and keeps its size, the worklist accumulator grows, every newly directed
edge is recorded in it, and every recorded edge is directed. -/
def StRel (st st' : MState) : Prop :=
  WF st.c →
    (WF st'.c ∧ Mono st.c st'.c ∧ msize st'.c = msize st.c ∧
     (∀ e ∈ st.temp, e ∈ st'.temp) ∧
     (∀ x y, mget st'.c x y = 1 → mget st.c x y = 1 ∨ (x, y) ∈ st'.temp) ∧
     (∀ e ∈ st'.temp, e ∈ st.temp ∨ mget st'.c e.1 e.2 = 1))

/-- Intermediate invariant inside one pipage iteration: like `LoopInv`,
but the indices in `exempt` (the two drawn coordinates, after the mass
move and before their snap checks) are only known to lie in `[0, 1]`. -/
def SnapInv (d : Nat) (B : ℚ) (exempt : List Nat) (y : List ℚ)
    (S : List Nat) : Prop :=
  y.length = d ∧ S.Nodup ∧ (∀ r ∈ S, r < d) ∧
  (∀ r, r < d → r ∉ S → (y.getD r 0 = 0 ∨ y.getD r 0 = 1)) ∧
  (∀ r ∈ S, (0 < y.getD r 0 ∧ y.getD r 0 < 1) ∨
    (r ∈ exempt ∧ 0 ≤ y.getD r 0 ∧ y.getD r 0 ≤ 1)) ∧
  y.sum + peps * S.length ≤ B ∧
  (∃ n : ℕ, y.sum = (n : ℚ) + (S.map (fun r => y.getD r 0)).sum)

/-! ### Claim theorems -/

/-- Helper: once a cap size has produced the early-return fallback, the
remaining cap sizes leave it unchanged. -/
lemma lazySSStep_error (n nb k : Nat) (obj : List (List Nat) → ℚ)
    (ssc : Nat → List (List Nat)) (smartSS allK : Bool) (o : SOracle)
    (r : List (List Nat)) (l : List Nat) :
    l.foldl (lazySSStep n nb k obj ssc smartSS allK o) (.error r) = .error r := by
  induction l with
  | nil => rfl
  | cons a t ih => exact ih

/-- C1 (counterexample): on the five-node instance, intervening on node `4`
with the code's `skip_r3 = False` closure applies rule R3 and orients the
edge `3–0`, while the `skipRule3 = true` closure demanded by the claim
leaves it undirected, so the two results differ. -/
theorem claim_C1_counterexample :
    mget (orient_from_intervention dagC1 cpdagC1 [[4]] false) 3 0 = 1 ∧
    mget (simulateIntervention_spec dagC1 cpdagC1 [[4]] false) 3 0 = -1 ∧
    orient_from_intervention dagC1 cpdagC1 [[4]] false ≠
      simulateIntervention_spec dagC1 cpdagC1 [[4]] false := by
  refine ⟨by decide, by decide, by decide⟩

/-- C1 (amended): `orient_from_intervention` feeds the collected newly
oriented edges to `meek` with `skip_r3 = False` (line 503), not `True`;
consequently rule R3 can fire during an intervention update, and on the
five-node instance the result differs from the `skipRule3 = true`
closure. -/
theorem claim_C1 :
    (∀ (dag c : Mat) (iset : List (List Nat)) (isTree : Bool),
      orient_from_intervention dag c iset isTree =
        simulateInterventionFlag dag c iset false isTree) ∧
    orient_from_intervention dagC1 cpdagC1 [[4]] false ≠
      simulateIntervention_spec dagC1 cpdagC1 [[4]] false :=
  ⟨fun _ _ _ _ => rfl, by decide⟩

/-- C6 (counterexample): the claim quantifies over all `1 ≤ k ≤ N`, but at
`N = k = 2` the construction computes `math.log(2, 1)` and raises a
`ZeroDivisionError` (modelled as `none`), so no candidate separates the
pair `{0, 1}`. -/
theorem claim_C6_counterexample :
    ss_construct 2 2 = none ∧
    ((ss_construct 2 2).getD []).all
      (fun s => !(xor (s.contains 0) (s.contains 1))) = true := by
  refine ⟨by decide, by decide⟩

/-- C7 (counterexample): with the thresholded set `S = {1}` (reached at
`x = [0, 1]`, `e = [1/2, 1/2]`) on the two-node instance, the code
accumulates `f({0,1}) − f({0}) − f({1}) + f({})` (base set `S∖{i,j}`),
giving `−2`, whereas the claim's finite difference
`f(S∪{i,j}) − f(S∪{i}) − f(S∪{j}) + f(S)` is `0`. -/
theorem claim_C7_counterexample :
    qget (hess_fun cpdag01 1 1 false [dag01] [] [0, 1] [1/2, 1/2]) 0 1 = -2 ∧
    hess_spec_entry dag01 cpdag01 [] false [0, 1] [1/2, 1/2] 0 1 = 0 ∧
    ((-2 : ℚ) ≠ 0) := by
  refine ⟨by decide, by decide, by decide⟩

/-- C8: each continuous optimizer raises after its ascent rounds exactly
when the fractional iterate's sum exceeds the cardinality bound by more
than the tolerance `0.1`, and otherwise proceeds (for `scdpp_ss`, with the
L1 normalization applied on the way to rounding). -/
theorem claim_C8 (x : List ℚ) (k nb : ℚ) :
    (scdpp_post x k = .error () ↔ x.sum > k + 1/10) ∧
    (¬ x.sum > k + 1/10 → scdpp_post x k = .ok x) ∧
    (gred_intervention_set_post x k = .error () ↔ x.sum > k + 1/10) ∧
    (¬ x.sum > k + 1/10 → gred_intervention_set_post x k = .ok x) ∧
    (scdpp_ss_post x nb = .error () ↔ x.sum > nb + 1/10) ∧
    (¬ x.sum > nb + 1/10 →
      scdpp_ss_post x nb = .ok (x.map (fun v => min (v / l1norm x * nb) 1))) := by
  unfold scdpp_post gred_intervention_set_post scdpp_ss_post
  refine ⟨?_, ?_, ?_, ?_, ?_, ?_⟩ <;> split_ifs with h <;> simp_all [one_div]

/-- Witness for C8 at concrete iterates: sum `3` against bound `2` raises in
all three optimizers, sum `1` against bound `2` proceeds. -/
theorem claim_C8_witness :
    scdpp_post [(3 : ℚ)] 2 = .error () ∧
    scdpp_post [(1 : ℚ)] 2 = .ok [1] ∧
    gred_intervention_set_post [(3 : ℚ)] 2 = .error () ∧
    scdpp_ss_post [(3 : ℚ)] 2 = .error () := by
  have h3 := claim_C8 [(3 : ℚ)] 2 2
  have h1 := claim_C8 [(1 : ℚ)] 2 2
  exact ⟨h3.1.mpr (by norm_num), h1.2.1 (by norm_num),
    h3.2.2.1.mpr (by norm_num), h3.2.2.2.2.1.mpr (by norm_num)⟩

/-- C9: whenever the constructed separating system is empty (and at least
one cap size is tried, `k ≥ 1`), `lazy_ss_intervention` returns the batch
of `n_b` interventions of `k` uniform `np.random.randint(n)` draws each —
it neither raises nor returns an empty batch, and the draws are node
indices below `n` whenever the oracle draws in range. -/
theorem claim_C9 (n nb k : Nat) (obj : List (List Nat) → ℚ)
    (ssc : Nat → List (List Nat)) (allK : Bool) (o : SOracle)
    (hk : 1 ≤ k) (hss : ssc k = []) :
    lazy_ss_intervention n nb k obj ssc true allK o =
      (List.range nb).map (fun b =>
        (List.range k).map (fun s => o.randint (b * k + s))) ∧
    (lazy_ss_intervention n nb k obj ssc true allK o).length = nb ∧
    (∀ iv ∈ lazy_ss_intervention n nb k obj ssc true allK o, iv.length = k) ∧
    ((∀ t, o.randint t < n) →
      ∀ iv ∈ lazy_ss_intervention n nb k obj ssc true allK o,
        ∀ m ∈ iv, m < n) := by
  obtain ⟨m, rfl⟩ : ∃ m, k = m + 1 := ⟨k - 1, by omega⟩
  have key : lazy_ss_intervention n nb (m + 1) obj ssc true allK o =
      (List.range nb).map (fun b =>
        (List.range (m + 1)).map (fun s => o.randint (b * (m + 1) + s))) := by
    unfold lazy_ss_intervention
    rw [List.range'_succ, List.foldl_cons]
    have h1 : lazySSStep n nb (m + 1) obj ssc true allK o (Except.ok none) 1 =
        .error ((List.range nb).map (fun b =>
          (List.range (m + 1)).map (fun s => o.randint (b * (m + 1) + s)))) := by
      unfold lazySSStep
      simp [hss]
    rw [h1, lazySSStep_error]
  refine ⟨key, ?_, ?_, ?_⟩
  · rw [key]; simp
  · rw [key]
    intro iv hiv
    simp only [List.mem_map, List.mem_range] at hiv
    obtain ⟨b, _, rfl⟩ := hiv
    simp
  · intro hrange iv hiv m' hm'
    rw [key] at hiv
    simp only [List.mem_map, List.mem_range] at hiv
    obtain ⟨b, _, rfl⟩ := hiv
    simp only [List.mem_map, List.mem_range] at hm'
    obtain ⟨s, _, rfl⟩ := hm'
    exact hrange _

/-- Witness for C9: three fallback interventions of two draws each over a
single node. -/
theorem claim_C9_witness :
    lazy_ss_intervention 1 3 2 (fun _ => (0 : ℚ)) (fun _ => []) true true
      ⟨fun _ => 0, fun _ => 0⟩ = [[0, 0], [0, 0], [0, 0]] :=
  ((claim_C9 1 3 2 (fun _ => (0 : ℚ)) (fun _ => []) true
    ⟨fun _ => 0, fun _ => 0⟩ (by decide) rfl).1).trans (by decide)

/-- C10 (code bug): with `n = 1`, `k = 2` and an empty separating system,
the fallback draws the intervention `np.random.randint(1, size=2)`
with replacement, so the batch certainly contains `[0, 0]` — an
intervention with a repeated node index, contradicting the data-model
invariant that an intervention is a set of distinct indices. -/
theorem claim_C10 :
    lazy_ss_intervention 1 1 2 (fun _ => (0 : ℚ)) (fun _ => []) true true
      ⟨fun _ => 0, fun _ => 0⟩ = [[0, 0]] ∧
    ¬ ([0, 0] : List Nat).Nodup := by
  refine ⟨by decide, by decide⟩

/-! ### The R0 copying step characterization (C2) -/

/-- Entry update law for `List.getD` after `List.set`. -/
lemma list_getD_set {α : Type _} (l : List α) (i j : Nat) (a d : α) :
    (l.set i a).getD j d = if i = j ∧ i < l.length then a else l.getD j d := by
  rcases Decidable.em (i = j) with h | h
  · subst h
    rcases Nat.lt_or_ge i l.length with h2 | h2
    · simp [List.getD_eq_getElem?_getD, List.getElem?_set_self, h2]
    · simp [List.getD_eq_getElem?_getD, List.set_eq_of_length_le h2, h2,
        Nat.not_lt.mpr h2]
  · simp [List.getD_eq_getElem?_getD, List.getElem?_set_ne h, h]

/-- Entry update law for `mget` after `mset`. -/
lemma mget_mset (M : Mat) (a b : Nat) (v : Int) (x y : Nat) :
    mget (mset M a b v) x y =
      if a = x ∧ b = y ∧ a < M.length ∧ b < (M.getD a []).length then v
      else mget M x y := by
  unfold mget mset
  simp only [List.getD_eq_getElem?_getD, List.getElem?_set]
  by_cases hx : a = x
  · subst hx
    by_cases hl : a < M.length
    · have he : M[a]?.getD ([] : List Int) = M[a] := by
        simp [List.getElem?_eq_getElem hl]
      rw [he]
      by_cases hy : b = y
      · subst hy
        by_cases hb : b < M[a].length
        · simp [hl, hb]
        · simp [hl, hb, List.set_eq_of_length_le (Nat.le_of_not_lt hb)]
      · simp [hl, hy]
    · simp [hl, List.getElem?_eq_none (Nat.le_of_not_lt hl)]
  · simp [hx]

/-- A nonzero `mget` read is in range. -/
lemma mget_in_range {M : Mat} {a b : Nat} (h : mget M a b ≠ 0) :
    a < M.length ∧ b < (M.getD a []).length := by
  constructor
  · by_contra ha
    refine h ?_
    unfold mget
    rw [List.getD_eq_default _ _ (Nat.le_of_not_lt ha)]
    rfl
  · by_contra hb
    exact h (List.getD_eq_default _ _ (Nat.le_of_not_lt hb))

/-- `mset` preserves the square shape. -/
lemma square_mset {M : Mat} {n : Nat} (hsq : Square M n) (a b : Nat)
    (v : Int) : Square (mset M a b v) n := by
  constructor
  · unfold mset
    simp only [List.length_set]
    exact hsq.1
  · intro row hrow
    rcases Nat.lt_or_ge a M.length with ha | ha
    · rcases List.mem_or_eq_of_mem_set hrow with h | h
      · exact hsq.2 row h
      · subst h
        simp only [List.length_set]
        refine hsq.2 _ ?_
        rw [List.getD_eq_getElem _ _ ha]
        exact List.getElem_mem ha
    · refine hsq.2 row ?_
      unfold mset at hrow
      rwa [List.set_eq_of_length_le ha] at hrow

/-- Every row of a square matrix has length `n`. -/
lemma row_len {M : Mat} {n : Nat} (hsq : Square M n) {a : Nat}
    (ha : a < M.length) : (M.getD a []).length = n := by
  refine hsq.2 _ ?_
  rw [List.getD_eq_getElem _ _ ha]
  exact List.getElem_mem ha

/-- `copyStep` preserves the square shape. -/
lemma copyStep_square {dag M : Mat} {n : Nat} (hsq : Square M n)
    (p : Nat × Nat) : Square (copyStep dag M p) n := by
  unfold copyStep
  split
  · exact hsq
  · exact square_mset (square_mset hsq _ _ _) _ _ _

/-- Pointwise effect of one R0 copying step. -/
lemma copyStep_char {n : Nat} (dag M : Mat) (hsq : Square M n) (v i x y : Nat) :
    mget (copyStep dag M (v, i)) x y =
      if mget M v i = -1 ∧ ((x, y) = (v, i) ∨ (x, y) = (i, v))
      then mget dag x y else mget M x y := by
  unfold copyStep
  by_cases h : mget M v i = -1
  · simp only [h, ne_eq, not_true_eq_false, if_false]
    have hin := @mget_in_range M v i (by rw [h]; decide)
    have hlen : M.length = n := hsq.1
    have hrowv : (M.getD v []).length = n := row_len hsq hin.1
    have hsq' : Square (mset M v i (mget dag v i)) n := square_mset hsq _ _ _
    have h1 : (mset M v i (mget dag v i)).length = n := hsq'.1
    have hi : i < (mset M v i (mget dag v i)).length := by
      rw [h1, ← hrowv]; exact hin.2
    have hrowi : ((mset M v i (mget dag v i)).getD i []).length = n :=
      row_len hsq' hi
    rw [mget_mset, mget_mset]
    split_ifs <;> simp_all [Prod.mk.injEq] <;> omega
  · simp [h]

/-- Pointwise effect of the R0 copying fold: an entry is copied from the
true dag exactly when its pair is visited from an endpoint at which the
initial matrix is undirected. -/
lemma copyFold_char (dag : Mat) {n : Nat} :
    ∀ (L : List (Nat × Nat)) (c : Mat), Square c n → ∀ x y : Nat,
    mget (L.foldl (copyStep dag) c) x y =
      if (mget c x y = -1 ∧ (x, y) ∈ L) ∨ (mget c y x = -1 ∧ (y, x) ∈ L)
      then mget dag x y else mget c x y := by
  intro L
  induction L with
  | nil =>
    intro c _ x y
    simp
  | cons p T ih =>
    intro c hsq x y
    obtain ⟨v, i⟩ := p
    rw [List.foldl_cons, ih _ (copyStep_square hsq _) x y,
      copyStep_char dag c hsq v i x y, copyStep_char dag c hsq v i y x]
    by_cases h : mget c v i = -1
    · by_cases hxy : (x, y) = (v, i) ∨ (x, y) = (i, v)
      · have hval : (if mget c v i = -1 ∧ ((x, y) = (v, i) ∨ (x, y) = (i, v))
            then mget dag x y else mget c x y) = mget dag x y :=
          if_pos ⟨h, hxy⟩
        rw [hval, ite_self]
        rcases hxy with h1 | h1
        · rw [Prod.mk.injEq] at h1
          obtain ⟨rfl, rfl⟩ := h1
          rw [if_pos (Or.inl ⟨h, List.mem_cons_self _ _⟩)]
        · rw [Prod.mk.injEq] at h1
          obtain ⟨rfl, rfl⟩ := h1
          rw [if_pos (Or.inr ⟨h, List.mem_cons_self _ _⟩)]
      · have hyx : ¬ ((y, x) = (v, i) ∨ (y, x) = (i, v)) := by
          simp only [Prod.mk.injEq] at hxy ⊢
          tauto
        have e1 : (if mget c v i = -1 ∧ ((x, y) = (v, i) ∨ (x, y) = (i, v))
            then mget dag x y else mget c x y) = mget c x y :=
          if_neg (fun hc => hxy hc.2)
        have e2 : (if mget c v i = -1 ∧ ((y, x) = (v, i) ∨ (y, x) = (i, v))
            then mget dag y x else mget c y x) = mget c y x :=
          if_neg (fun hc => hyx hc.2)
        rw [e1, e2]
        refine if_congr ?_ rfl rfl
        simp only [List.mem_cons]
        constructor
        · rintro (⟨h1, h2⟩ | ⟨h1, h2⟩)
          · exact Or.inl ⟨h1, Or.inr h2⟩
          · exact Or.inr ⟨h1, Or.inr h2⟩
        · rintro (⟨h1, h2 | h2⟩ | ⟨h1, h2 | h2⟩)
          · exact absurd (Or.inl h2) hxy
          · exact Or.inl ⟨h1, h2⟩
          · exact absurd (Or.inl h2) hyx
          · exact Or.inr ⟨h1, h2⟩
    · have e1 : (if mget c v i = -1 ∧ ((x, y) = (v, i) ∨ (x, y) = (i, v))
          then mget dag x y else mget c x y) = mget c x y :=
        if_neg (fun hc => h hc.1)
      have e2 : (if mget c v i = -1 ∧ ((y, x) = (v, i) ∨ (y, x) = (i, v))
          then mget dag y x else mget c y x) = mget c y x :=
        if_neg (fun hc => h hc.1)
      rw [e1, e2]
      refine if_congr ?_ rfl rfl
      simp only [List.mem_cons]
      constructor
      · rintro (⟨h1, h2⟩ | ⟨h1, h2⟩)
        · exact Or.inl ⟨h1, Or.inr h2⟩
        · exact Or.inr ⟨h1, Or.inr h2⟩
      · rintro (⟨h1, h2 | h2⟩ | ⟨h1, h2 | h2⟩)
        · rw [Prod.mk.injEq] at h2
          obtain ⟨rfl, rfl⟩ := h2
          exact absurd h1 h
        · exact Or.inl ⟨h1, h2⟩
        · rw [Prod.mk.injEq] at h2
          obtain ⟨rfl, rfl⟩ := h2
          exact absurd h1 h
        · exact Or.inr ⟨h1, h2⟩

/-- The matrix component of `r0CopyInner` is one `copyStep` when `i` is
outside the intervention. -/
lemma r0CopyInner_fst (dag : Mat) (I : List Nat) (v : Nat)
    (acc : Mat × List (Nat × Nat)) (i : Nat) :
    (r0CopyInner dag I v acc i).1 =
      if i ∉ I then copyStep dag acc.1 (v, i) else acc.1 := by
  unfold r0CopyInner copyStep
  split_ifs <;> rfl

/-- `r0CopyInner` leaves the accumulator unchanged inside the
intervention. -/
lemma r0CopyInner_mem (dag : Mat) (I : List Nat) (v : Nat)
    (acc : Mat × List (Nat × Nat)) {i : Nat} (hi : i ∈ I) :
    r0CopyInner dag I v acc i = acc := by
  unfold r0CopyInner
  rw [if_neg (by simpa using hi)]

/-- The matrix component of the inner `for i` loop is a `copyStep` fold over
the out-of-intervention nodes. -/
lemma r0CopyInner_fold (dag : Mat) (I : List Nat) (v : Nat) :
    ∀ (l : List Nat) (acc : Mat × List (Nat × Nat)),
    (l.foldl (r0CopyInner dag I v) acc).1 =
      ((l.filter (fun i => i ∉ I)).map (fun i => (v, i))).foldl
        (copyStep dag) acc.1 := by
  intro l
  induction l with
  | nil => intro acc; rfl
  | cons a t ih =>
    intro acc
    rw [List.foldl_cons, List.filter_cons]
    by_cases ha : a ∉ I
    · rw [if_pos (by simpa using ha), List.map_cons, List.foldl_cons, ih,
        r0CopyInner_fst, if_pos ha]
    · rw [if_neg (by simpa using ha), ih,
        r0CopyInner_mem dag I v acc (by simpa using ha)]

/-- The matrix component of the middle `for v` loop is a `copyStep` fold
over the visited pairs. -/
lemma r0CopyMiddle_fold (dag : Mat) (n : Nat) (I : List Nat) :
    ∀ (vs : List Nat) (acc : Mat × List (Nat × Nat)),
    ((vs.foldl (fun acc v =>
        (List.range n).foldl (r0CopyInner dag I v) acc) acc).1 =
      (vs.flatMap (fun v =>
        ((List.range n).filter (fun i => i ∉ I)).map (fun i => (v, i)))).foldl
        (copyStep dag) acc.1) := by
  intro vs
  induction vs with
  | nil => intro acc; rfl
  | cons v t ih =>
    intro acc
    rw [List.foldl_cons, List.flatMap_cons, List.foldl_append, ih,
      r0CopyInner_fold]

/-- The matrix component of `r0Copy` is the `copyStep` fold over
`copyPairs`. -/
lemma r0Copy_fst (dag c : Mat) (iset : List (List Nat)) :
    (r0Copy dag c iset).1 =
      (copyPairs (msize dag) iset).foldl (copyStep dag) c := by
  suffices h : ∀ (l : List (List Nat)) (acc : Mat × List (Nat × Nat)),
      ((l.foldl (fun acc I => I.foldl (fun acc v =>
          (List.range (msize dag)).foldl (r0CopyInner dag I v) acc) acc)
        acc).1 =
        (copyPairs (msize dag) l).foldl (copyStep dag) acc.1) by
    exact h iset (c, [])
  intro l
  induction l with
  | nil => intro acc; rfl
  | cons I t ih =>
    intro acc
    rw [List.foldl_cons, copyPairs, List.flatMap_cons, List.foldl_append,
      ih, r0CopyMiddle_fold]
    rfl

/-- Membership in the visited pair list. -/
lemma copyPairs_mem (n : Nat) (iset : List (List Nat)) (x y : Nat) :
    (x, y) ∈ copyPairs n iset ↔ ∃ I ∈ iset, x ∈ I ∧ y ∉ I ∧ y < n := by
  simp only [copyPairs, List.mem_flatMap, List.mem_map, List.mem_filter,
    List.mem_range, Prod.mk.injEq, decide_eq_true_eq]
  constructor
  · rintro ⟨I, hI, v, hv, i, ⟨⟨hin, hni⟩, rfl, rfl⟩⟩
    exact ⟨I, hI, hv, hni, hin⟩
  · rintro ⟨I, hI, hv, hni, hyn⟩
    exact ⟨I, hI, x, hv, y, ⟨⟨hyn, hni⟩, rfl, rfl⟩⟩

/-- C2 (amended): after the R0 copying step (before closure runs), an entry
pair `{x, y}` holds the true dag's entries exactly when one of its
endpoints lies in some intervention of the batch that excludes the other
endpoint and the matrix was undirected at the corresponding entry; every
other entry — in particular every already-directed or absent edge — is
unchanged.  An edge between two nodes of one intervention may thus still
be copied while processing another intervention of the batch that
separates them. -/
theorem claim_C2 (dag c : Mat) (iset : List (List Nat)) (x y : Nat)
    (hsq : Square c (msize dag)) :
    mget (r0Copy dag c iset).1 x y =
      if (mget c x y = -1 ∧ ∃ I ∈ iset, x ∈ I ∧ y ∉ I ∧ y < msize dag)
        ∨ (mget c y x = -1 ∧ ∃ I ∈ iset, y ∈ I ∧ x ∉ I ∧ x < msize dag)
      then mget dag x y else mget c x y := by
  rw [r0Copy_fst, copyFold_char dag _ c hsq x y]
  refine if_congr ?_ rfl rfl
  rw [copyPairs_mem, copyPairs_mem]

/-- C2 (counterexample): with the batch `[[0, 1], [0]]` on the two-node
instance, the copying step orients the undirected edge `0–1` even though
nodes `0` and `1` lie in the same intervention `[0, 1]` of the batch —
the second intervention `[0]` separates them. -/
theorem claim_C2_counterexample :
    mget (r0Copy dag01 cpdag01 [[0, 1], [0]]).1 0 1 = 1 ∧
    mget cpdag01 0 1 = -1 ∧
    (0 ∈ ([0, 1] : List Nat) ∧ 1 ∈ ([0, 1] : List Nat) ∧
      [0, 1] ∈ [[0, 1], [0]] ∧ ([[0, 1], [0]] : List (List Nat)) ≠ []) := by
  refine ⟨by decide, by decide, by decide⟩

/-- Witness for C2 on the two-node instance with the batch `[[0]]`. -/
theorem claim_C2_witness :
    mget (r0Copy dag01 cpdag01 [[0]]).1 0 1 = 1 := by
  have h := claim_C2 dag01 cpdag01 [[0]] 0 1 ⟨by decide, by decide⟩
  exact h.trans (by decide)

/-! ### The Hessian estimator characterization (C7) -/

/-- `memoStep` keeps every stored value equal to the objective evaluation of
its key. -/
lemma memoStep_ok {dag c : Mat} {iset : List (List Nat)} {isTree : Bool}
    {cache : List (List Nat × ℚ)}
    (h : ∀ p ∈ cache, p.2 = fEval dag c iset isTree p.1) (key : List Nat) :
    ∀ p ∈ memoStep dag c iset isTree cache key,
      p.2 = fEval dag c iset isTree p.1 := by
  unfold memoStep
  cases hl : cache.lookup key with
  | some v => exact h
  | none =>
    intro p hp
    rcases List.mem_append.mp hp with hp | hp
    · exact h p hp
    · simp only [List.mem_singleton] at hp
      subst hp
      rfl

/-- `memoStep` never forgets a binding. -/
lemma memoStep_lookup_mono {dag c : Mat} {iset : List (List Nat)}
    {isTree : Bool} {cache : List (List Nat × ℚ)} {k : List Nat} {v : ℚ}
    (h : cache.lookup k = some v) (key : List Nat) :
    (memoStep dag c iset isTree cache key).lookup k = some v := by
  unfold memoStep
  cases hl : cache.lookup key with
  | some w => exact h
  | none => rw [List.lookup_append, h]; rfl

/-- After `memoStep` on a consistent cache, the key is bound to its
objective evaluation. -/
lemma memoStep_lookup_self {dag c : Mat} {iset : List (List Nat)}
    {isTree : Bool} {cache : List (List Nat × ℚ)}
    (h : ∀ p ∈ cache, p.2 = fEval dag c iset isTree p.1) (key : List Nat) :
    (memoStep dag c iset isTree cache key).lookup key =
      some (fEval dag c iset isTree key) := by
  unfold memoStep
  cases hl : cache.lookup key with
  | some v =>
    have hv : (key, v) ∈ cache := by
      rw [List.lookup_eq_some_iff] at hl
      obtain ⟨l₁, l₂, rfl, _⟩ := hl
      simp
    have hveq : v = fEval dag c iset isTree key := by simpa using h _ hv
    simpa [hveq] using hl
  | none =>
    rw [List.lookup_append, hl]
    simp

/-- A fold of `memoStep`s keeps the cache consistent. -/
lemma memoFold_ok {dag c : Mat} {iset : List (List Nat)} {isTree : Bool} :
    ∀ (keys : List (List Nat)) (cache : List (List Nat × ℚ)),
    (∀ p ∈ cache, p.2 = fEval dag c iset isTree p.1) →
    ∀ p ∈ keys.foldl (memoStep dag c iset isTree) cache,
      p.2 = fEval dag c iset isTree p.1 := by
  intro keys
  induction keys with
  | nil => exact fun cache h => h
  | cons k t ih => exact fun cache h => ih _ (memoStep_ok h k)

/-- A fold of `memoStep`s never forgets a binding. -/
lemma memoFold_lookup_mono {dag c : Mat} {iset : List (List Nat)}
    {isTree : Bool} {k : List Nat} {v : ℚ} :
    ∀ (keys : List (List Nat)) (cache : List (List Nat × ℚ)),
    cache.lookup k = some v →
    (keys.foldl (memoStep dag c iset isTree) cache).lookup k = some v := by
  intro keys
  induction keys with
  | nil => exact fun cache h => h
  | cons k0 t ih => exact fun cache h => ih _ (memoStep_lookup_mono h k0)

/-- After folding `memoStep` over a key list on a consistent cache, every
key of the list is bound to its objective evaluation. -/
lemma memoFold_lookup {dag c : Mat} {iset : List (List Nat)} {isTree : Bool}
    {k : List Nat} :
    ∀ (keys : List (List Nat)) (cache : List (List Nat × ℚ)),
    (∀ p ∈ cache, p.2 = fEval dag c iset isTree p.1) →
    k ∈ keys →
    (keys.foldl (memoStep dag c iset isTree) cache).lookup k =
      some (fEval dag c iset isTree k) := by
  intro keys
  induction keys with
  | nil => exact fun cache _ hk => absurd hk (List.not_mem_nil k)
  | cons k0 t ih =>
    intro cache hok hk
    rcases List.mem_cons.mp hk with rfl | hk
    · exact memoFold_lookup_mono t _ (memoStep_lookup_self hok k)
    · exact ih _ (memoStep_ok hok k0) hk

/-- Entry update law for `qget` after `qset`. -/
lemma qget_qset (M : QMat) (a b : Nat) (v : ℚ) (x y : Nat) :
    qget (qset M a b v) x y =
      if a = x ∧ b = y ∧ a < M.length ∧ b < (M.getD a []).length then v
      else qget M x y := by
  unfold qget qset
  simp only [List.getD_eq_getElem?_getD, List.getElem?_set]
  by_cases hx : a = x
  · subst hx
    by_cases hl : a < M.length
    · have he : M[a]?.getD ([] : List ℚ) = M[a] := by
        simp [List.getElem?_eq_getElem hl]
      rw [he]
      by_cases hy : b = y
      · subst hy
        by_cases hb : b < M[a].length
        · simp [hl, hb]
        · simp [hl, hb, List.set_eq_of_length_le (Nat.le_of_not_lt hb)]
      · simp [hl, hy]
    · simp [hl, List.getElem?_eq_none (Nat.le_of_not_lt hl)]
  · simp [hx]

/-- `qset` does not change the row count. -/
lemma qset_length (M : QMat) (a b : Nat) (v : ℚ) :
    (qset M a b v).length = M.length := by
  unfold qset
  simp [List.length_set]

/-- `qset` does not change any row length. -/
lemma qset_getD_length (M : QMat) (a b r : Nat) (v : ℚ) :
    ((qset M a b v).getD r []).length = (M.getD r []).length := by
  unfold qset
  rw [list_getD_set]
  split_ifs with h
  · rw [List.length_set, h.1]
  · rfl

/-- A pair step off the target entry leaves that entry unchanged. -/
lemma hessPairStep_fst_ne {dag c : Mat} {iset : List (List Nat)}
    {isTree : Bool} {numSample totalX : Nat} {S : List Nat} {a : Nat}
    {acc : QMat × List (List Nat × ℚ)} {b i j : Nat}
    (hne : ¬ (a = i ∧ b = j)) :
    qget (hessPairStep dag c iset isTree numSample totalX S a acc b).1 i j =
      qget acc.1 i j := by
  unfold hessPairStep
  split_ifs with h
  · rfl
  · dsimp only
    rw [qget_qset, if_neg (fun hc => hne ⟨hc.1, hc.2.1⟩)]

/-- A pair step keeps the memo cache consistent. -/
lemma hessPairStep_ok {dag c : Mat} {iset : List (List Nat)} {isTree : Bool}
    {numSample totalX : Nat} {S : List Nat} {a : Nat}
    {acc : QMat × List (List Nat × ℚ)} {b : Nat}
    (h : ∀ p ∈ acc.2, p.2 = fEval dag c iset isTree p.1) :
    ∀ p ∈ (hessPairStep dag c iset isTree numSample totalX S a acc b).2,
      p.2 = fEval dag c iset isTree p.1 := by
  unfold hessPairStep
  split_ifs with hab
  · exact h
  · dsimp only
    exact memoFold_ok _ _ h

/-- A pair step does not change the shape of the accumulated matrix. -/
lemma hessPairStep_dims {dag c : Mat} {iset : List (List Nat)}
    {isTree : Bool} {numSample totalX : Nat} {S : List Nat} {a : Nat}
    {acc : QMat × List (List Nat × ℚ)} {b : Nat} :
    (hessPairStep dag c iset isTree numSample totalX S a acc b).1.length =
      acc.1.length ∧
    ∀ r, ((hessPairStep dag c iset isTree numSample totalX S a acc b).1.getD
      r []).length = (acc.1.getD r []).length := by
  unfold hessPairStep
  split_ifs with hab
  · exact ⟨rfl, fun _ => rfl⟩
  · exact ⟨qset_length _ _ _ _, fun r => qset_getD_length _ _ _ _ _⟩

/-- The pair step at the target entry adds the memoised finite
difference. -/
lemma hessPairStep_fst_eq {dag c : Mat} {iset : List (List Nat)}
    {isTree : Bool} {numSample totalX : Nat} {S : List Nat}
    {acc : QMat × List (List Nat × ℚ)} {i j : Nat} (hij : i ≠ j)
    (hok : ∀ p ∈ acc.2, p.2 = fEval dag c iset isTree p.1)
    (hi : i < acc.1.length) (hj : j < (acc.1.getD i []).length) :
    qget (hessPairStep dag c iset isTree numSample totalX S i acc j).1 i j =
      qget acc.1 i j +
        (fEval dag c iset isTree (setList ([i, j] ++ S)) -
          fEval dag c iset isTree (setList (([i] ++ S).filter (fun m => m ≠ j))) -
          fEval dag c iset isTree (setList (([j] ++ S).filter (fun m => m ≠ i))) +
          fEval dag c iset isTree (setList (S.filter (fun m => m ≠ i ∧ m ≠ j)))) /
          ((numSample * totalX : Nat) : ℚ) := by
  unfold hessPairStep
  rw [if_neg hij]
  dsimp only
  rw [qget_qset, if_pos ⟨rfl, rfl, hi, hj⟩]
  rw [memoFold_lookup _ _ hok (by simp : setList ([i, j] ++ S) ∈ _),
    memoFold_lookup _ _ hok
      (by simp : setList (([i] ++ S).filter (fun m => m ≠ j)) ∈ _),
    memoFold_lookup _ _ hok
      (by simp : setList (([j] ++ S).filter (fun m => m ≠ i)) ∈ _),
    memoFold_lookup _ _ hok
      (by simp : setList (S.filter (fun m => m ≠ i ∧ m ≠ j)) ∈ _)]
  rfl

/-- The inner pair scan for a row `a ≠ i` does not touch entry `(i, j)` and
keeps cache and shape. -/
lemma hessInner_ne {dag c : Mat} {iset : List (List Nat)} {isTree : Bool}
    {numSample totalX : Nat} {S : List Nat} {a i j : Nat} (hai : a ≠ i) :
    ∀ (l : List Nat) (acc : QMat × List (List Nat × ℚ)),
    (∀ p ∈ acc.2, p.2 = fEval dag c iset isTree p.1) →
    (∀ p ∈ (l.foldl (hessPairStep dag c iset isTree numSample totalX S a)
        acc).2, p.2 = fEval dag c iset isTree p.1) ∧
    (l.foldl (hessPairStep dag c iset isTree numSample totalX S a)
        acc).1.length = acc.1.length ∧
    (∀ r, ((l.foldl (hessPairStep dag c iset isTree numSample totalX S a)
        acc).1.getD r []).length = (acc.1.getD r []).length) ∧
    qget (l.foldl (hessPairStep dag c iset isTree numSample totalX S a)
        acc).1 i j = qget acc.1 i j := by
  intro l
  induction l with
  | nil => exact fun acc h => ⟨h, rfl, fun _ => rfl, rfl⟩
  | cons b t ih =>
    intro acc h
    rw [List.foldl_cons]
    obtain ⟨h1, h2, h3, h4⟩ := ih _ (hessPairStep_ok h)
    refine ⟨h1, ?_, ?_, ?_⟩
    · rw [h2, hessPairStep_dims.1]
    · intro r
      rw [h3 r, hessPairStep_dims.2 r]
    · rw [h4, hessPairStep_fst_ne (fun hc => hai hc.1)]

/-- The inner pair scan for row `i` adds the finite difference once per
occurrence of `j`. -/
lemma hessInner_eq {dag c : Mat} {iset : List (List Nat)} {isTree : Bool}
    {numSample totalX : Nat} {S : List Nat} {i j : Nat} (hij : i ≠ j) :
    ∀ (l : List Nat) (acc : QMat × List (List Nat × ℚ)),
    (∀ p ∈ acc.2, p.2 = fEval dag c iset isTree p.1) →
    i < acc.1.length → j < (acc.1.getD i []).length →
    (∀ p ∈ (l.foldl (hessPairStep dag c iset isTree numSample totalX S i)
        acc).2, p.2 = fEval dag c iset isTree p.1) ∧
    (l.foldl (hessPairStep dag c iset isTree numSample totalX S i)
        acc).1.length = acc.1.length ∧
    (∀ r, ((l.foldl (hessPairStep dag c iset isTree numSample totalX S i)
        acc).1.getD r []).length = (acc.1.getD r []).length) ∧
    qget (l.foldl (hessPairStep dag c iset isTree numSample totalX S i)
        acc).1 i j = qget acc.1 i j + (l.count j : ℚ) *
        ((fEval dag c iset isTree (setList ([i, j] ++ S)) -
          fEval dag c iset isTree (setList (([i] ++ S).filter (fun m => m ≠ j))) -
          fEval dag c iset isTree (setList (([j] ++ S).filter (fun m => m ≠ i))) +
          fEval dag c iset isTree (setList (S.filter (fun m => m ≠ i ∧ m ≠ j)))) /
          ((numSample * totalX : Nat) : ℚ)) := by
  intro l
  induction l with
  | nil =>
    intro acc h _ _
    refine ⟨h, rfl, fun _ => rfl, ?_⟩
    simp
  | cons b t ih =>
    intro acc h hi hj
    rw [List.foldl_cons]
    have hdims := @hessPairStep_dims dag c iset isTree numSample totalX S i acc b
    obtain ⟨h1, h2, h3, h4⟩ := ih _ (hessPairStep_ok h)
      (by rw [hdims.1]; exact hi) (by rw [hdims.2 i]; exact hj)
    refine ⟨h1, by rw [h2, hdims.1], fun r => by rw [h3 r, hdims.2 r], ?_⟩
    rw [h4]
    by_cases hb : b = j
    · subst hb
      rw [hessPairStep_fst_eq hij h hi hj, List.count_cons_self]
      push_cast
      ring
    · rw [hessPairStep_fst_ne (fun hc => hb hc.2),
        List.count_cons_of_ne (by omega)]

/-- Sum of an indicator map over a list without the index. -/
lemma sum_map_ite_zero {i : Nat} {m : Nat} :
    ∀ l : List Nat, i ∉ l →
    (l.map (fun a => if a = i then m else 0)).sum = 0 := by
  intro l
  induction l with
  | nil => intro _; rfl
  | cons a t ih =>
    intro h
    rw [List.map_cons, List.sum_cons,
      if_neg (fun hc => h (by rw [← hc]; exact List.mem_cons_self a t)),
      ih (fun hc => h (List.mem_cons_of_mem a hc))]

/-- Sum of an indicator map over a duplicate-free list containing the
index. -/
lemma sum_map_ite {i : Nat} {m : Nat} :
    ∀ l : List Nat, l.Nodup → i ∈ l →
    (l.map (fun a => if a = i then m else 0)).sum = m := by
  intro l
  induction l with
  | nil => intro _ h; exact absurd h (List.not_mem_nil i)
  | cons a t ih =>
    intro hn hm
    rw [List.map_cons, List.sum_cons]
    rcases List.mem_cons.mp hm with rfl | hm
    · rw [if_pos rfl, sum_map_ite_zero t (List.nodup_cons.mp hn).1]
      omega
    · rw [if_neg (fun hc => (List.nodup_cons.mp hn).1 (by rw [hc]; exact hm)),
        ih (List.nodup_cons.mp hn).2 hm, Nat.zero_add]

/-- The row scan of `hessRep` adds the finite difference once for each
visit of the pair `(i, j)`. -/
lemma hessOuter {dag c : Mat} {iset : List (List Nat)} {isTree : Bool}
    {numSample totalX : Nat} {S : List Nat} {i j n : Nat} (hij : i ≠ j) :
    ∀ (l : List Nat) (acc : QMat × List (List Nat × ℚ)),
    (∀ p ∈ acc.2, p.2 = fEval dag c iset isTree p.1) →
    i < acc.1.length → j < (acc.1.getD i []).length →
    (∀ p ∈ (l.foldl (fun acc a => (List.range' a (n - a)).foldl
        (hessPairStep dag c iset isTree numSample totalX S a) acc) acc).2,
      p.2 = fEval dag c iset isTree p.1) ∧
    (l.foldl (fun acc a => (List.range' a (n - a)).foldl
        (hessPairStep dag c iset isTree numSample totalX S a) acc)
        acc).1.length = acc.1.length ∧
    (∀ r, ((l.foldl (fun acc a => (List.range' a (n - a)).foldl
        (hessPairStep dag c iset isTree numSample totalX S a) acc)
        acc).1.getD r []).length = (acc.1.getD r []).length) ∧
    qget (l.foldl (fun acc a => (List.range' a (n - a)).foldl
        (hessPairStep dag c iset isTree numSample totalX S a) acc)
        acc).1 i j = qget acc.1 i j +
      ((l.map (fun a => if a = i then (List.range' a (n - a)).count j
        else 0)).sum : ℚ) *
        ((fEval dag c iset isTree (setList ([i, j] ++ S)) -
          fEval dag c iset isTree (setList (([i] ++ S).filter (fun m => m ≠ j))) -
          fEval dag c iset isTree (setList (([j] ++ S).filter (fun m => m ≠ i))) +
          fEval dag c iset isTree (setList (S.filter (fun m => m ≠ i ∧ m ≠ j)))) /
          ((numSample * totalX : Nat) : ℚ)) := by
  intro l
  induction l with
  | nil =>
    intro acc h _ _
    refine ⟨h, rfl, fun _ => rfl, ?_⟩
    simp
  | cons a t ih =>
    intro acc h hi hj
    rw [List.foldl_cons]
    by_cases ha : a = i
    · subst a
      obtain ⟨g1, g2, g3, g4⟩ := hessInner_eq hij (List.range' i (n - i)) acc h hi hj
      obtain ⟨h1, h2, h3, h4⟩ := ih _ g1 (by rw [g2]; exact hi)
        (by rw [g3 i]; exact hj)
      refine ⟨h1, by rw [h2, g2], fun r => by rw [h3 r, g3 r], ?_⟩
      rw [h4, g4, List.map_cons, List.sum_cons, if_pos rfl]
      push_cast
      ring
    · obtain ⟨g1, g2, g3, g4⟩ := hessInner_ne ha (List.range' a (n - a)) acc h
      obtain ⟨h1, h2, h3, h4⟩ := ih _ g1 (by rw [g2]; exact hi)
        (by rw [g3 i]; exact hj)
      refine ⟨h1, by rw [h2, g2], fun r => by rw [h3 r, g3 r], ?_⟩
      rw [h4, g4, List.map_cons, List.sum_cons, if_neg ha, Nat.zero_add]

/-- One repetition of the `hess_fun` body adds the code's finite difference
to entry `(i, j)` exactly once. -/
lemma hessRep_entry {dag c : Mat} {iset : List (List Nat)} {isTree : Bool}
    {numSample totalX : Nat} {x e : List ℚ} {i j : Nat}
    (hij : i < j) (hj : j < msize c) :
    ∀ (acc : QMat × List (List Nat × ℚ)),
    (∀ p ∈ acc.2, p.2 = fEval dag c iset isTree p.1) →
    i < acc.1.length → j < (acc.1.getD i []).length →
    (∀ p ∈ (hessRep dag c iset isTree numSample totalX x e acc).2,
      p.2 = fEval dag c iset isTree p.1) ∧
    (hessRep dag c iset isTree numSample totalX x e acc).1.length =
      acc.1.length ∧
    (∀ r, ((hessRep dag c iset isTree numSample totalX x e acc).1.getD
      r []).length = (acc.1.getD r []).length) ∧
    qget (hessRep dag c iset isTree numSample totalX x e acc).1 i j =
      qget acc.1 i j + hess_code_entry dag c iset isTree x e i j /
        ((numSample * totalX : Nat) : ℚ) := by
  intro acc hok hi hjd
  have hij' : i ≠ j := Nat.ne_of_lt hij
  unfold hessRep
  dsimp only
  obtain ⟨h1, h2, h3, h4⟩ :=
    @hessOuter dag c iset isTree numSample totalX
      ((List.range (msize c)).filter (fun s => e.getD s 0 < x.getD s 0))
      i j (msize c) hij' (List.range (msize c)) acc hok hi hjd
  refine ⟨h1, h2, h3, ?_⟩
  rw [h4]
  have hmapeq : (List.range (msize c)).map
      (fun a => if a = i then (List.range' a (msize c - a)).count j else 0) =
      (List.range (msize c)).map
      (fun a => if a = i then (List.range' i (msize c - i)).count j else 0) := by
    refine List.map_congr_left ?_
    intro a _
    by_cases ha : a = i
    · subst a; rfl
    · rw [if_neg ha, if_neg ha]
  have hcount : (List.range' i (msize c - i)).count j = 1 := by
    refine List.count_eq_one_of_mem (List.nodup_range' i (msize c - i) 1
      Nat.one_pos) ?_
    rw [List.mem_range'_1]
    omega
  rw [hmapeq, hcount, sum_map_ite (List.range (msize c)) (List.nodup_range _)
    (List.mem_range.mpr (by omega))]
  rw [Nat.cast_one, one_mul]
  rfl

/-- The `total_x` repetitions of the `hess_fun` body add the finite
difference `total_x` times. -/
lemma hessReps_entry {dag c : Mat} {iset : List (List Nat)} {isTree : Bool}
    {numSample totalX : Nat} {x e : List ℚ} {i j : Nat}
    (hij : i < j) (hj : j < msize c) :
    ∀ (m : Nat) (acc : QMat × List (List Nat × ℚ)),
    (∀ p ∈ acc.2, p.2 = fEval dag c iset isTree p.1) →
    i < acc.1.length → j < (acc.1.getD i []).length →
    (∀ p ∈ ((List.range m).foldl
        (fun acc _ => hessRep dag c iset isTree numSample totalX x e acc)
        acc).2, p.2 = fEval dag c iset isTree p.1) ∧
    ((List.range m).foldl
        (fun acc _ => hessRep dag c iset isTree numSample totalX x e acc)
        acc).1.length = acc.1.length ∧
    (∀ r, (((List.range m).foldl
        (fun acc _ => hessRep dag c iset isTree numSample totalX x e acc)
        acc).1.getD r []).length = (acc.1.getD r []).length) ∧
    qget ((List.range m).foldl
        (fun acc _ => hessRep dag c iset isTree numSample totalX x e acc)
        acc).1 i j = qget acc.1 i j +
      (m : ℚ) * (hess_code_entry dag c iset isTree x e i j /
        ((numSample * totalX : Nat) : ℚ)) := by
  intro m
  induction m with
  | zero =>
    intro acc h _ _
    refine ⟨h, rfl, fun _ => rfl, ?_⟩
    simp
  | succ m ih =>
    intro acc h hi hjd
    rw [List.range_succ, List.foldl_append, List.foldl_cons, List.foldl_nil]
    obtain ⟨g1, g2, g3, g4⟩ := ih acc h hi hjd
    obtain ⟨h1, h2, h3, h4⟩ := hessRep_entry hij hj _ g1
      (by rw [g2]; exact hi) (by rw [g3 i]; exact hjd)
    refine ⟨h1, by rw [h2, g2], fun r => by rw [h3 r, g3 r], ?_⟩
    rw [h4, g4]
    push_cast
    ring

/-- C7 (amended): entry `(i, j)` of the Hessian estimate accumulates, for
every sampled dag and each of the `total_x` repetitions, the finite
difference `f(S∪{i,j}) − f((S∪{i})∖{j}) − f((S∪{j})∖{i}) + f(S∖{i,j})`
divided by `num_sample · total_x` — the base set is `S` with `i` and `j`
forced out (lines 839-842), which coincides with the claim's
`f(S∪{i,j}) − f(S∪{i}) − f(S∪{j}) + f(S)` only when neither `i` nor `j`
lies in the thresholded set `S`. -/
theorem claim_C7 (c : Mat) (numSample totalX : Nat) (isTree : Bool)
    (dags : List Mat) (iset : List (List Nat)) (x e : List ℚ) (i j : Nat)
    (hij : i < j) (hj : j < msize c) :
    qget (hess_fun c numSample totalX isTree dags iset x e) i j =
      (dags.map (fun dag => (totalX : ℚ) *
        (hess_code_entry dag c iset isTree x e i j /
          ((numSample * totalX : Nat) : ℚ)))).sum := by
  unfold hess_fun
  have key : ∀ (ds : List Mat) (H : QMat),
      i < H.length → j < (H.getD i []).length →
      (ds.foldl (fun hess dag => ((List.range totalX).foldl
        (fun acc _ => hessRep dag c iset isTree numSample totalX x e acc)
        (hess, [])).1) H).length = H.length ∧
      (∀ r, ((ds.foldl (fun hess dag => ((List.range totalX).foldl
        (fun acc _ => hessRep dag c iset isTree numSample totalX x e acc)
        (hess, [])).1) H).getD r []).length = (H.getD r []).length) ∧
      qget (ds.foldl (fun hess dag => ((List.range totalX).foldl
        (fun acc _ => hessRep dag c iset isTree numSample totalX x e acc)
        (hess, [])).1) H) i j = qget H i j +
        (ds.map (fun dag => (totalX : ℚ) *
          (hess_code_entry dag c iset isTree x e i j /
            ((numSample * totalX : Nat) : ℚ)))).sum := by
    intro ds
    induction ds with
    | nil =>
      intro H _ _
      refine ⟨rfl, fun _ => rfl, ?_⟩
      simp
    | cons dag t ih =>
      intro H hi hjd
      rw [List.foldl_cons]
      obtain ⟨g1, g2, g3, g4⟩ := hessReps_entry hij hj totalX (H, [])
        (by intro p hp; exact absurd hp (List.not_mem_nil p)) hi hjd
      obtain ⟨h1, h2, h3⟩ := ih _ (by rw [g2]; exact hi)
        (by rw [g3 i]; exact hjd)
      refine ⟨by rw [h1, g2], fun r => by rw [h2 r, g3 r], ?_⟩
      rw [h3, g4, List.map_cons, List.sum_cons]
      ring
  have hzl : (qzeros (msize c)).length = msize c := by
    simp [qzeros]
  have hzr : ∀ r, r < msize c → ((qzeros (msize c)).getD r []).length = msize c := by
    intro r hr
    simp [qzeros, List.getD_eq_getElem?_getD, List.getElem?_replicate, hr]
  have hz0 : qget (qzeros (msize c)) i j = 0 := by
    unfold qget qzeros
    simp [List.getD_eq_getElem?_getD, List.getElem?_replicate, hj,
      (by omega : i < msize c)]
  obtain ⟨_, _, h⟩ := key dags (qzeros (msize c)) (by rw [hzl]; omega)
    (by rw [hzr i (by omega)]; exact hj)
  rw [h, hz0, zero_add]

/-- Witness for C7 on the two-node instance: the accumulated entry is the
code's finite difference `−2`. -/
theorem claim_C7_witness :
    qget (hess_fun cpdag01 1 1 false [dag01] [] [0, 1] [1/2, 1/2]) 0 1 = -2 :=
  (claim_C7 cpdag01 1 1 false [dag01] [] [0, 1] [1/2, 1/2] 0 1 (by decide)
    (by decide)).trans (by decide)

/-! ### Termination of the `meek` fixpoint loop (C5) -/

lemma filter_neg_set_le : ∀ (row : List Int) (b : Nat) (v : Int), 0 ≤ v →
    ((row.set b v).filter (fun x => x < 0)).length ≤
      (row.filter (fun x => x < 0)).length := by
  intro row
  induction row with
  | nil => intro b v _; simp
  | cons r t ih =>
    intro b v hv
    cases b with
    | zero =>
      have hvf : ¬(v < 0) := not_lt.mpr hv
      by_cases hr : r < 0 <;> simp [List.filter_cons, hvf, hr] <;> omega
    | succ b =>
      simp only [List.set_cons_succ, List.filter_cons]
      split <;> simpa using ih b v hv

lemma filter_neg_set_lt : ∀ (row : List Int) (b : Nat) (v : Int),
    row.getD b 0 < 0 → 0 ≤ v →
    ((row.set b v).filter (fun x => x < 0)).length <
      (row.filter (fun x => x < 0)).length := by
  intro row
  induction row with
  | nil => intro b v h _; simp at h
  | cons r t ih =>
    intro b v h hv
    cases b with
    | zero =>
      simp only [List.getD_cons_zero] at h
      have hvf : ¬(v < 0) := not_lt.mpr hv
      simp [List.filter_cons, hvf, h]
    | succ b =>
      simp only [List.getD_cons_succ] at h
      simp only [List.set_cons_succ, List.filter_cons]
      split <;> simpa using ih b v h hv

lemma undirCount_set_le : ∀ (M : Mat) (a : Nat) (row' : List Int),
    (row'.filter (fun x => x < 0)).length ≤
      ((M.getD a []).filter (fun x => x < 0)).length →
    undirCount (M.set a row') ≤ undirCount M := by
  intro M
  induction M with
  | nil => intro a row' _; simp [undirCount]
  | cons m t ih =>
    intro a row' h
    cases a with
    | zero =>
      simp only [List.getD_cons_zero] at h
      simp only [List.set_cons_zero, undirCount, List.map_cons, List.sum_cons]
      exact Nat.add_le_add h le_rfl
    | succ a =>
      simp only [List.getD_cons_succ] at h
      simp only [List.set_cons_succ, undirCount, List.map_cons, List.sum_cons]
      exact Nat.add_le_add le_rfl (ih a row' h)

lemma undirCount_set_lt : ∀ (M : Mat) (a : Nat) (row' : List Int),
    (row'.filter (fun x => x < 0)).length <
      ((M.getD a []).filter (fun x => x < 0)).length →
    undirCount (M.set a row') < undirCount M := by
  intro M
  induction M with
  | nil => intro a row' h; simp at h
  | cons m t ih =>
    intro a row' h
    cases a with
    | zero =>
      simp only [List.getD_cons_zero] at h
      simp only [List.set_cons_zero, undirCount, List.map_cons, List.sum_cons]
      exact Nat.add_lt_add_right h _
    | succ a =>
      simp only [List.getD_cons_succ] at h
      simp only [List.set_cons_succ, undirCount, List.map_cons, List.sum_cons]
      exact Nat.add_lt_add_left (ih a row' h) _

lemma undirCount_mset_le (M : Mat) (a b : Nat) (v : Int) (hv : 0 ≤ v) :
    undirCount (mset M a b v) ≤ undirCount M := by
  unfold mset
  exact undirCount_set_le M a _ (filter_neg_set_le _ b v hv)

lemma undirCount_mset_lt (M : Mat) (a b : Nat) (v : Int)
    (h : mget M a b < 0) (hv : 0 ≤ v) :
    undirCount (mset M a b v) < undirCount M := by
  unfold mset
  exact undirCount_set_lt M a _ (filter_neg_set_lt _ b v h hv)

lemma meekDecr_refl (st : MState) : MeekDecr st st := by
  refine ⟨le_rfl, fun h h' => ?_, fun h => h⟩
  rw [h] at h'
  exact Bool.noConfusion h'

lemma meekDecr_trans {a b c : MState} (h1 : MeekDecr a b) (h2 : MeekDecr b c) :
    MeekDecr a c := by
  obtain ⟨l1, s1, m1⟩ := h1
  obtain ⟨l2, s2, m2⟩ := h2
  refine ⟨le_trans l2 l1, fun hf ht => ?_, fun ht => m2 (m1 ht)⟩
  cases hb : b.found with
  | false => exact lt_of_lt_of_le (s2 hb ht) l1
  | true => exact lt_of_le_of_lt l2 (s1 hf hb)

lemma meekDecr_fire {st : MState} {a b : Nat} (h : mget st.c a b = -1) :
    MeekDecr st (fireEdge st a b) := by
  have h1 : undirCount (mset st.c a b 1) < undirCount st.c :=
    undirCount_mset_lt _ a b 1 (by rw [h]; decide) (by decide)
  have h2 : undirCount (mset (mset st.c a b 1) b a 0) ≤
      undirCount (mset st.c a b 1) :=
    undirCount_mset_le _ b a 0 (by decide)
  exact ⟨le_of_lt (lt_of_le_of_lt h2 h1), fun _ _ => lt_of_le_of_lt h2 h1,
    fun _ => rfl⟩

lemma meekDecr_r2write {st : MState} {u w : Nat} (h : mget st.c w u = -1) :
    MeekDecr st { c := mset (mset st.c w u 0) u w 1,
                  temp := pushEdge st.temp (u, w), found := true } := by
  have h1 : undirCount (mset st.c w u 0) < undirCount st.c :=
    undirCount_mset_lt _ w u 0 (by rw [h]; decide) (by decide)
  have h2 : undirCount (mset (mset st.c w u 0) u w 1) ≤
      undirCount (mset st.c w u 0) :=
    undirCount_mset_le _ u w 1 (by decide)
  exact ⟨le_of_lt (lt_of_le_of_lt h2 h1), fun _ _ => lt_of_le_of_lt h2 h1,
    fun _ => rfl⟩

lemma meekDecr_foldl {α : Type} (f : MState → α → MState)
    (hf : ∀ st e, MeekDecr st (f st e)) :
    ∀ (l : List α) (st : MState), MeekDecr st (l.foldl f st) := by
  intro l
  induction l with
  | nil => intro st; exact meekDecr_refl st
  | cons e t ih => intro st; exact meekDecr_trans (hf st e) (ih (f st e))

lemma meekDecr_r1Step (u v : Nat) (s : MState) (d : Nat) :
    MeekDecr s (r1Step u v s d) := by
  unfold r1Step
  split
  · split
    · next h _ => exact meekDecr_fire (by simpa using h)
    · exact meekDecr_refl s
  · exact meekDecr_refl s

lemma meekDecr_r1 (st : MState) (e : Nat × Nat) : MeekDecr st (r1Edge st e) := by
  unfold r1Edge
  exact meekDecr_foldl _ (meekDecr_r1Step e.1 e.2) _ st

lemma meekDecr_r2StepA (v : Nat) (s : MState) (w : Nat) :
    MeekDecr s (r2StepA v s w) := by
  unfold r2StepA
  split
  · next h => exact meekDecr_fire (by simpa using h)
  · exact meekDecr_refl s

lemma meekDecr_r2StepB (u : Nat) (s : MState) (w : Nat) :
    MeekDecr s (r2StepB u s w) := by
  unfold r2StepB
  split
  · next h => exact meekDecr_r2write (by simpa using h)
  · exact meekDecr_refl s

lemma meekDecr_r2 (st : MState) (e : Nat × Nat) : MeekDecr st (r2Edge st e) := by
  unfold r2Edge
  exact meekDecr_trans (meekDecr_foldl _ (meekDecr_r2StepA e.2) _ st)
    (meekDecr_foldl _ (meekDecr_r2StepB e.1) _ _)

lemma meekDecr_r3StepT (u w v : Nat) (s : MState) (t : Nat) :
    MeekDecr s (r3StepT u w v s t) := by
  unfold r3StepT
  split
  · exact meekDecr_refl s
  · split
    · next h =>
      simp only [Bool.and_eq_true, beq_iff_eq] at h
      exact meekDecr_fire h.1.1.2
    · exact meekDecr_refl s

lemma meekDecr_r3StepW (u v : Nat) (s : MState) (w : Nat) :
    MeekDecr s (r3StepW u v s w) := by
  unfold r3StepW
  split
  · exact meekDecr_refl s
  · exact meekDecr_foldl _ (meekDecr_r3StepT u w v) _ s

lemma meekDecr_r3 (st : MState) (e : Nat × Nat) : MeekDecr st (r3Edge st e) := by
  unfold r3Edge
  exact meekDecr_foldl _ (meekDecr_r3StepW e.1 e.2) _ st

lemma meekDecr_r4Step (u w : Nat) (s : MState) (t : Nat) :
    MeekDecr s (r4Step u w s t) := by
  unfold r4Step
  split
  · exact meekDecr_refl s
  · split
    · next h =>
      simp only [Bool.and_eq_true, beq_iff_eq] at h
      exact meekDecr_fire h.1.1.2
    · exact meekDecr_refl s

lemma meekDecr_r4a (st : MState) (e : Nat × Nat) : MeekDecr st (r4aEdge st e) := by
  unfold r4aEdge
  dsimp only
  split
  · exact meekDecr_refl st
  · exact meekDecr_foldl _
      (fun s w => meekDecr_foldl _ (meekDecr_r4Step e.1 w) _ s) _ st

lemma meekDecr_r4b (st : MState) (e : Nat × Nat) : MeekDecr st (r4bEdge st e) := by
  unfold r4bEdge
  dsimp only
  split
  · exact meekDecr_refl st
  · exact meekDecr_foldl _
      (fun s u => meekDecr_foldl _ (meekDecr_r4Step u e.2) _ s) _ st

lemma meekDecr_meekPass (c : Mat) (edges : List (Nat × Nat))
    (skipR3 isTree : Bool) :
    MeekDecr { c := c, temp := [], found := false }
      (meekPass c edges skipR3 isTree) := by
  have hr1 := meekDecr_foldl r1Edge meekDecr_r1 edges
    ({ c := c, temp := [], found := false })
  unfold meekPass
  dsimp only
  split
  · exact hr1
  · refine meekDecr_trans hr1 ?_
    refine meekDecr_trans (meekDecr_foldl r2Edge meekDecr_r2 edges _) ?_
    refine meekDecr_trans ?_
      (meekDecr_trans (meekDecr_foldl r4aEdge meekDecr_r4a edges _)
        (meekDecr_foldl r4bEdge meekDecr_r4b edges _))
    split
    · exact meekDecr_refl _
    · exact meekDecr_foldl r3Edge meekDecr_r3 edges _

lemma meekFuel_stab (skipR3 isTree : Bool) :
    ∀ (n : Nat) (c : Mat) (edges : List (Nat × Nat)) (f : Nat),
      undirCount c < n → undirCount c + 1 ≤ f →
      meekFuel f c edges skipR3 isTree =
        meekFuel (undirCount c + 1) c edges skipR3 isTree := by
  intro n
  induction n with
  | zero => intro c edges f h _; exact absurd h (Nat.not_lt_zero _)
  | succ n ih =>
    intro c edges f hn hf
    obtain ⟨f', rfl⟩ : ∃ f', f = f' + 1 := ⟨f - 1, by omega⟩
    have hdec := (meekDecr_meekPass c edges skipR3 isTree).2.1 rfl
    unfold meekFuel
    dsimp only
    by_cases hfound : (meekPass c edges skipR3 isTree).found = true
    · rw [if_pos hfound, if_pos hfound]
      have hlt : undirCount (meekPass c edges skipR3 isTree).c < undirCount c :=
        hdec hfound
      rw [ih _ _ f' (by omega) (by omega), ih _ _ (undirCount c) (by omega)
        (by omega)]
    · rw [if_neg hfound, if_neg hfound]

/-- C5: `meek` terminates.  Every rule firing overwrites an entry still
marked `-1` with a nonnegative value, so whenever one outer-loop pass sets
`edges_found` (the loop continues), the number of undirected entries of the
matrix strictly decreases; consequently the fixpoint iteration stabilizes
within `undirCount c + 1` passes: any fuel budget of at least that many
passes yields the same result as `meekSeeded`, the fuelled embedding of the
unbounded `while True` loop. -/
theorem claim_C5 (c : Mat) (edges : List (Nat × Nat)) (skipR3 isTree : Bool) :
    ((meekPass c edges skipR3 isTree).found = true →
      undirCount (meekPass c edges skipR3 isTree).c < undirCount c) ∧
    (∀ f, undirCount c + 1 ≤ f →
      meekFuel f c edges skipR3 isTree = meekSeeded c edges skipR3 isTree) := by
  constructor
  · exact (meekDecr_meekPass c edges skipR3 isTree).2.1 rfl
  · intro f hf
    exact meekFuel_stab skipR3 isTree (undirCount c + 1) c edges f
      (Nat.lt_succ_self _) hf

theorem claim_C5_witness :
    ((meekPass cpdagC1 [(4, 1)] false false).found = true ∧
      undirCount (meekPass cpdagC1 [(4, 1)] false false).c <
        undirCount cpdagC1) ∧
    (undirCount cpdagC1 + 1 ≤ 40 ∧
      meekFuel 40 cpdagC1 [(4, 1)] false false =
        meekSeeded cpdagC1 [(4, 1)] false false) :=
  ⟨⟨by decide, (claim_C5 cpdagC1 [(4, 1)] false false).1 (by decide)⟩,
   ⟨by decide, (claim_C5 cpdagC1 [(4, 1)] false false).2 40 (by decide)⟩⟩

/-! ### Idempotence of `meek` (C4) -/

lemma wf_vals {M : Mat} (hwf : WF M) (a b : Nat) :
    mget M a b = 0 ∨ mget M a b = 1 ∨ mget M a b = -1 := by
  rcases hwf.2.2 a b with ⟨h, _⟩ | ⟨h, _⟩ | ⟨h, _⟩ | ⟨h, _⟩ <;> simp [h]

lemma wf_neg_iff {M : Mat} (hwf : WF M) (a b : Nat) :
    mget M a b = -1 ↔ mget M b a = -1 := by
  rcases hwf.2.2 a b with ⟨h, h'⟩ | ⟨h, h'⟩ | ⟨h, h'⟩ | ⟨h, h'⟩ <;>
    constructor <;> intro hx <;> omega

lemma wf_one {M : Mat} (hwf : WF M) {a b : Nat} (h : mget M a b = 1) :
    mget M b a = 0 := by
  rcases hwf.2.2 a b with ⟨h1, h2⟩ | ⟨h1, h2⟩ | ⟨h1, h2⟩ | ⟨h1, h2⟩ <;> omega

lemma wf_pos {M : Mat} (hwf : WF M) {a b : Nat} (h : 0 < mget M a b) :
    mget M a b = 1 := by
  rcases wf_vals hwf a b with h' | h' | h' <;> omega

lemma wf_negv {M : Mat} (hwf : WF M) {a b : Nat} (h : mget M a b < 0) :
    mget M a b = -1 := by
  rcases wf_vals hwf a b with h' | h' | h' <;> omega

lemma wf_ne_of_neg {M : Mat} (hwf : WF M) {a b : Nat} (h : mget M a b = -1) :
    a ≠ b := by
  intro he
  subst he
  rw [hwf.2.1 a] at h
  exact absurd h (by decide)

lemma wf_size {M : Mat} (hwf : WF M) {a b : Nat} (h : mget M a b ≠ 0) :
    a < msize M ∧ b < msize M := by
  obtain ⟨ha, hb⟩ := mget_in_range h
  exact ⟨ha, by rwa [row_len hwf.1 ha] at hb⟩

lemma mono_refl (M : Mat) : Mono M M := fun _ _ => Or.inl ⟨rfl, rfl⟩

lemma mono_trans {X Y Z : Mat} (h1 : Mono X Y) (h2 : Mono Y Z) :
    Mono X Z := by
  intro a b
  have ha := h1 a b
  have hb := h2 a b
  omega

lemma mono_of_ne {X Y : Mat} (h : Mono X Y) {a b : Nat}
    (hne : mget X a b ≠ -1) : mget Y a b = mget X a b := by
  have := h a b
  omega

lemma mono_dir {X Y : Mat} (h : Mono X Y) {a b : Nat}
    (h1 : mget X a b = 1) : mget Y a b = 1 := by
  have := h a b
  omega

lemma mono_zero2 {X Y : Mat} (h : Mono X Y) {a b : Nat}
    (h1 : mget X a b = 0) (h2 : mget X b a = 0) :
    mget Y a b = 0 ∧ mget Y b a = 0 := by
  have := h a b
  omega

lemma mono_back_neg {X Y : Mat} (h : Mono X Y) {a b : Nat}
    (hY : mget Y a b = -1) : mget X a b = -1 := by
  have := h a b
  omega

lemma mono_back_zero2 {X Y : Mat} (h : Mono X Y) {a b : Nat}
    (h1 : mget Y a b = 0) (h2 : mget Y b a = 0) :
    mget X a b = 0 ∧ mget X b a = 0 := by
  have := h a b
  omega

lemma mono_adj_back {X Y : Mat} (h : Mono X Y) {a b : Nat}
    (ha : Adj Y a b) : Adj X a b := by
  have := h a b
  unfold Adj at *
  omega

lemma mono_adj_fwd {X Y : Mat} (h : Mono X Y) {a b : Nat}
    (ha : Adj X a b) : Adj Y a b := by
  have := h a b
  unfold Adj at *
  omega

lemma msize_mset (M : Mat) (a b : Nat) (v : Int) :
    msize (mset M a b v) = msize M := by
  unfold msize mset
  exact List.length_set _ _ _

lemma orient_key {M : Mat} {a b : Nat} (hwf : WF M) (h : mget M a b = -1)
    (Y : Mat)
    (hY : Y = mset (mset M a b 1) b a 0 ∨ Y = mset (mset M b a 0) a b 1) :
    (∀ x y, mget Y x y =
      if x = b ∧ y = a then 0 else if x = a ∧ y = b then 1 else mget M x y) ∧
    msize Y = msize M := by
  have hab : a ≠ b := wf_ne_of_neg hwf h
  have hba : mget M b a = -1 := (wf_neg_iff hwf a b).1 h
  have hsa := wf_size hwf (a := a) (b := b) (by rw [h]; decide)
  have hra : (M.getD a []).length = msize M := row_len hwf.1 hsa.1
  have hrb : (M.getD b []).length = msize M := row_len hwf.1 hsa.2
  rcases hY with rfl | rfl
  · refine ⟨fun x y => ?_, by rw [msize_mset, msize_mset]⟩
    rw [mget_mset, mget_mset]
    have hlen : (mset M a b 1).length = M.length := List.length_set _ _ _
    have hrow : ((mset M a b 1).getD b []) = M.getD b [] := by
      unfold mset
      rw [list_getD_set]
      simp [hab]
    rw [hlen, hrow]
    by_cases hc1 : x = b ∧ y = a
    · rw [if_pos ⟨hc1.1.symm, hc1.2.symm, hsa.2, by rw [hrb]; exact hsa.1⟩,
        if_pos hc1]
    · rw [if_neg (fun hcon => hc1 ⟨hcon.1.symm, hcon.2.1.symm⟩), if_neg hc1]
      by_cases hc2 : x = a ∧ y = b
      · rw [if_pos ⟨hc2.1.symm, hc2.2.symm, hsa.1, by rw [hra]; exact hsa.2⟩,
          if_pos hc2]
      · rw [if_neg (fun hcon => hc2 ⟨hcon.1.symm, hcon.2.1.symm⟩),
          if_neg hc2]
  · refine ⟨fun x y => ?_, by rw [msize_mset, msize_mset]⟩
    rw [mget_mset, mget_mset]
    have hlen : (mset M b a 0).length = M.length := List.length_set _ _ _
    have hrow : ((mset M b a 0).getD a []) = M.getD a [] := by
      unfold mset
      rw [list_getD_set]
      simp [hab.symm]
    rw [hlen, hrow]
    by_cases hc2 : x = a ∧ y = b
    · rw [if_pos ⟨hc2.1.symm, hc2.2.symm, hsa.1, by rw [hra]; exact hsa.2⟩,
        if_neg (fun hcon => hab (hc2.1.symm.trans hcon.1)), if_pos hc2]
    · rw [if_neg (fun hcon => hc2 ⟨hcon.1.symm, hcon.2.1.symm⟩)]
      by_cases hc1 : x = b ∧ y = a
      · rw [if_pos ⟨hc1.1.symm, hc1.2.symm, hsa.2, by rw [hrb]; exact hsa.1⟩,
          if_pos hc1]
      · rw [if_neg (fun hcon => hc1 ⟨hcon.1.symm, hcon.2.1.symm⟩),
          if_neg hc1, if_neg hc2]

lemma orient_facts {M : Mat} {a b : Nat} (hwf : WF M) (h : mget M a b = -1)
    (Y : Mat)
    (hY : Y = mset (mset M a b 1) b a 0 ∨ Y = mset (mset M b a 0) a b 1) :
    WF Y ∧ Mono M Y ∧ msize Y = msize M ∧
    (∀ x y, mget Y x y =
      if x = b ∧ y = a then 0 else if x = a ∧ y = b then 1 else mget M x y) ∧
    mget Y a b = 1 ∧ mget Y b a = 0 := by
  obtain ⟨key, hsz⟩ := orient_key hwf h Y hY
  have hab : a ≠ b := wf_ne_of_neg hwf h
  have hba : mget M b a = -1 := (wf_neg_iff hwf a b).1 h
  have hvab : mget Y a b = 1 := by
    rw [key, if_neg (fun hc => hab hc.1), if_pos ⟨rfl, rfl⟩]
  have hvba : mget Y b a = 0 := by
    rw [key, if_pos ⟨rfl, rfl⟩]
  refine ⟨⟨?_, ?_, ?_⟩, ?_, hsz, key, hvab, hvba⟩
  · rw [hsz]
    rcases hY with rfl | rfl <;>
      exact square_mset (square_mset hwf.1 _ _ _) _ _ _
  · intro x
    rw [key, if_neg (fun hc => hab (hc.2.symm.trans hc.1)),
      if_neg (fun hc => hab (hc.1.symm.trans hc.2))]
    exact hwf.2.1 x
  · intro x y
    by_cases h1 : x = b ∧ y = a
    · obtain ⟨rfl, rfl⟩ := h1
      rw [hvab, hvba]
      exact Or.inr (Or.inr (Or.inl ⟨rfl, rfl⟩))
    · by_cases h2 : x = a ∧ y = b
      · obtain ⟨rfl, rfl⟩ := h2
        rw [hvab, hvba]
        exact Or.inr (Or.inl ⟨rfl, rfl⟩)
      · have k1 : mget Y x y = mget M x y := by
          rw [key, if_neg h1, if_neg h2]
        have k2 : mget Y y x = mget M y x := by
          rw [key, if_neg (fun hc => h2 ⟨hc.2, hc.1⟩),
            if_neg (fun hc => h1 ⟨hc.2, hc.1⟩)]
        rw [k1, k2]
        exact hwf.2.2 x y
  · intro x y
    by_cases h1 : x = a ∧ y = b
    · obtain ⟨rfl, rfl⟩ := h1
      exact Or.inr ⟨h, hba, Or.inl ⟨hvab, hvba⟩⟩
    · by_cases h2 : x = b ∧ y = a
      · obtain ⟨rfl, rfl⟩ := h2
        exact Or.inr ⟨hba, h, Or.inr ⟨hvba, hvab⟩⟩
      · refine Or.inl ⟨?_, ?_⟩
        · rw [key, if_neg h2, if_neg h1]
        · rw [key, if_neg (fun hc => h1 ⟨hc.2, hc.1⟩),
            if_neg (fun hc => h2 ⟨hc.2, hc.1⟩)]

lemma pushEdge_mem (temp : List (Nat × Nat)) (e e' : Nat × Nat) :
    e' ∈ pushEdge temp e ↔ e' ∈ temp ∨ e' = e := by
  unfold pushEdge
  split
  · next h =>
    constructor
    · exact fun hm => Or.inl hm
    · rintro (hm | rfl)
      · exact hm
      · exact h
  · simp

lemma strel_refl (st : MState) : StRel st st := fun hwf =>
  ⟨hwf, mono_refl _, rfl, fun _ he => he, fun _ _ h => Or.inl h,
   fun _ he => Or.inl he⟩

lemma strel_trans {s1 s2 s3 : MState} (h1 : StRel s1 s2) (h2 : StRel s2 s3) :
    StRel s1 s3 := by
  intro hwf
  obtain ⟨w1, m1, z1, t1, n1, d1⟩ := h1 hwf
  obtain ⟨w2, m2, z2, t2, n2, d2⟩ := h2 w1
  refine ⟨w2, mono_trans m1 m2, z2.trans z1, fun e he => t2 _ (t1 _ he),
    ?_, ?_⟩
  · intro x y hxy
    rcases n2 x y hxy with h' | h'
    · rcases n1 x y h' with h'' | h''
      · exact Or.inl h''
      · exact Or.inr (t2 _ h'')
    · exact Or.inr h'
  · intro e he
    rcases d2 e he with h' | h'
    · rcases d1 e h' with h'' | h''
      · exact Or.inl h''
      · exact Or.inr (mono_dir m2 h'')
    · exact Or.inr h'

lemma strel_foldl {α : Type} (f : MState → α → MState)
    (hf : ∀ st e, StRel st (f st e)) :
    ∀ (l : List α) (st : MState), StRel st (l.foldl f st) := by
  intro l
  induction l with
  | nil => intro st; exact strel_refl st
  | cons e t ih => intro st; exact strel_trans (hf st e) (ih (f st e))

lemma strel_fire {st : MState} {a b : Nat} (h : mget st.c a b = -1) :
    StRel st (fireEdge st a b) := by
  intro hwf
  obtain ⟨hwfY, hmono, hsz, key, hvab, hvba⟩ :=
    orient_facts hwf h (fireEdge st a b).c (Or.inl rfl)
  refine ⟨hwfY, hmono, hsz, ?_, ?_, ?_⟩
  · intro e he
    exact (pushEdge_mem _ _ _).2 (Or.inl he)
  · intro x y hxy
    by_cases hc1 : x = b ∧ y = a
    · rw [key, if_pos hc1] at hxy
      exact absurd hxy (by decide)
    · by_cases hc2 : x = a ∧ y = b
      · obtain ⟨rfl, rfl⟩ := hc2
        exact Or.inr ((pushEdge_mem _ _ _).2 (Or.inr rfl))
      · rw [key, if_neg hc1, if_neg hc2] at hxy
        exact Or.inl hxy
  · intro e he
    rcases (pushEdge_mem _ _ _).1 he with h' | rfl
    · exact Or.inl h'
    · exact Or.inr hvab

lemma strel_r2write {st : MState} {u w : Nat} (h : mget st.c w u = -1) :
    StRel st { c := mset (mset st.c w u 0) u w 1,
               temp := pushEdge st.temp (u, w), found := true } := by
  intro hwf
  have h' : mget st.c u w = -1 := (wf_neg_iff hwf u w).2 h
  obtain ⟨hwfY, hmono, hsz, key, hvab, hvba⟩ :=
    orient_facts hwf h' (mset (mset st.c w u 0) u w 1) (Or.inr rfl)
  refine ⟨hwfY, hmono, hsz, ?_, ?_, ?_⟩
  · intro e he
    exact (pushEdge_mem _ _ _).2 (Or.inl he)
  · intro x y hxy
    by_cases hc1 : x = w ∧ y = u
    · rw [key, if_pos hc1] at hxy
      exact absurd hxy (by decide)
    · by_cases hc2 : x = u ∧ y = w
      · obtain ⟨rfl, rfl⟩ := hc2
        exact Or.inr ((pushEdge_mem _ _ _).2 (Or.inr rfl))
      · rw [key, if_neg hc1, if_neg hc2] at hxy
        exact Or.inl hxy
  · intro e he
    rcases (pushEdge_mem _ _ _).1 he with h'' | rfl
    · exact Or.inl h''
    · exact Or.inr hvab

lemma strel_r1Step (u v : Nat) (s : MState) (d : Nat) :
    StRel s (r1Step u v s d) := by
  unfold r1Step
  split
  · split
    · next h _ => exact strel_fire (by simpa using h)
    · exact strel_refl s
  · exact strel_refl s

lemma strel_r1 (st : MState) (e : Nat × Nat) : StRel st (r1Edge st e) := by
  unfold r1Edge
  exact strel_foldl _ (strel_r1Step e.1 e.2) _ st

lemma strel_r2StepA (v : Nat) (s : MState) (w : Nat) :
    StRel s (r2StepA v s w) := by
  unfold r2StepA
  split
  · next h => exact strel_fire (by simpa using h)
  · exact strel_refl s

lemma strel_r2StepB (u : Nat) (s : MState) (w : Nat) :
    StRel s (r2StepB u s w) := by
  unfold r2StepB
  split
  · next h => exact strel_r2write (by simpa using h)
  · exact strel_refl s

lemma strel_r2 (st : MState) (e : Nat × Nat) : StRel st (r2Edge st e) := by
  unfold r2Edge
  exact strel_trans (strel_foldl _ (strel_r2StepA e.2) _ st)
    (strel_foldl _ (strel_r2StepB e.1) _ _)

lemma strel_r3StepT (u w v : Nat) (s : MState) (t : Nat) :
    StRel s (r3StepT u w v s t) := by
  unfold r3StepT
  split
  · exact strel_refl s
  · split
    · next h =>
      simp only [Bool.and_eq_true, beq_iff_eq] at h
      exact strel_fire h.1.1.2
    · exact strel_refl s

lemma strel_r3StepW (u v : Nat) (s : MState) (w : Nat) :
    StRel s (r3StepW u v s w) := by
  unfold r3StepW
  split
  · exact strel_refl s
  · exact strel_foldl _ (strel_r3StepT u w v) _ s

lemma strel_r3 (st : MState) (e : Nat × Nat) : StRel st (r3Edge st e) := by
  unfold r3Edge
  exact strel_foldl _ (strel_r3StepW e.1 e.2) _ st

lemma strel_r4Step (u w : Nat) (s : MState) (t : Nat) :
    StRel s (r4Step u w s t) := by
  unfold r4Step
  split
  · exact strel_refl s
  · split
    · next h =>
      simp only [Bool.and_eq_true, beq_iff_eq] at h
      exact strel_fire h.1.1.2
    · exact strel_refl s

lemma strel_r4a (st : MState) (e : Nat × Nat) : StRel st (r4aEdge st e) := by
  unfold r4aEdge
  dsimp only
  split
  · exact strel_refl st
  · exact strel_foldl _
      (fun s w => strel_foldl _ (strel_r4Step e.1 w) _ s) _ st

lemma strel_r4b (st : MState) (e : Nat × Nat) : StRel st (r4bEdge st e) := by
  unfold r4bEdge
  dsimp only
  split
  · exact strel_refl st
  · exact strel_foldl _
      (fun s u => strel_foldl _ (strel_r4Step u e.2) _ s) _ st

lemma strel_meekPass (c : Mat) (edges : List (Nat × Nat))
    (skipR3 isTree : Bool) :
    StRel { c := c, temp := [], found := false }
      (meekPass c edges skipR3 isTree) := by
  have hr1 := strel_foldl r1Edge strel_r1 edges
    ({ c := c, temp := [], found := false })
  unfold meekPass
  dsimp only
  split
  · exact hr1
  · refine strel_trans hr1 ?_
    refine strel_trans (strel_foldl r2Edge strel_r2 edges _) ?_
    refine strel_trans ?_
      (strel_trans (strel_foldl r4aEdge strel_r4a edges _)
        (strel_foldl r4bEdge strel_r4b edges _))
    split
    · exact strel_refl _
    · exact strel_foldl r3Edge strel_r3 edges _

lemma mem_extract_undirected {c : Mat} {v d : Nat} :
    d ∈ extract_undirected c v ↔ d < msize c ∧ mget c v d < 0 := by
  unfold extract_undirected
  simp [List.mem_filter, List.mem_range]

lemma mem_nodesInto {c : Mat} {u w : Nat} :
    w ∈ nodesInto c u ↔ w < msize c ∧ 0 < mget c w u := by
  unfold nodesInto
  simp [List.mem_filter, List.mem_range]

lemma mem_nodesOut {c : Mat} {v w : Nat} :
    w ∈ nodesOut c v ↔ w < msize c ∧ 0 < mget c v w := by
  unfold nodesOut
  simp [List.mem_filter, List.mem_range]

lemma mem_extract_all_directed {c : Mat} {v u : Nat} :
    (v, u) ∈ extract_all_directed c ↔
      v < msize c ∧ u < msize c ∧ mget c v u = 1 := by
  unfold extract_all_directed
  simp only [List.mem_flatMap, List.mem_map, List.mem_filter, List.mem_range,
    beq_iff_eq]
  constructor
  · rintro ⟨a, ha, b, ⟨hb, h1⟩, heq⟩
    cases heq
    exact ⟨ha, hb, h1⟩
  · rintro ⟨hv, hu, h1⟩
    exact ⟨v, hv, u, ⟨hu, h1⟩, rfl⟩

lemma foldl_split {α β : Type _} (f : β → α → β) {l : List α} {x : α}
    (hx : x ∈ l) : ∃ l₁ l₂, l = l₁ ++ x :: l₂ ∧
      ∀ b, l.foldl f b = l₂.foldl f (f (l₁.foldl f b) x) := by
  obtain ⟨l₁, l₂, rfl⟩ := List.append_of_mem hx
  exact ⟨l₁, l₂, rfl, fun b => by rw [List.foldl_append]; rfl⟩

lemma mem_diags {M : Mat} (hwf : WF M) {t v : Nat} (hadj : Adj M t v)
    (htsz : t < msize M) :
    t ∈ nodesInto M v ++ nodesOut M v ++
      (List.range (msize M)).filter (fun x => mget M x v < 0) := by
  rcases hwf.2.2 t v with ⟨h1, h2⟩ | ⟨h1, h2⟩ | ⟨h1, h2⟩ | ⟨h1, h2⟩
  · exact absurd hadj (by unfold Adj; push_neg; exact ⟨h1, h2⟩)
  · exact List.mem_append.2 (Or.inl (List.mem_append.2 (Or.inl
      (mem_nodesInto.2 ⟨htsz, by rw [h1]; decide⟩))))
  · exact List.mem_append.2 (Or.inl (List.mem_append.2 (Or.inr
      (mem_nodesOut.2 ⟨htsz, by rw [h2]; decide⟩))))
  · exact List.mem_append.2 (Or.inr (List.mem_filter.2
      ⟨List.mem_range.2 htsz, by simp [h1]⟩))

lemma r1_processes {st : MState} {u v d : Nat} (hwf : WF st.c)
    (hvd : mget st.c v d = -1) (hdu : mget st.c d u = 0)
    (hud : mget st.c u d = 0) (hne : u ≠ d) :
    mget (r1Edge st (u, v)).c v d ≠ -1 := by
  unfold r1Edge
  dsimp only
  have hdmem : d ∈ extract_undirected st.c v :=
    mem_extract_undirected.2
      ⟨(wf_size hwf (a := v) (b := d) (by rw [hvd]; decide)).2,
       by rw [hvd]; decide⟩
  obtain ⟨l₁, l₂, -, hsplit⟩ := foldl_split (r1Step u v) hdmem
  rw [hsplit]
  set s₁ := l₁.foldl (r1Step u v) st with hs₁
  obtain ⟨hwf1, hmono1, _, _, _, _⟩ :=
    (strel_foldl _ (strel_r1Step u v) l₁ st) hwf
  by_cases hcur : mget s₁.c v d = -1
  · have hz := mono_zero2 hmono1 hdu hud
    have hstep : r1Step u v s₁ d = fireEdge s₁ v d := by
      unfold r1Step
      simp [hcur, hz.1, hz.2, hne]
    rw [hstep]
    have hfv : mget (fireEdge s₁ v d).c v d = 1 :=
      (orient_facts hwf1 hcur _ (Or.inl rfl)).2.2.2.2.1
    have hwfF := ((strel_fire hcur) hwf1).1
    obtain ⟨_, hm2, _, _, _, _⟩ :=
      (strel_foldl _ (strel_r1Step u v) l₂ _) hwfF
    rw [mono_of_ne hm2 (by rw [hfv]; decide), hfv]
    decide
  · have hstep : r1Step u v s₁ d = s₁ := by
      unfold r1Step
      simp [hcur]
    rw [hstep]
    obtain ⟨_, hm2, _, _, _, _⟩ :=
      (strel_foldl _ (strel_r1Step u v) l₂ s₁) hwf1
    rw [mono_of_ne hm2 hcur]
    exact hcur

lemma r2A_processes {st : MState} {a b c : Nat} (hwf : WF st.c)
    (hab : mget st.c a b = 1) (hac : mget st.c a c = -1) :
    mget (r2Edge st (b, c)).c a c ≠ -1 := by
  unfold r2Edge
  dsimp only
  have hmem : a ∈ nodesInto st.c b :=
    mem_nodesInto.2
      ⟨(wf_size hwf (a := a) (b := b) (by rw [hab]; decide)).1,
       by rw [hab]; decide⟩
  obtain ⟨l₁, l₂, -, hsplit⟩ := foldl_split (r2StepA c) hmem
  rw [hsplit]
  set s₁ := l₁.foldl (r2StepA c) st with hs₁
  obtain ⟨hwf1, hmono1, _, _, _, _⟩ :=
    (strel_foldl _ (strel_r2StepA c) l₁ st) hwf
  have hres : mget (r2StepA c s₁ a).c a c ≠ -1 := by
    by_cases hcur : mget s₁.c a c = -1
    · have hstep : r2StepA c s₁ a = fireEdge s₁ a c := by
        unfold r2StepA
        simp [hcur]
      have hfv : mget (fireEdge s₁ a c).c a c = 1 :=
        (orient_facts hwf1 hcur _ (Or.inl rfl)).2.2.2.2.1
      rw [hstep, hfv]
      decide
    · have hstep : r2StepA c s₁ a = s₁ := by
        unfold r2StepA
        simp [hcur]
      rw [hstep]
      exact hcur
  have hwfS : WF (r2StepA c s₁ a).c := ((strel_r2StepA c s₁ a) hwf1).1
  obtain ⟨hwfA, hmonoA, _, _, _, _⟩ :=
    (strel_foldl _ (strel_r2StepA c) l₂ (r2StepA c s₁ a)) hwfS
  have hXne : mget (l₂.foldl (r2StepA c) (r2StepA c s₁ a)).c a c ≠ -1 := by
    rw [mono_of_ne hmonoA hres]
    exact hres
  obtain ⟨_, hmonoB, _, _, _, _⟩ :=
    (strel_foldl _ (strel_r2StepB b) _
      (l₂.foldl (r2StepA c) (r2StepA c s₁ a))) hwfA
  rw [mono_of_ne hmonoB hXne]
  exact hXne

lemma r2B_processes {st : MState} {a b c : Nat} (hwf : WF st.c)
    (hbc : mget st.c b c = 1) (hca : mget st.c c a = -1) :
    mget (r2Edge st (a, b)).c c a ≠ -1 := by
  unfold r2Edge
  dsimp only
  set X := (nodesInto st.c a).foldl (r2StepA b) st with hX
  obtain ⟨hwfX, hmonoX, hszX, _, _, _⟩ :=
    (strel_foldl _ (strel_r2StepA b) (nodesInto st.c a) st) hwf
  by_cases hcur0 : mget X.c c a = -1
  · have hmem : c ∈ nodesOut X.c b := by
      rw [mem_nodesOut]
      refine ⟨?_, ?_⟩
      · rw [hszX]
        exact (wf_size hwf (a := c) (b := a) (by rw [hca]; decide)).1
      · rw [mono_dir hmonoX hbc]
        decide
    obtain ⟨l₁, l₂, -, hsplit⟩ := foldl_split (r2StepB a) hmem
    rw [hsplit]
    set s₁ := l₁.foldl (r2StepB a) X with hs₁
    obtain ⟨hwf1, hmono1, _, _, _, _⟩ :=
      (strel_foldl _ (strel_r2StepB a) l₁ X) hwfX
    have hres : mget (r2StepB a s₁ c).c c a ≠ -1 := by
      by_cases hcur : mget s₁.c c a = -1
      · have hstep : r2StepB a s₁ c =
            { c := mset (mset s₁.c c a 0) a c 1,
              temp := pushEdge s₁.temp (a, c), found := true } := by
          unfold r2StepB
          simp [hcur]
        rw [hstep]
        have h' : mget s₁.c a c = -1 := (wf_neg_iff hwf1 a c).2 hcur
        have hv : mget (mset (mset s₁.c c a 0) a c 1) c a = 0 :=
          (orient_facts hwf1 h'
            (mset (mset s₁.c c a 0) a c 1) (Or.inr rfl)).2.2.2.2.2
        simp only [hv]
        decide
      · have hstep : r2StepB a s₁ c = s₁ := by
          unfold r2StepB
          simp [hcur]
        rw [hstep]
        exact hcur
    have hwfS : WF (r2StepB a s₁ c).c := ((strel_r2StepB a s₁ c) hwf1).1
    obtain ⟨_, hmono2, _, _, _, _⟩ :=
      (strel_foldl _ (strel_r2StepB a) l₂ (r2StepB a s₁ c)) hwfS
    rw [mono_of_ne hmono2 hres]
    exact hres
  · obtain ⟨_, hmonoB, _, _, _, _⟩ :=
      (strel_foldl _ (strel_r2StepB a) (nodesOut X.c b) X) hwfX
    rw [mono_of_ne hmonoB hcur0]
    exact hcur0

lemma r3_processes {st : MState} {u w v t : Nat} (hwf : WF st.c)
    (hwv : mget st.c w v = 1) (hwu : w ≠ u)
    (htu : mget st.c t u = -1) (htv : mget st.c t v = -1)
    (huw : mget st.c u w = 0) (hwu0 : mget st.c w u = 0)
    (hne_tu : t ≠ u) (hne_tw : t ≠ w) (hne_tv : t ≠ v) :
    mget (r3Edge st (u, v)).c t u ≠ -1 ∨
    mget (r3Edge st (u, v)).c t w ≠ -1 ∨
    mget (r3Edge st (u, v)).c t v ≠ -1 := by
  unfold r3Edge
  dsimp only
  have hwmem : w ∈ nodesInto st.c v :=
    mem_nodesInto.2
      ⟨(wf_size hwf (a := w) (b := v) (by rw [hwv]; decide)).1,
       by rw [hwv]; decide⟩
  obtain ⟨l₁, l₂, -, hsplit⟩ := foldl_split (r3StepW u v) hwmem
  rw [hsplit]
  set s₁ := l₁.foldl (r3StepW u v) st with hs₁
  obtain ⟨hwf1, hmono1, hsz1, _, _, _⟩ :=
    (strel_foldl _ (strel_r3StepW u v) l₁ st) hwf
  by_cases htu1 : mget s₁.c t u = -1
  · have hR : mget (r3StepW u v s₁ w).c t u ≠ -1 ∨
        mget (r3StepW u v s₁ w).c t w ≠ -1 ∨
        mget (r3StepW u v s₁ w).c t v ≠ -1 := by
      unfold r3StepW
      rw [if_neg hwu]
      have htmem : t ∈ (List.range (msize s₁.c)).filter
          (fun x => mget s₁.c x u < 0) := by
        rw [List.mem_filter, List.mem_range]
        refine ⟨?_, by simp [htu1]⟩
        rw [hsz1]
        exact (wf_size hwf (a := t) (b := v) (by rw [htv]; decide)).1
      obtain ⟨m₁, m₂, -, hsplit2⟩ := foldl_split (r3StepT u w v) htmem
      rw [hsplit2]
      set s₂ := m₁.foldl (r3StepT u w v) s₁ with hs₂
      obtain ⟨hwf2, hmono2, _, _, _, _⟩ :=
        (strel_foldl _ (strel_r3StepT u w v) m₁ s₁) hwf1
      have hrest : StRel s₂ (m₂.foldl (r3StepT u w v) (r3StepT u w v s₂ t)) :=
        strel_trans (strel_r3StepT u w v s₂ t)
          (strel_foldl _ (strel_r3StepT u w v) m₂ _)
      obtain ⟨_, hmR, _, _, _, _⟩ := hrest hwf2
      by_cases htu2 : mget s₂.c t u = -1
      · by_cases htw2 : mget s₂.c t w = -1
        · by_cases htv2 : mget s₂.c t v = -1
          · right
            right
            have hz := mono_zero2 (mono_trans hmono1 hmono2) huw hwu0
            have hstep : r3StepT u w v s₂ t = fireEdge s₂ t v := by
              unfold r3StepT
              rw [if_neg (by push_neg; exact ⟨hne_tu, hne_tw, hne_tv⟩)]
              simp [htu2, htw2, htv2, hz.1, hz.2]
            have hfv : mget (fireEdge s₂ t v).c t v = 1 :=
              (orient_facts hwf2 htv2 _ (Or.inl rfl)).2.2.2.2.1
            have hwfF := ((strel_fire htv2) hwf2).1
            obtain ⟨_, hm3, _, _, _, _⟩ :=
              (strel_foldl _ (strel_r3StepT u w v) m₂ (fireEdge s₂ t v)) hwfF
            rw [hstep, mono_of_ne hm3 (by rw [hfv]; decide), hfv]
            decide
          · right
            right
            rw [mono_of_ne hmR htv2]
            exact htv2
        · right
          left
          rw [mono_of_ne hmR htw2]
          exact htw2
      · left
        rw [mono_of_ne hmR htu2]
        exact htu2
    have hwfR : WF (r3StepW u v s₁ w).c := ((strel_r3StepW u v s₁ w) hwf1).1
    obtain ⟨_, hmL, _, _, _, _⟩ :=
      (strel_foldl _ (strel_r3StepW u v) l₂ (r3StepW u v s₁ w)) hwfR
    rcases hR with h' | h' | h'
    · left
      rw [mono_of_ne hmL h']
      exact h'
    · right
      left
      rw [mono_of_ne hmL h']
      exact h'
    · right
      right
      rw [mono_of_ne hmL h']
      exact h'
  · left
    have hst : StRel s₁ (l₂.foldl (r3StepW u v) (r3StepW u v s₁ w)) :=
      strel_trans (strel_r3StepW u v s₁ w)
        (strel_foldl _ (strel_r3StepW u v) l₂ _)
    obtain ⟨_, hm, _, _, _, _⟩ := hst hwf1
    rw [mono_of_ne hm htu1]
    exact htu1

lemma strel_r4Outer (u : Nat) (diags : List Nat) (s : MState) (w : Nat) :
    StRel s (r4Outer u diags s w) :=
  strel_foldl _ (strel_r4Step u w) diags s

lemma strel_r4OuterB (w : Nat) (diags : List Nat) (s : MState) (u : Nat) :
    StRel s (r4OuterB w diags s u) :=
  strel_foldl _ (strel_r4Step u w) diags s

lemma r4Outer_processes {s₁ : MState} {u w t : Nat} {D : List Nat}
    (hwf1 : WF s₁.c) (htmem : t ∈ D)
    (huw : mget s₁.c u w = 0) (hwu : mget s₁.c w u = 0)
    (hne_tu : t ≠ u) (hne_tw : t ≠ w) :
    mget (r4Outer u D s₁ w).c t u ≠ -1 ∨
    mget (r4Outer u D s₁ w).c t w ≠ -1 := by
  unfold r4Outer
  obtain ⟨m₁, m₂, -, hsplit2⟩ := foldl_split (r4Step u w) htmem
  rw [hsplit2]
  set s₂ := m₁.foldl (r4Step u w) s₁ with hs₂
  obtain ⟨hwf2, hmono2, _, _, _, _⟩ :=
    (strel_foldl _ (strel_r4Step u w) m₁ s₁) hwf1
  have hrest : StRel s₂ (m₂.foldl (r4Step u w) (r4Step u w s₂ t)) :=
    strel_trans (strel_r4Step u w s₂ t)
      (strel_foldl _ (strel_r4Step u w) m₂ _)
  obtain ⟨_, hmR, _, _, _, _⟩ := hrest hwf2
  by_cases htu2 : mget s₂.c t u = -1
  · by_cases htw2 : mget s₂.c t w = -1
    · right
      have hz := mono_zero2 hmono2 huw hwu
      have hstep : r4Step u w s₂ t = fireEdge s₂ t w := by
        unfold r4Step
        rw [if_neg (by push_neg; exact ⟨hne_tu, hne_tw⟩)]
        simp [htu2, htw2, hz.1, hz.2]
      have hfv : mget (fireEdge s₂ t w).c t w = 1 :=
        (orient_facts hwf2 htw2 _ (Or.inl rfl)).2.2.2.2.1
      have hwfF := ((strel_fire htw2) hwf2).1
      obtain ⟨_, hm3, _, _, _, _⟩ :=
        (strel_foldl _ (strel_r4Step u w) m₂ (fireEdge s₂ t w)) hwfF
      rw [hstep, mono_of_ne hm3 (by rw [hfv]; decide), hfv]
      decide
    · right
      rw [mono_of_ne hmR htw2]
      exact htw2
  · left
    rw [mono_of_ne hmR htu2]
    exact htu2

lemma r4_fold_processes {st : MState} {u w t : Nat} {D outs : List Nat}
    (hwf : WF st.c) (hwmem : w ∈ outs) (htmem : t ∈ D)
    (huw : mget st.c u w = 0) (hwu : mget st.c w u = 0)
    (hne_tu : t ≠ u) (hne_tw : t ≠ w) :
    mget (outs.foldl (r4Outer u D) st).c t u ≠ -1 ∨
    mget (outs.foldl (r4Outer u D) st).c t w ≠ -1 := by
  obtain ⟨l₁, l₂, -, hsplit⟩ := foldl_split (r4Outer u D) hwmem
  rw [hsplit]
  set s₁ := l₁.foldl (r4Outer u D) st with hs₁
  obtain ⟨hwf1, hmono1, _, _, _, _⟩ :=
    (strel_foldl _ (strel_r4Outer u D) l₁ st) hwf
  have hz := mono_zero2 hmono1 huw hwu
  have hR := r4Outer_processes hwf1 htmem hz.1 hz.2 hne_tu hne_tw
  have hwfR : WF (r4Outer u D s₁ w).c := ((strel_r4Outer u D s₁ w) hwf1).1
  obtain ⟨_, hmL, _, _, _, _⟩ :=
    (strel_foldl _ (strel_r4Outer u D) l₂ (r4Outer u D s₁ w)) hwfR
  rcases hR with h' | h'
  · left
    rw [mono_of_ne hmL h']
    exact h'
  · right
    rw [mono_of_ne hmL h']
    exact h'

lemma r4b_fold_processes {st : MState} {u w t : Nat} {D ins : List Nat}
    (hwf : WF st.c) (humem : u ∈ ins) (htmem : t ∈ D)
    (huw : mget st.c u w = 0) (hwu : mget st.c w u = 0)
    (hne_tu : t ≠ u) (hne_tw : t ≠ w) :
    mget (ins.foldl (r4OuterB w D) st).c t u ≠ -1 ∨
    mget (ins.foldl (r4OuterB w D) st).c t w ≠ -1 := by
  obtain ⟨l₁, l₂, -, hsplit⟩ := foldl_split (r4OuterB w D) humem
  rw [hsplit]
  set s₁ := l₁.foldl (r4OuterB w D) st with hs₁
  obtain ⟨hwf1, hmono1, _, _, _, _⟩ :=
    (strel_foldl _ (strel_r4OuterB w D) l₁ st) hwf
  have hz := mono_zero2 hmono1 huw hwu
  have hR := r4Outer_processes hwf1 htmem hz.1 hz.2 hne_tu hne_tw
  have hwfR : WF (r4OuterB w D s₁ u).c := ((strel_r4OuterB w D s₁ u) hwf1).1
  obtain ⟨_, hmL, _, _, _, _⟩ :=
    (strel_foldl _ (strel_r4OuterB w D) l₂ (r4OuterB w D s₁ u)) hwfR
  rcases hR with h' | h'
  · left
    rw [mono_of_ne hmL h']
    exact h'
  · right
    rw [mono_of_ne hmL h']
    exact h'

lemma r4a_processes {st : MState} {u v w t : Nat} (hwf : WF st.c)
    (hvw : mget st.c v w = 1) (hadj : Adj st.c t v)
    (huw : mget st.c u w = 0) (hwu : mget st.c w u = 0)
    (hne_tu : t ≠ u) (hne_tw : t ≠ w) (htsz : t < msize st.c) :
    mget (r4aEdge st (u, v)).c t u ≠ -1 ∨
    mget (r4aEdge st (u, v)).c t w ≠ -1 := by
  unfold r4aEdge
  dsimp only
  have hwmem : w ∈ nodesOut st.c v :=
    mem_nodesOut.2
      ⟨(wf_size hwf (a := v) (b := w) (by rw [hvw]; decide)).2,
       by rw [hvw]; decide⟩
  rw [if_neg (List.ne_nil_of_mem hwmem)]
  exact r4_fold_processes hwf hwmem (mem_diags hwf hadj htsz) huw hwu
    hne_tu hne_tw

lemma r4b_processes {st : MState} {u v w t : Nat} (hwf : WF st.c)
    (huv : mget st.c u v = 1) (hadj : Adj st.c t v)
    (huw : mget st.c u w = 0) (hwu : mget st.c w u = 0)
    (hne_tu : t ≠ u) (hne_tw : t ≠ w) (htsz : t < msize st.c) :
    mget (r4bEdge st (v, w)).c t u ≠ -1 ∨
    mget (r4bEdge st (v, w)).c t w ≠ -1 := by
  unfold r4bEdge
  dsimp only
  have humem : u ∈ nodesInto st.c v :=
    mem_nodesInto.2
      ⟨(wf_size hwf (a := u) (b := v) (by rw [huv]; decide)).1,
       by rw [huv]; decide⟩
  rw [if_neg (List.ne_nil_of_mem humem)]
  exact r4b_fold_processes hwf humem (mem_diags hwf hadj htsz) huw hwu
    hne_tu hne_tw

lemma r1_no_inst {st₀ P : MState} {W : List (Nat × Nat)} {u v d : Nat}
    (hwf0 : WF st₀.c) (hmemW : (u, v) ∈ W)
    (hrest : StRel (W.foldl r1Edge st₀) P)
    (hinstP : R1inst P.c u v d) : False := by
  obtain ⟨l₁, l₂, -, hsplit⟩ := foldl_split r1Edge hmemW
  set s_pre := l₁.foldl r1Edge st₀ with hs_pre
  have hc1 : StRel st₀ s_pre := strel_foldl _ strel_r1 l₁ st₀
  have hwf_pre : WF s_pre.c := (hc1 hwf0).1
  have hc2 : StRel s_pre (r1Edge s_pre (u, v)) := strel_r1 s_pre (u, v)
  have hwfX : WF (r1Edge s_pre (u, v)).c := (hc2 hwf_pre).1
  have hc3 : StRel (r1Edge s_pre (u, v)) (W.foldl r1Edge st₀) := by
    rw [hsplit]
    exact strel_foldl _ strel_r1 l₂ _
  have hmXP : Mono (r1Edge s_pre (u, v)).c P.c :=
    mono_trans ((hc3 hwfX).2.1) ((hrest (hc3 hwfX).1).2.1)
  have hmSP : Mono s_pre.c P.c := mono_trans ((hc2 hwf_pre).2.1) hmXP
  obtain ⟨huv, hvd, hdu, hud, hne⟩ := hinstP
  have hz_pre := mono_back_zero2 hmSP hdu hud
  have hproc := r1_processes hwf_pre (mono_back_neg hmSP hvd) hz_pre.1
    hz_pre.2 hne
  exact hproc (mono_back_neg hmXP hvd)

lemma r2_no_inst {S P : MState} {W : List (Nat × Nat)} {a b c : Nat}
    (hwfS : WF S.c) (htrig : (a, b) ∈ W ∨ (b, c) ∈ W)
    (hab : mget S.c a b = 1) (hbc : mget S.c b c = 1)
    (hrest : StRel (W.foldl r2Edge S) P)
    (hinstP : R2inst P.c a b c) : False := by
  obtain ⟨hab', hbc', hac'⟩ := hinstP
  rcases htrig with hmem | hmem
  · obtain ⟨l₁, l₂, -, hsplit⟩ := foldl_split r2Edge hmem
    set s_pre := l₁.foldl r2Edge S with hs_pre
    have hc1 : StRel S s_pre := strel_foldl _ strel_r2 l₁ S
    have hwf_pre : WF s_pre.c := (hc1 hwfS).1
    have hc2 : StRel s_pre (r2Edge s_pre (a, b)) := strel_r2 s_pre (a, b)
    have hwfX : WF (r2Edge s_pre (a, b)).c := (hc2 hwf_pre).1
    have hc3 : StRel (r2Edge s_pre (a, b)) (W.foldl r2Edge S) := by
      rw [hsplit]
      exact strel_foldl _ strel_r2 l₂ _
    have hwfP : WF P.c := (hrest (hc3 hwfX).1).1
    have hmXP : Mono (r2Edge s_pre (a, b)).c P.c :=
      mono_trans ((hc3 hwfX).2.1) ((hrest (hc3 hwfX).1).2.1)
    have hmSP : Mono s_pre.c P.c := mono_trans ((hc2 hwf_pre).2.1) hmXP
    have hbc_pre : mget s_pre.c b c = 1 := mono_dir (hc1 hwfS).2.1 hbc
    have hca_pre : mget s_pre.c c a = -1 :=
      (wf_neg_iff hwf_pre c a).2 (mono_back_neg hmSP hac')
    have hproc := r2B_processes hwf_pre hbc_pre hca_pre
    exact hproc (mono_back_neg hmXP ((wf_neg_iff hwfP c a).2 hac'))
  · obtain ⟨l₁, l₂, -, hsplit⟩ := foldl_split r2Edge hmem
    set s_pre := l₁.foldl r2Edge S with hs_pre
    have hc1 : StRel S s_pre := strel_foldl _ strel_r2 l₁ S
    have hwf_pre : WF s_pre.c := (hc1 hwfS).1
    have hc2 : StRel s_pre (r2Edge s_pre (b, c)) := strel_r2 s_pre (b, c)
    have hwfX : WF (r2Edge s_pre (b, c)).c := (hc2 hwf_pre).1
    have hc3 : StRel (r2Edge s_pre (b, c)) (W.foldl r2Edge S) := by
      rw [hsplit]
      exact strel_foldl _ strel_r2 l₂ _
    have hmXP : Mono (r2Edge s_pre (b, c)).c P.c :=
      mono_trans ((hc3 hwfX).2.1) ((hrest (hc3 hwfX).1).2.1)
    have hmSP : Mono s_pre.c P.c := mono_trans ((hc2 hwf_pre).2.1) hmXP
    have hab_pre : mget s_pre.c a b = 1 := mono_dir (hc1 hwfS).2.1 hab
    have hac_pre : mget s_pre.c a c = -1 := mono_back_neg hmSP hac'
    have hproc := r2A_processes hwf_pre hab_pre hac_pre
    exact hproc (mono_back_neg hmXP hac')

lemma r3_no_inst {S P : MState} {W : List (Nat × Nat)} {u w v t : Nat}
    (hwfS : WF S.c) (htrig : (u, v) ∈ W ∨ (w, v) ∈ W)
    (huv : mget S.c u v = 1) (hwv : mget S.c w v = 1)
    (hrest : StRel (W.foldl r3Edge S) P)
    (hinstP : R3inst P.c u w v t) : False := by
  obtain ⟨huv', hwv', hwu, hnetu, hnetw, hnetv, htu, htw, htv, huw0, hwu0⟩ :=
    hinstP
  rcases htrig with hmem | hmem
  · obtain ⟨l₁, l₂, -, hsplit⟩ := foldl_split r3Edge hmem
    set s_pre := l₁.foldl r3Edge S with hs_pre
    have hc1 : StRel S s_pre := strel_foldl _ strel_r3 l₁ S
    have hwf_pre : WF s_pre.c := (hc1 hwfS).1
    have hc2 : StRel s_pre (r3Edge s_pre (u, v)) := strel_r3 s_pre (u, v)
    have hwfX : WF (r3Edge s_pre (u, v)).c := (hc2 hwf_pre).1
    have hc3 : StRel (r3Edge s_pre (u, v)) (W.foldl r3Edge S) := by
      rw [hsplit]
      exact strel_foldl _ strel_r3 l₂ _
    have hmXP : Mono (r3Edge s_pre (u, v)).c P.c :=
      mono_trans ((hc3 hwfX).2.1) ((hrest (hc3 hwfX).1).2.1)
    have hmSP : Mono s_pre.c P.c := mono_trans ((hc2 hwf_pre).2.1) hmXP
    have hz := mono_back_zero2 hmSP huw0 hwu0
    have hproc := r3_processes hwf_pre (mono_dir (hc1 hwfS).2.1 hwv) hwu
      (mono_back_neg hmSP htu) (mono_back_neg hmSP htv) hz.1 hz.2
      hnetu hnetw hnetv
    rcases hproc with h' | h' | h'
    · exact h' (mono_back_neg hmXP htu)
    · exact h' (mono_back_neg hmXP htw)
    · exact h' (mono_back_neg hmXP htv)
  · obtain ⟨l₁, l₂, -, hsplit⟩ := foldl_split r3Edge hmem
    set s_pre := l₁.foldl r3Edge S with hs_pre
    have hc1 : StRel S s_pre := strel_foldl _ strel_r3 l₁ S
    have hwf_pre : WF s_pre.c := (hc1 hwfS).1
    have hc2 : StRel s_pre (r3Edge s_pre (w, v)) := strel_r3 s_pre (w, v)
    have hwfX : WF (r3Edge s_pre (w, v)).c := (hc2 hwf_pre).1
    have hc3 : StRel (r3Edge s_pre (w, v)) (W.foldl r3Edge S) := by
      rw [hsplit]
      exact strel_foldl _ strel_r3 l₂ _
    have hmXP : Mono (r3Edge s_pre (w, v)).c P.c :=
      mono_trans ((hc3 hwfX).2.1) ((hrest (hc3 hwfX).1).2.1)
    have hmSP : Mono s_pre.c P.c := mono_trans ((hc2 hwf_pre).2.1) hmXP
    have hz := mono_back_zero2 hmSP huw0 hwu0
    have hproc := r3_processes hwf_pre (mono_dir (hc1 hwfS).2.1 huv)
      (fun h => hwu h.symm) (mono_back_neg hmSP htw)
      (mono_back_neg hmSP htv) hz.2 hz.1 hnetw hnetu hnetv
    rcases hproc with h' | h' | h'
    · exact h' (mono_back_neg hmXP htw)
    · exact h' (mono_back_neg hmXP htu)
    · exact h' (mono_back_neg hmXP htv)

lemma r4a_no_inst {S P : MState} {W : List (Nat × Nat)} {u v w t : Nat}
    (hwfS : WF S.c) (hmem : (u, v) ∈ W)
    (hvw : mget S.c v w = 1)
    (hrest : StRel (W.foldl r4aEdge S) P)
    (hinstP : R4inst P.c u v w t) : False := by
  obtain ⟨huv', hvw', hadj, hnetu, hnetw, htu, htw, huw0, hwu0⟩ := hinstP
  obtain ⟨l₁, l₂, -, hsplit⟩ := foldl_split r4aEdge hmem
  set s_pre := l₁.foldl r4aEdge S with hs_pre
  have hc1 : StRel S s_pre := strel_foldl _ strel_r4a l₁ S
  have hwf_pre : WF s_pre.c := (hc1 hwfS).1
  have hc2 : StRel s_pre (r4aEdge s_pre (u, v)) := strel_r4a s_pre (u, v)
  have hwfX : WF (r4aEdge s_pre (u, v)).c := (hc2 hwf_pre).1
  have hc3 : StRel (r4aEdge s_pre (u, v)) (W.foldl r4aEdge S) := by
    rw [hsplit]
    exact strel_foldl _ strel_r4a l₂ _
  have hwfP : WF P.c := (hrest (hc3 hwfX).1).1
  have hmXP : Mono (r4aEdge s_pre (u, v)).c P.c :=
    mono_trans ((hc3 hwfX).2.1) ((hrest (hc3 hwfX).1).2.1)
  have hmSP : Mono s_pre.c P.c := mono_trans ((hc2 hwf_pre).2.1) hmXP
  have hsz : msize P.c = msize s_pre.c := by
    rw [(hrest (hc3 hwfX).1).2.2.1, (hc3 hwfX).2.2.1, (hc2 hwf_pre).2.2.1]
  have htsz : t < msize s_pre.c := by
    rw [← hsz]
    exact (wf_size hwfP (a := t) (b := u) (by rw [htu]; decide)).1
  have hz := mono_back_zero2 hmSP huw0 hwu0
  have hproc := r4a_processes hwf_pre (mono_dir (hc1 hwfS).2.1 hvw)
    (mono_adj_back hmSP hadj) hz.1 hz.2 hnetu hnetw htsz
  rcases hproc with h' | h'
  · exact h' (mono_back_neg hmXP htu)
  · exact h' (mono_back_neg hmXP htw)

lemma r4b_no_inst {S P : MState} {W : List (Nat × Nat)} {u v w t : Nat}
    (hwfS : WF S.c) (hmem : (v, w) ∈ W)
    (huv : mget S.c u v = 1)
    (hrest : StRel (W.foldl r4bEdge S) P)
    (hinstP : R4inst P.c u v w t) : False := by
  obtain ⟨huv', hvw', hadj, hnetu, hnetw, htu, htw, huw0, hwu0⟩ := hinstP
  obtain ⟨l₁, l₂, -, hsplit⟩ := foldl_split r4bEdge hmem
  set s_pre := l₁.foldl r4bEdge S with hs_pre
  have hc1 : StRel S s_pre := strel_foldl _ strel_r4b l₁ S
  have hwf_pre : WF s_pre.c := (hc1 hwfS).1
  have hc2 : StRel s_pre (r4bEdge s_pre (v, w)) := strel_r4b s_pre (v, w)
  have hwfX : WF (r4bEdge s_pre (v, w)).c := (hc2 hwf_pre).1
  have hc3 : StRel (r4bEdge s_pre (v, w)) (W.foldl r4bEdge S) := by
    rw [hsplit]
    exact strel_foldl _ strel_r4b l₂ _
  have hwfP : WF P.c := (hrest (hc3 hwfX).1).1
  have hmXP : Mono (r4bEdge s_pre (v, w)).c P.c :=
    mono_trans ((hc3 hwfX).2.1) ((hrest (hc3 hwfX).1).2.1)
  have hmSP : Mono s_pre.c P.c := mono_trans ((hc2 hwf_pre).2.1) hmXP
  have hsz : msize P.c = msize s_pre.c := by
    rw [(hrest (hc3 hwfX).1).2.2.1, (hc3 hwfX).2.2.1, (hc2 hwf_pre).2.2.1]
  have htsz : t < msize s_pre.c := by
    rw [← hsz]
    exact (wf_size hwfP (a := t) (b := u) (by rw [htu]; decide)).1
  have hz := mono_back_zero2 hmSP huw0 hwu0
  have hproc := r4b_processes hwf_pre (mono_dir (hc1 hwfS).2.1 huv)
    (mono_adj_back hmSP hadj) hz.1 hz.2 hnetu hnetw htsz
  rcases hproc with h' | h'
  · exact h' (mono_back_neg hmXP htu)
  · exact h' (mono_back_neg hmXP htw)

lemma inv_R1_preserved {c : Mat} {W : List (Nat × Nat)} {P : MState}
    (hwf : WF c)
    (hR1W : ∀ u v d, R1inst c u v d → (u, v) ∈ W)
    (hrest : StRel (W.foldl r1Edge { c := c, temp := [], found := false }) P)
    (hSP : StRel { c := c, temp := [], found := false } P) :
    ∀ u v d, R1inst P.c u v d → (u, v) ∈ P.temp := by
  intro u v d hinst
  obtain ⟨hwfP, hmonoP, _, _, hnew, _⟩ := hSP hwf
  by_cases hold : mget c u v = 1
  · exfalso
    have hz := mono_back_zero2 hmonoP hinst.2.2.1 hinst.2.2.2.1
    have hinst_c : R1inst c u v d :=
      ⟨hold, mono_back_neg hmonoP hinst.2.1, hz.1, hz.2, hinst.2.2.2.2⟩
    exact r1_no_inst hwf (hR1W u v d hinst_c) hrest hinst
  · rcases hnew u v hinst.1 with h1 | h1
    · exact absurd h1 hold
    · exact h1

lemma inv_R2_preserved {c : Mat} {W : List (Nat × Nat)} {S P : MState}
    (hwf : WF c)
    (hR2W : ∀ a b c', R2inst c a b c' → (a, b) ∈ W ∨ (b, c') ∈ W)
    (hpre : StRel { c := c, temp := [], found := false } S)
    (hrest : StRel (W.foldl r2Edge S) P)
    (hSP : StRel { c := c, temp := [], found := false } P) :
    ∀ a b c', R2inst P.c a b c' → (a, b) ∈ P.temp ∨ (b, c') ∈ P.temp := by
  intro a b c' hinst
  obtain ⟨hwfP, hmonoP, _, _, hnew, _⟩ := hSP hwf
  by_cases hold1 : mget c a b = 1
  · by_cases hold2 : mget c b c' = 1
    · exfalso
      have hinst_c : R2inst c a b c' :=
        ⟨hold1, hold2, mono_back_neg hmonoP hinst.2.2⟩
      exact r2_no_inst (hpre hwf).1 (hR2W a b c' hinst_c)
        (mono_dir (hpre hwf).2.1 hold1) (mono_dir (hpre hwf).2.1 hold2)
        hrest hinst
    · rcases hnew b c' hinst.2.1 with h1 | h1
      · exact absurd h1 hold2
      · exact Or.inr h1
  · rcases hnew a b hinst.1 with h1 | h1
    · exact absurd h1 hold1
    · exact Or.inl h1

lemma inv_R3_preserved {c : Mat} {W : List (Nat × Nat)} {S P : MState}
    (hwf : WF c)
    (hR3W : ∀ u w v t', R3inst c u w v t' → (u, v) ∈ W ∨ (w, v) ∈ W)
    (hpre : StRel { c := c, temp := [], found := false } S)
    (hrest : StRel (W.foldl r3Edge S) P)
    (hSP : StRel { c := c, temp := [], found := false } P) :
    ∀ u w v t', R3inst P.c u w v t' → (u, v) ∈ P.temp ∨ (w, v) ∈ P.temp := by
  intro u w v t' hinst
  obtain ⟨hwfP, hmonoP, _, _, hnew, _⟩ := hSP hwf
  obtain ⟨huv, hwv, hwu, hnetu, hnetw, hnetv, htu, htw, htv, huw0, hwu0⟩ :=
    hinst
  by_cases hold1 : mget c u v = 1
  · by_cases hold2 : mget c w v = 1
    · exfalso
      have hz := mono_back_zero2 hmonoP huw0 hwu0
      have hinst_c : R3inst c u w v t' :=
        ⟨hold1, hold2, hwu, hnetu, hnetw, hnetv, mono_back_neg hmonoP htu,
         mono_back_neg hmonoP htw, mono_back_neg hmonoP htv, hz.1, hz.2⟩
      exact r3_no_inst (hpre hwf).1 (hR3W u w v t' hinst_c)
        (mono_dir (hpre hwf).2.1 hold1) (mono_dir (hpre hwf).2.1 hold2)
        hrest ⟨huv, hwv, hwu, hnetu, hnetw, hnetv, htu, htw, htv, huw0, hwu0⟩
    · rcases hnew w v hwv with h1 | h1
      · exact absurd h1 hold2
      · exact Or.inr h1
  · rcases hnew u v huv with h1 | h1
    · exact absurd h1 hold1
    · exact Or.inl h1

lemma inv_R4_preserved {c : Mat} {W : List (Nat × Nat)} {S4a S4b P : MState}
    (hwf : WF c)
    (hR4W : ∀ u v w t', R4inst c u v w t' → (u, v) ∈ W ∨ (v, w) ∈ W)
    (hpre_a : StRel { c := c, temp := [], found := false } S4a)
    (hrest_a : StRel (W.foldl r4aEdge S4a) P)
    (hpre_b : StRel { c := c, temp := [], found := false } S4b)
    (hrest_b : StRel (W.foldl r4bEdge S4b) P)
    (hSP : StRel { c := c, temp := [], found := false } P) :
    ∀ u v w t', R4inst P.c u v w t' → (u, v) ∈ P.temp ∨ (v, w) ∈ P.temp := by
  intro u v w t' hinst
  obtain ⟨hwfP, hmonoP, _, _, hnew, _⟩ := hSP hwf
  obtain ⟨huv, hvw, hadj, hnetu, hnetw, htu, htw, huw0, hwu0⟩ := hinst
  by_cases hold1 : mget c u v = 1
  · by_cases hold2 : mget c v w = 1
    · exfalso
      have hz := mono_back_zero2 hmonoP huw0 hwu0
      have hinst_c : R4inst c u v w t' :=
        ⟨hold1, hold2, mono_adj_back hmonoP hadj, hnetu, hnetw,
         mono_back_neg hmonoP htu, mono_back_neg hmonoP htw, hz.1, hz.2⟩
      rcases hR4W u v w t' hinst_c with hmem | hmem
      · exact r4a_no_inst (hpre_a hwf).1 hmem
          (mono_dir (hpre_a hwf).2.1 hold2) hrest_a
          ⟨huv, hvw, hadj, hnetu, hnetw, htu, htw, huw0, hwu0⟩
      · exact r4b_no_inst (hpre_b hwf).1 hmem
          (mono_dir (hpre_b hwf).2.1 hold1) hrest_b
          ⟨huv, hvw, hadj, hnetu, hnetw, htu, htw, huw0, hwu0⟩
    · rcases hnew v w hvw with h1 | h1
      · exact absurd h1 hold2
      · exact Or.inr h1
  · rcases hnew u v huv with h1 | h1
    · exact absurd h1 hold1
    · exact Or.inl h1

lemma inv_preserved {c : Mat} {W : List (Nat × Nat)} {s t : Bool}
    (hwf : WF c) (hinv : InvW c W s t) :
    WF (meekPass c W s t).c ∧
    InvW (meekPass c W s t).c (meekPass c W s t).temp s t := by
  obtain ⟨hWdir, hR1W, hRest⟩ := hinv
  have hSP : StRel { c := c, temp := [], found := false }
      (meekPass c W s t) := strel_meekPass c W s t
  have hrest1 : StRel
      (W.foldl r1Edge { c := c, temp := [], found := false })
      (meekPass c W s t) := by
    unfold meekPass
    dsimp only
    split
    · exact strel_refl _
    · refine strel_trans (strel_foldl _ strel_r2 W _) ?_
      refine strel_trans ?_
        (strel_trans (strel_foldl _ strel_r4a W _)
          (strel_foldl _ strel_r4b W _))
      split
      · exact strel_refl _
      · exact strel_foldl _ strel_r3 W _
  have hpre2 : StRel { c := c, temp := [], found := false }
      (W.foldl r1Edge { c := c, temp := [], found := false }) :=
    strel_foldl _ strel_r1 W _
  have hrest2 : t = false → StRel
      (W.foldl r2Edge
        (W.foldl r1Edge { c := c, temp := [], found := false }))
      (meekPass c W s t) := by
    intro ht
    unfold meekPass
    dsimp only
    rw [if_neg (by simp [ht])]
    refine strel_trans ?_
      (strel_trans (strel_foldl _ strel_r4a W _)
        (strel_foldl _ strel_r4b W _))
    split
    · exact strel_refl _
    · exact strel_foldl _ strel_r3 W _
  have hpre3 : StRel { c := c, temp := [], found := false }
      (W.foldl r2Edge
        (W.foldl r1Edge { c := c, temp := [], found := false })) :=
    strel_trans hpre2 (strel_foldl _ strel_r2 W _)
  have hrest3 : t = false → s = false → StRel
      (W.foldl r3Edge (W.foldl r2Edge
        (W.foldl r1Edge { c := c, temp := [], found := false })))
      (meekPass c W s t) := by
    intro ht hs
    unfold meekPass
    dsimp only
    rw [if_neg (by simp [ht]), if_neg (by simp [hs])]
    exact strel_trans (strel_foldl _ strel_r4a W _)
      (strel_foldl _ strel_r4b W _)
  have hpre4a : StRel { c := c, temp := [], found := false }
      (if s = true then
        (W.foldl r2Edge
          (W.foldl r1Edge { c := c, temp := [], found := false }))
      else W.foldl r3Edge (W.foldl r2Edge
        (W.foldl r1Edge { c := c, temp := [], found := false }))) := by
    refine strel_trans hpre3 ?_
    split
    · exact strel_refl _
    · exact strel_foldl _ strel_r3 W _
  have hrest4a : t = false → StRel
      (W.foldl r4aEdge (if s = true then
        (W.foldl r2Edge
          (W.foldl r1Edge { c := c, temp := [], found := false }))
      else W.foldl r3Edge (W.foldl r2Edge
        (W.foldl r1Edge { c := c, temp := [], found := false }))))
      (meekPass c W s t) := by
    intro ht
    unfold meekPass
    dsimp only
    rw [if_neg (show ¬t = true by simp [ht])]
    exact strel_foldl _ strel_r4b W _
  have hpre4b : StRel { c := c, temp := [], found := false }
      (W.foldl r4aEdge (if s = true then
        (W.foldl r2Edge
          (W.foldl r1Edge { c := c, temp := [], found := false }))
      else W.foldl r3Edge (W.foldl r2Edge
        (W.foldl r1Edge { c := c, temp := [], found := false })))) :=
    strel_trans hpre4a (strel_foldl _ strel_r4a W _)
  have hrest4b : t = false → StRel
      (W.foldl r4bEdge (W.foldl r4aEdge (if s = true then
        (W.foldl r2Edge
          (W.foldl r1Edge { c := c, temp := [], found := false }))
      else W.foldl r3Edge (W.foldl r2Edge
        (W.foldl r1Edge { c := c, temp := [], found := false })))))
      (meekPass c W s t) := by
    intro ht
    unfold meekPass
    dsimp only
    rw [if_neg (show ¬t = true by simp [ht])]
    exact strel_refl _
  obtain ⟨hwfP, hmonoP, hszP, _, hnewP, htempP⟩ := hSP hwf
  refine ⟨hwfP, ?_, ?_, ?_⟩
  · intro e he
    rcases htempP e he with h' | h'
    · exact absurd h' (List.not_mem_nil e)
    · exact h'
  · exact inv_R1_preserved hwf hR1W hrest1 hSP
  · intro ht
    refine ⟨?_, ?_, ?_⟩
    · exact inv_R2_preserved hwf (hRest ht).1 hpre2 (hrest2 ht) hSP
    · intro hs
      exact inv_R3_preserved hwf ((hRest ht).2.1 hs) hpre3 (hrest3 ht hs) hSP
    · exact inv_R4_preserved hwf (hRest ht).2.2 hpre4a (hrest4a ht)
        hpre4b (hrest4b ht) hSP

lemma orfound_foldl {α : Type _} (f : MState → α → MState)
    (hf : ∀ st e, f st e = st ∨ (f st e).found = true)
    (hm : ∀ st e, st.found = true → (f st e).found = true) :
    ∀ (l : List α) (st : MState),
      l.foldl f st = st ∨ (l.foldl f st).found = true := by
  intro l
  induction l with
  | nil => intro st; left; rfl
  | cons e tl ih =>
    intro st
    rw [List.foldl_cons]
    rcases hf st e with he | he
    · rw [he]
      exact ih st
    · right
      have hstep : ∀ (l' : List α) (st' : MState), st'.found = true →
          (l'.foldl f st').found = true := by
        intro l'
        induction l' with
        | nil => exact fun st' h => h
        | cons x xs ih2 =>
          intro st' h
          rw [List.foldl_cons]
          exact ih2 _ (hm st' x h)
      exact hstep tl (f st e) he

lemma orfound_comp {s1 s2 s3 : MState}
    (h12 : s2 = s1 ∨ s2.found = true) (h23 : s3 = s2 ∨ s3.found = true)
    (hm : s2.found = true → s3.found = true) :
    s3 = s1 ∨ s3.found = true := by
  rcases h23 with rfl | he
  · exact h12
  · exact Or.inr he

lemma orfound_r1Step (u v : Nat) (s : MState) (d : Nat) :
    r1Step u v s d = s ∨ (r1Step u v s d).found = true := by
  unfold r1Step
  split
  · split
    · right
      rfl
    · left
      rfl
  · left
    rfl

lemma orfound_r1 (st : MState) (e : Nat × Nat) :
    r1Edge st e = st ∨ (r1Edge st e).found = true := by
  unfold r1Edge
  exact orfound_foldl _ (orfound_r1Step e.1 e.2)
    (fun s d => (meekDecr_r1Step e.1 e.2 s d).2.2) _ st

lemma orfound_r2StepA (v : Nat) (s : MState) (w : Nat) :
    r2StepA v s w = s ∨ (r2StepA v s w).found = true := by
  unfold r2StepA
  split
  · right
    rfl
  · left
    rfl

lemma orfound_r2StepB (u : Nat) (s : MState) (w : Nat) :
    r2StepB u s w = s ∨ (r2StepB u s w).found = true := by
  unfold r2StepB
  split
  · right
    rfl
  · left
    rfl

lemma orfound_r2 (st : MState) (e : Nat × Nat) :
    r2Edge st e = st ∨ (r2Edge st e).found = true := by
  unfold r2Edge
  dsimp only
  refine orfound_comp
    (orfound_foldl _ (orfound_r2StepA e.2)
      (fun s w => (meekDecr_r2StepA e.2 s w).2.2) _ st)
    (orfound_foldl _ (orfound_r2StepB e.1)
      (fun s w => (meekDecr_r2StepB e.1 s w).2.2) _ _)
    (fun h => (meekDecr_foldl _ (meekDecr_r2StepB e.1) _ _).2.2 h)

lemma orfound_r3StepT (u w v : Nat) (s : MState) (t : Nat) :
    r3StepT u w v s t = s ∨ (r3StepT u w v s t).found = true := by
  unfold r3StepT
  split
  · left
    rfl
  · split
    · right
      rfl
    · left
      rfl

lemma orfound_r3StepW (u v : Nat) (s : MState) (w : Nat) :
    r3StepW u v s w = s ∨ (r3StepW u v s w).found = true := by
  unfold r3StepW
  split
  · left
    rfl
  · exact orfound_foldl _ (orfound_r3StepT u w v)
      (fun s' t => (meekDecr_r3StepT u w v s' t).2.2) _ s

lemma orfound_r3 (st : MState) (e : Nat × Nat) :
    r3Edge st e = st ∨ (r3Edge st e).found = true := by
  unfold r3Edge
  exact orfound_foldl _ (orfound_r3StepW e.1 e.2)
    (fun s w => (meekDecr_r3StepW e.1 e.2 s w).2.2) _ st

lemma orfound_r4Step (u w : Nat) (s : MState) (t : Nat) :
    r4Step u w s t = s ∨ (r4Step u w s t).found = true := by
  unfold r4Step
  split
  · left
    rfl
  · split
    · right
      rfl
    · left
      rfl

lemma orfound_r4Outer (u : Nat) (D : List Nat) (s : MState) (w : Nat) :
    r4Outer u D s w = s ∨ (r4Outer u D s w).found = true := by
  unfold r4Outer
  exact orfound_foldl _ (orfound_r4Step u w)
    (fun s' t => (meekDecr_r4Step u w s' t).2.2) _ s

lemma orfound_r4OuterB (w : Nat) (D : List Nat) (s : MState) (u : Nat) :
    r4OuterB w D s u = s ∨ (r4OuterB w D s u).found = true := by
  unfold r4OuterB
  exact orfound_foldl _ (orfound_r4Step u w)
    (fun s' t => (meekDecr_r4Step u w s' t).2.2) _ s

lemma orfound_r4a (st : MState) (e : Nat × Nat) :
    r4aEdge st e = st ∨ (r4aEdge st e).found = true := by
  unfold r4aEdge
  dsimp only
  split
  · left
    rfl
  · exact orfound_foldl _ (orfound_r4Outer e.1 _)
      (fun s w => (meekDecr_foldl _ (meekDecr_r4Step e.1 w) _ s).2.2) _ st

lemma orfound_r4b (st : MState) (e : Nat × Nat) :
    r4bEdge st e = st ∨ (r4bEdge st e).found = true := by
  unfold r4bEdge
  dsimp only
  split
  · left
    rfl
  · exact orfound_foldl _ (orfound_r4OuterB e.2 _)
      (fun s u => (meekDecr_foldl _ (meekDecr_r4Step u e.2) _ s).2.2) _ st

lemma orfound_meekPass (c : Mat) (W : List (Nat × Nat)) (s t : Bool) :
    meekPass c W s t = { c := c, temp := [], found := false } ∨
    (meekPass c W s t).found = true := by
  unfold meekPass
  dsimp only
  have h1 := orfound_foldl r1Edge orfound_r1
    (fun st e => (meekDecr_r1 st e).2.2) W
    ({ c := c, temp := [], found := false })
  split
  · exact h1
  · refine orfound_comp (orfound_comp (orfound_comp (orfound_comp h1
      (orfound_foldl r2Edge orfound_r2
        (fun st e => (meekDecr_r2 st e).2.2) W _)
      (fun h => (meekDecr_foldl r2Edge meekDecr_r2 W _).2.2 h)) ?_ ?_)
      (orfound_foldl r4aEdge orfound_r4a
        (fun st e => (meekDecr_r4a st e).2.2) W _)
      (fun h => (meekDecr_foldl r4aEdge meekDecr_r4a W _).2.2 h))
      (orfound_foldl r4bEdge orfound_r4b
        (fun st e => (meekDecr_r4b st e).2.2) W _)
      (fun h => (meekDecr_foldl r4bEdge meekDecr_r4b W _).2.2 h)
    · split
      · left
        rfl
      · exact orfound_foldl r3Edge orfound_r3
          (fun st e => (meekDecr_r3 st e).2.2) W _
    · split
      · exact fun h => h
      · exact fun h => (meekDecr_foldl r3Edge meekDecr_r3 W _).2.2 h

lemma pass_nofire {c : Mat} {W : List (Nat × Nat)} {s t : Bool}
    (h : (meekPass c W s t).found = false) :
    meekPass c W s t = { c := c, temp := [], found := false } := by
  rcases orfound_meekPass c W s t with he | he
  · exact he
  · rw [h] at he
    exact absurd he (by decide)

lemma foldl_id {α : Type _} {f : MState → α → MState} {st : MState} :
    ∀ {l : List α}, (∀ x ∈ l, f st x = st) → l.foldl f st = st := by
  intro l
  induction l with
  | nil => intro _; rfl
  | cons e tl ih =>
    intro h
    rw [List.foldl_cons, h e (List.mem_cons_self e tl)]
    exact ih (fun x hx => h x (List.mem_cons_of_mem e hx))

lemma mem_diags_adj {M : Mat} {t v : Nat}
    (h : t ∈ nodesInto M v ++ nodesOut M v ++
      (List.range (msize M)).filter (fun x => mget M x v < 0)) :
    Adj M t v := by
  rcases List.mem_append.1 h with h' | h'
  · rcases List.mem_append.1 h' with h'' | h''
    · left
      have := (mem_nodesInto.1 h'').2
      omega
    · right
      have := (mem_nodesOut.1 h'').2
      omega
  · left
    have := List.mem_filter.1 h'
    simp only [decide_eq_true_eq] at this
    omega

lemma quiet_r1 {M : Mat} (hwf : WF M) (hni : ∀ u v d, ¬ R1inst M u v d)
    {e : Nat × Nat} (hdir : mget M e.1 e.2 = 1) :
    r1Edge { c := M, temp := [], found := false } e =
      { c := M, temp := [], found := false } := by
  unfold r1Edge
  apply foldl_id
  intro d hd
  have hvd : mget M e.2 d = -1 := wf_negv hwf (mem_extract_undirected.1 hd).2
  unfold r1Step
  rw [if_pos (by simp [hvd] : (mget M e.2 d == -1) = true)]
  rw [if_neg ?_]
  intro hg
  simp only [Bool.and_eq_true, beq_iff_eq, decide_eq_true_eq] at hg
  exact hni e.1 e.2 d ⟨hdir, hvd, hg.1.1, hg.1.2, hg.2⟩

lemma quiet_r2 {M : Mat} (hwf : WF M)
    (hni : ∀ a b c', ¬ R2inst M a b c')
    {e : Nat × Nat} (hdir : mget M e.1 e.2 = 1) :
    r2Edge { c := M, temp := [], found := false } e =
      { c := M, temp := [], found := false } := by
  unfold r2Edge
  dsimp only
  have hA : (nodesInto M e.1).foldl (r2StepA e.2)
      { c := M, temp := [], found := false } =
      { c := M, temp := [], found := false } := by
    apply foldl_id
    intro w hw
    have hw1 : mget M w e.1 = 1 := wf_pos hwf (mem_nodesInto.1 hw).2
    unfold r2StepA
    rw [if_neg ?_]
    intro hg
    simp only [beq_iff_eq] at hg
    exact hni w e.1 e.2 ⟨hw1, hdir, hg⟩
  rw [hA]
  apply foldl_id
  intro w hw
  have hw1 : mget M e.2 w = 1 := wf_pos hwf (mem_nodesOut.1 hw).2
  unfold r2StepB
  rw [if_neg ?_]
  intro hg
  simp only [beq_iff_eq] at hg
  exact hni e.1 e.2 w ⟨hdir, hw1, (wf_neg_iff hwf e.1 w).2 hg⟩

lemma quiet_r3 {M : Mat} (hwf : WF M)
    (hni : ∀ u w v t', ¬ R3inst M u w v t')
    {e : Nat × Nat} (hdir : mget M e.1 e.2 = 1) :
    r3Edge { c := M, temp := [], found := false } e =
      { c := M, temp := [], found := false } := by
  unfold r3Edge
  apply foldl_id
  intro w hw
  have hw1 : mget M w e.2 = 1 := wf_pos hwf (mem_nodesInto.1 hw).2
  unfold r3StepW
  split
  · rfl
  · next hne =>
    apply foldl_id
    intro x hx
    unfold r3StepT
    split
    · rfl
    · next hx3 =>
      rw [if_neg ?_]
      intro hg
      simp only [Bool.and_eq_true, beq_iff_eq] at hg
      push_neg at hx3
      exact hni e.1 w e.2 x
        ⟨hdir, hw1, hne, hx3.1, hx3.2.1, hx3.2.2, hg.1.1.1.1, hg.1.1.1.2,
         hg.1.1.2, hg.1.2, hg.2⟩

lemma quiet_r4a {M : Mat} (hwf : WF M)
    (hni : ∀ u v w t', ¬ R4inst M u v w t')
    {e : Nat × Nat} (hdir : mget M e.1 e.2 = 1) :
    r4aEdge { c := M, temp := [], found := false } e =
      { c := M, temp := [], found := false } := by
  unfold r4aEdge
  dsimp only
  split
  · rfl
  · apply foldl_id
    intro w hw
    have hw1 : mget M e.2 w = 1 := wf_pos hwf (mem_nodesOut.1 hw).2
    unfold r4Outer
    apply foldl_id
    intro x hx
    have hadj : Adj M x e.2 := mem_diags_adj hx
    unfold r4Step
    split
    · rfl
    · next hx2 =>
      rw [if_neg ?_]
      intro hg
      simp only [Bool.and_eq_true, beq_iff_eq] at hg
      push_neg at hx2
      exact hni e.1 e.2 w x
        ⟨hdir, hw1, hadj, hx2.1, hx2.2, hg.1.1.1, hg.1.1.2, hg.1.2, hg.2⟩

lemma quiet_r4b {M : Mat} (hwf : WF M)
    (hni : ∀ u v w t', ¬ R4inst M u v w t')
    {e : Nat × Nat} (hdir : mget M e.1 e.2 = 1) :
    r4bEdge { c := M, temp := [], found := false } e =
      { c := M, temp := [], found := false } := by
  unfold r4bEdge
  dsimp only
  split
  · rfl
  · apply foldl_id
    intro u hu
    have hu1 : mget M u e.1 = 1 := wf_pos hwf (mem_nodesInto.1 hu).2
    unfold r4OuterB
    apply foldl_id
    intro x hx
    have hadj : Adj M x e.1 := mem_diags_adj hx
    unfold r4Step
    split
    · rfl
    · next hx2 =>
      rw [if_neg ?_]
      intro hg
      simp only [Bool.and_eq_true, beq_iff_eq] at hg
      push_neg at hx2
      exact hni u e.1 e.2 x
        ⟨hu1, hdir, hadj, hx2.1, hx2.2, hg.1.1.1, hg.1.1.2, hg.1.2, hg.2⟩

lemma quiet_pass {M : Mat} {W : List (Nat × Nat)} {s t : Bool}
    (hwf : WF M) (hni : NoInst M s t)
    (hWdir : ∀ e ∈ W, mget M e.1 e.2 = 1) :
    meekPass M W s t = { c := M, temp := [], found := false } := by
  unfold meekPass
  dsimp only
  have h1 : W.foldl r1Edge { c := M, temp := [], found := false } =
      { c := M, temp := [], found := false } :=
    foldl_id (fun e he => quiet_r1 hwf hni.1 (hWdir e he))
  rw [h1]
  split
  · rfl
  · next ht =>
    have ht' : t = false := by simpa using ht
    obtain ⟨hni2, hni3, hni4⟩ := hni.2 ht'
    have h2 : W.foldl r2Edge { c := M, temp := [], found := false } =
        { c := M, temp := [], found := false } :=
      foldl_id (fun e he => quiet_r2 hwf hni2 (hWdir e he))
    have h4a : W.foldl r4aEdge { c := M, temp := [], found := false } =
        { c := M, temp := [], found := false } :=
      foldl_id (fun e he => quiet_r4a hwf hni4 (hWdir e he))
    have h4b : W.foldl r4bEdge { c := M, temp := [], found := false } =
        { c := M, temp := [], found := false } :=
      foldl_id (fun e he => quiet_r4b hwf hni4 (hWdir e he))
    rw [h2]
    split
    · rw [h4a, h4b]
    · next hs =>
      have hs' : s = false := by simpa using hs
      have h3 : W.foldl r3Edge { c := M, temp := [], found := false } =
          { c := M, temp := [], found := false } :=
        foldl_id (fun e he => quiet_r3 hwf (hni3 hs') (hWdir e he))
      rw [h3, h4a, h4b]

lemma inv_nil_noInst {M : Mat} {s t : Bool} (h : InvW M [] s t) :
    NoInst M s t := by
  obtain ⟨-, h1, h2⟩ := h
  refine ⟨fun u v d hi => ?_, fun ht => ?_⟩
  · exact absurd (h1 u v d hi) (List.not_mem_nil _)
  · obtain ⟨g2, g3, g4⟩ := h2 ht
    refine ⟨fun a b c hi => ?_, fun hs u w v t' hi => ?_,
      fun u v w t' hi => ?_⟩
    · rcases g2 a b c hi with hm | hm <;> exact absurd hm (List.not_mem_nil _)
    · rcases g3 hs u w v t' hi with hm | hm <;>
        exact absurd hm (List.not_mem_nil _)
    · rcases g4 u v w t' hi with hm | hm <;>
        exact absurd hm (List.not_mem_nil _)

lemma inv_init {M : Mat} (hwf : WF M) (s t : Bool) :
    InvW M (extract_all_directed M) s t := by
  have hmem : ∀ {a b : Nat}, mget M a b = 1 →
      (a, b) ∈ extract_all_directed M := by
    intro a b h
    rw [mem_extract_all_directed]
    have hs := wf_size hwf (a := a) (b := b) (by rw [h]; decide)
    exact ⟨hs.1, hs.2, h⟩
  refine ⟨?_, ?_, ?_⟩
  · intro e he
    rcases e with ⟨v, u⟩
    exact (mem_extract_all_directed.1 he).2.2
  · intro u v d hi
    exact hmem hi.1
  · intro _
    refine ⟨?_, ?_, ?_⟩
    · intro a b c' hi
      exact Or.inl (hmem hi.1)
    · intro _ u w v t' hi
      exact Or.inl (hmem hi.1)
    · intro u v w t' hi
      exact Or.inl (hmem hi.1)

lemma meekFuel_inv {s t : Bool} :
    ∀ (n fuel : Nat) (M : Mat) (W : List (Nat × Nat)),
      undirCount M < n → undirCount M + 1 ≤ fuel → WF M → InvW M W s t →
      WF (meekFuel fuel M W s t) ∧ NoInst (meekFuel fuel M W s t) s t := by
  intro n
  induction n with
  | zero =>
    intro fuel M W h
    exact absurd h (Nat.not_lt_zero _)
  | succ n ih =>
    intro fuel M W hn hf hwf hinv
    obtain ⟨f', rfl⟩ : ∃ f', fuel = f' + 1 := ⟨fuel - 1, by omega⟩
    unfold meekFuel
    dsimp only
    by_cases hfound : (meekPass M W s t).found = true
    · rw [if_pos hfound]
      have hdec : undirCount (meekPass M W s t).c < undirCount M :=
        (meekDecr_meekPass M W s t).2.1 rfl hfound
      obtain ⟨hwfP, hinvP⟩ := inv_preserved hwf hinv
      exact ih f' (meekPass M W s t).c (meekPass M W s t).temp
        (by omega) (by omega) hwfP hinvP
    · rw [if_neg hfound]
      have hq := pass_nofire (by simpa using hfound)
      have hcM : (meekPass M W s t).c = M := by rw [hq]
      rw [hcM]
      have hinvnil : InvW M [] s t := by
        have hres := (inv_preserved hwf hinv).2
        rw [hq] at hres
        exact hres
      exact ⟨hwf, inv_nil_noInst hinvnil⟩

lemma meek_fixed {M : Mat} {s t : Bool} (hwf : WF M) (hni : NoInst M s t) :
    meek M s t = M := by
  unfold meek meekSeeded
  have hWdir : ∀ e ∈ extract_all_directed M, mget M e.1 e.2 = 1 := by
    intro e he
    rcases e with ⟨v, u⟩
    exact (mem_extract_all_directed.1 he).2.2
  have hq := quiet_pass hwf hni hWdir
  unfold meekFuel
  dsimp only
  rw [hq]
  simp

lemma WF_of_bounded {M : Mat} (h1 : Square M (msize M))
    (h2 : ∀ a, a < msize M → ∀ b, b < msize M →
      WFpair (mget M a b) (mget M b a))
    (h3 : ∀ a, a < msize M → mget M a a = 0) : WF M := by
  have hout : ∀ a b, ¬(a < msize M ∧ b < msize M) → mget M a b = 0 := by
    intro a b hab
    unfold mget
    by_cases ha : a < msize M
    · have hb : ¬ b < msize M := fun hb => hab ⟨ha, hb⟩
      exact List.getD_eq_default _ _
        (by rw [row_len h1 ha]; exact Nat.le_of_not_lt hb)
    · rw [List.getD_eq_default _ _ (Nat.le_of_not_lt ha)]
      rfl
  refine ⟨h1, ?_, ?_⟩
  · intro a
    by_cases ha : a < msize M
    · exact h3 a ha
    · exact hout a a (fun hc => ha hc.1)
  · intro a b
    by_cases hab : a < msize M ∧ b < msize M
    · exact h2 a hab.1 b hab.2
    · exact Or.inl ⟨hout a b hab, hout b a (fun hc => hab ⟨hc.2, hc.1⟩)⟩

/-- C4: on every well-formed CPDAG matrix (square, zero diagonal, and each
opposite entry pair encoding an absent, directed or undirected edge), the
closure `meek` called with no seed-edge argument is idempotent: a second
call on the result changes nothing, for any combination of the `skip_r3`
and `is_tree` flags. -/
theorem claim_C4 (c : Mat) (skipR3 isTree : Bool) (hwf : WF c) :
    meek (meek c skipR3 isTree) skipR3 isTree = meek c skipR3 isTree := by
  have h := meekFuel_inv (undirCount c + 1) (undirCount c + 1) c
    (extract_all_directed c) (Nat.lt_succ_self _) le_rfl hwf
    (inv_init hwf skipR3 isTree)
  exact meek_fixed h.1 h.2

/-- C4 witness: the five-node CPDAG instance is well formed, and `meek` is
idempotent on it. -/
theorem claim_C4_witness :
    meek (meek cpdagC1 false false) false false = meek cpdagC1 false false :=
  claim_C4 cpdagC1 false false
    (WF_of_bounded ⟨by decide, by decide⟩ (by decide) (by decide))

/-! ### Feasibility of pipage rounding (C3) -/

lemma list_sum_set (l : List ℚ) (i : Nat) (v : ℚ) (h : i < l.length) :
    (l.set i v).sum = l.sum - l.getD i 0 + v := by
  induction l generalizing i with
  | nil => simp at h
  | cons a tl ih =>
    cases i with
    | zero =>
      simp only [List.set_cons_zero, List.sum_cons, List.getD_cons_zero]
      ring
    | succ i =>
      simp only [List.set_cons_succ, List.sum_cons, List.getD_cons_succ]
      rw [ih i (by simpa using h)]
      ring

lemma roundHalfEven_intCast (z : ℤ) : roundHalfEven (z : ℚ) = z := by
  unfold roundHalfEven
  rw [Int.floor_intCast]
  rw [if_pos]
  rw [sub_self]
  norm_num

lemma roundHalfEven_nonneg {q : ℚ} (h : 0 ≤ q) : 0 ≤ roundHalfEven q := by
  unfold roundHalfEven
  dsimp only
  have hf : (0 : ℤ) ≤ ⌊q⌋ := Int.floor_nonneg.2 h
  split
  · exact hf
  · split
    · omega
    · split <;> omega

lemma roundHalfEven_le {q : ℚ} {N : ℤ} (h : q ≤ N) : roundHalfEven q ≤ N := by
  unfold roundHalfEven
  have hf : ⌊q⌋ ≤ N := by
    have := Int.floor_le_floor h
    rwa [Int.floor_intCast] at this
  dsimp only
  split
  · exact hf
  · next hr =>
    have hr' : (1 : ℚ)/2 ≤ q - ⌊q⌋ := le_of_not_lt hr
    have hfN : ⌊q⌋ < N := by
      by_contra hcon
      have : ⌊q⌋ = N := le_antisymm hf (le_of_not_lt hcon)
      rw [this] at hr'
      have : (N : ℚ) ≤ q := by linarith
      have : q = N := le_antisymm h this
      rw [this] at hr'
      simp only [sub_self] at hr'
      linarith
    split
    · omega
    · split <;> omega

lemma roundHalfEven_drift (q : ℚ) : |(roundHalfEven q : ℚ) - q| ≤ 1/2 := by
  unfold roundHalfEven
  dsimp only
  have h1 : (⌊q⌋ : ℚ) ≤ q := Int.floor_le q
  have h2 : q < ⌊q⌋ + 1 := Int.lt_floor_add_one q
  split
  · next h =>
    rw [abs_of_nonpos (by linarith)]
    linarith
  · next h =>
    have hr : (1 : ℚ)/2 ≤ q - ⌊q⌋ := le_of_not_lt h
    split
    · next h' =>
      push_cast
      rw [abs_of_nonneg (by linarith)]
      linarith
    · next h' =>
      have hr2 : q - ⌊q⌋ ≤ 1/2 := le_of_not_lt h'
      split
      · rw [abs_of_nonpos (by linarith)]
        linarith
      · push_cast
        rw [abs_of_nonneg (by linarith)]
        linarith

lemma round10_mem01 {q : ℚ} (h0 : 0 ≤ q) (h1 : q ≤ 1) :
    0 ≤ round10 q ∧ round10 q ≤ 1 := by
  unfold round10
  constructor
  · apply div_nonneg _ (by norm_num)
    exact_mod_cast roundHalfEven_nonneg (by positivity)
  · rw [div_le_one (by norm_num)]
    have : roundHalfEven (q * 10 ^ 10) ≤ ((10 : ℤ) ^ 10) :=
      roundHalfEven_le (by push_cast; nlinarith)
    exact_mod_cast this

lemma round10_drift (q : ℚ) : |round10 q - q| ≤ 1 / (2 * 10 ^ 10) := by
  unfold round10
  have key := roundHalfEven_drift (q * 10 ^ 10)
  have h10 : (0 : ℚ) < 10 ^ 10 := by norm_num
  have : (roundHalfEven (q * 10 ^ 10) : ℚ) / 10 ^ 10 - q =
      ((roundHalfEven (q * 10 ^ 10) : ℚ) - q * 10 ^ 10) / 10 ^ 10 := by
    field_simp
    ring
  rw [this, abs_div, abs_of_pos h10, div_le_iff h10]
  calc |(roundHalfEven (q * 10 ^ 10) : ℚ) - q * 10 ^ 10| ≤ 1/2 := key
    _ = 1 / (2 * 10 ^ 10) * 10 ^ 10 := by norm_num

lemma mem_pipageT {x : List ℚ} {m : Nat} :
    m ∈ pipageT x ↔ m < x.length ∧
      (roundHalfEven (x.getD m 0) : ℚ) ≠ x.getD m 0 := by
  unfold pipageT
  simp [List.mem_filter, List.mem_range, sub_ne_zero]

lemma list_mem_getD {l : List ℚ} {q : ℚ} :
    q ∈ l ↔ ∃ m, m < l.length ∧ l.getD m 0 = q := by
  constructor
  · intro h
    obtain ⟨i, hi, he⟩ := List.mem_iff_getElem.1 h
    exact ⟨i, hi, by rw [List.getD_eq_getElem l 0 hi]; exact he⟩
  · rintro ⟨m, hm, rfl⟩
    rw [List.getD_eq_getElem l 0 hm]
    exact List.getElem_mem hm

lemma sum_eq_range_map (l : List ℚ) :
    l.sum = ((List.range l.length).map (fun m => l.getD m 0)).sum := by
  induction l with
  | nil => simp
  | cons a tl ih =>
    rw [List.length_cons, List.range_succ_eq_map, List.map_cons,
      List.sum_cons, List.sum_cons, List.map_map]
    rw [ih]
    rfl

lemma map_sum_erase {T : List Nat} {i : Nat} (f : Nat → ℚ) (hi : i ∈ T) :
    (T.map f).sum = f i + ((T.erase i).map f).sum := by
  have hp : T.Perm (i :: T.erase i) := List.perm_cons_erase hi
  rw [(hp.map f).sum_eq]
  simp

lemma loopInv_iff_snapInv {d : Nat} {B : ℚ} {x : List ℚ} {T : List Nat} :
    LoopInv d B x T ↔ SnapInv d B [] x T := by
  unfold LoopInv SnapInv
  constructor
  · rintro ⟨h1, h2, h3, h4, h5, h6, h7⟩
    exact ⟨h1, h2, h3, h4, fun r hr => Or.inl (h5 r hr), h6, h7⟩
  · rintro ⟨h1, h2, h3, h4, h5, h6, h7⟩
    refine ⟨h1, h2, h3, h4, fun r hr => ?_, h6, h7⟩
    rcases h5 r hr with h' | h'
    · exact h'
    · exact absurd h'.1 (List.not_mem_nil r)

lemma snap_round {v : ℚ} (h0 : 0 ≤ v) (h1 : v ≤ 1)
    (hcond : |v - 1| < peps ∨ |v| < peps) :
    ((roundHalfEven v : ℚ) = 0 ∨ (roundHalfEven v : ℚ) = 1) ∧
    |(roundHalfEven v : ℚ) - v| < peps := by
  unfold peps at hcond ⊢
  rcases hcond with hc | hc
  · rw [abs_lt] at hc
    by_cases hv1 : v = 1
    · subst hv1
      rw [show ((1:ℚ)) = ((1 : ℤ) : ℚ) by norm_num, roundHalfEven_intCast]
      norm_num
    · have hlt : v < 1 := lt_of_le_of_ne h1 hv1
      have hfl : ⌊v⌋ = 0 := by
        rw [Int.floor_eq_zero_iff]
        constructor
        · exact h0
        · exact hlt
      have : roundHalfEven v = 1 := by
        unfold roundHalfEven
        dsimp only
        rw [hfl]
        rw [if_neg (by push_cast; linarith), if_pos (by push_cast; linarith)]
        norm_num
      rw [this]
      constructor
      · right
        norm_num
      · rw [abs_lt]
        push_cast
        constructor <;> linarith
  · rw [abs_lt] at hc
    have hfl : ⌊v⌋ = 0 := by
      rw [Int.floor_eq_zero_iff]
      exact ⟨h0, by linarith⟩
    have : roundHalfEven v = 0 := by
      unfold roundHalfEven
      dsimp only
      rw [hfl]
      rw [if_pos (by push_cast; linarith)]
    rw [this]
    constructor
    · left
      norm_num
    · rw [abs_lt]
      push_cast
      constructor <;> linarith

lemma snap_unfired {d : Nat} {B : ℚ} {E : List Nat} {y : List ℚ}
    {S : List Nat} {m : Nat} (h : SnapInv d B E y S) (hmS : m ∈ S)
    (hcond : ¬(|y.getD m 0 - 1| < peps ∨ |y.getD m 0| < peps)) :
    SnapInv d B (E.erase m) y S := by
  obtain ⟨h1, h2, h3, h4, h5, h6, h7⟩ := h
  push_neg at hcond
  refine ⟨h1, h2, h3, h4, fun r hr => ?_, h6, h7⟩
  by_cases hrm : r = m
  · subst hrm
    left
    have hb : 0 ≤ y.getD r 0 ∧ y.getD r 0 ≤ 1 := by
      rcases h5 r hr with h' | h'
      · exact ⟨le_of_lt h'.1, le_of_lt h'.2⟩
      · exact ⟨h'.2.1, h'.2.2⟩
    have ha1 := hcond.1
    have ha2 := hcond.2
    rw [abs_sub_comm,
      abs_of_nonneg (by linarith [hb.2] : (0 : ℚ) ≤ 1 - y.getD r 0)] at ha1
    rw [abs_of_nonneg hb.1] at ha2
    unfold peps at ha1 ha2
    constructor <;> linarith
  · rcases h5 r hr with h' | h'
    · exact Or.inl h'
    · exact Or.inr ⟨(List.mem_erase_of_ne hrm).2 h'.1, h'.2⟩

lemma snap_fired {d : Nat} {B : ℚ} {E : List Nat} {y : List ℚ}
    {S : List Nat} {m : Nat} (h : SnapInv d B E y S) (hmS : m ∈ S)
    (hcond : |y.getD m 0 - 1| < peps ∨ |y.getD m 0| < peps) :
    SnapInv d B (E.erase m) (y.set m (roundHalfEven (y.getD m 0) : ℚ))
      (S.erase m) ∧
    (S.erase m).length < S.length ∧
    (∀ r, r ≠ m → (y.set m (roundHalfEven (y.getD m 0) : ℚ)).getD r 0 =
      y.getD r 0) := by
  obtain ⟨h1, h2, h3, h4, h5, h6, h7⟩ := h
  have hmd : m < d := h3 m hmS
  have hmlen : m < y.length := by rw [h1]; exact hmd
  have hb : 0 ≤ y.getD m 0 ∧ y.getD m 0 ≤ 1 := by
    rcases h5 m hmS with h' | h'
    · exact ⟨le_of_lt h'.1, le_of_lt h'.2⟩
    · exact ⟨h'.2.1, h'.2.2⟩
  obtain ⟨hr01, hrdrift⟩ := snap_round hb.1 hb.2 hcond
  have hunch : ∀ r, r ≠ m →
      (y.set m (roundHalfEven (y.getD m 0) : ℚ)).getD r 0 = y.getD r 0 := by
    intro r hrm
    rw [list_getD_set, if_neg (fun hc => hrm hc.1.symm)]
  have hvm : (y.set m (roundHalfEven (y.getD m 0) : ℚ)).getD m 0 =
      (roundHalfEven (y.getD m 0) : ℚ) := by
    rw [list_getD_set, if_pos ⟨rfl, hmlen⟩]
  have hlenlt : (S.erase m).length < S.length := by
    rw [List.length_erase_of_mem hmS]
    have := List.length_pos_of_mem hmS
    omega
  have hsum : (y.set m (roundHalfEven (y.getD m 0) : ℚ)).sum =
      y.sum - y.getD m 0 + (roundHalfEven (y.getD m 0) : ℚ) :=
    list_sum_set y m _ hmlen
  have hmapeq : (S.erase m).map
      (fun r => (y.set m (roundHalfEven (y.getD m 0) : ℚ)).getD r 0) =
      (S.erase m).map (fun r => y.getD r 0) := by
    apply List.map_congr_left
    intro r hr
    exact hunch r (fun he => (h2.not_mem_erase) (he ▸ hr))
  refine ⟨⟨by rw [List.length_set]; exact h1, h2.erase m, ?_, ?_, ?_, ?_, ?_⟩,
    hlenlt, hunch⟩
  · intro r hr
    exact h3 r (List.mem_of_mem_erase hr)
  · intro r hrd hr
    by_cases hrm : r = m
    · subst hrm
      rw [hvm]
      exact hr01
    · rw [hunch r hrm]
      exact h4 r hrd (fun hrs => hr ((List.mem_erase_of_ne hrm).2 hrs))
  · intro r hr
    have hrS := List.mem_of_mem_erase hr
    have hrm : r ≠ m := by
      intro he
      subst he
      exact (h2.not_mem_erase) hr
    rw [hunch r hrm]
    rcases h5 r hrS with h' | h'
    · exact Or.inl h'
    · exact Or.inr ⟨(List.mem_erase_of_ne hrm).2 h'.1, h'.2⟩
  · rw [hsum, List.length_erase_of_mem hmS]
    have hlp : 1 ≤ S.length := List.length_pos_of_mem hmS
    rw [Nat.cast_sub hlp]
    have habs := abs_lt.1 hrdrift
    unfold peps at h6 habs ⊢
    push_cast
    push_cast at h6
    linarith [habs.2]
  · obtain ⟨n, hn⟩ := h7
    rcases hr01 with hc0 | hc1
    · refine ⟨n, ?_⟩
      rw [hmapeq, hsum, hc0, hn, map_sum_erase (fun r => y.getD r 0) hmS]
      ring
    · refine ⟨n + 1, ?_⟩
      rw [hmapeq, hsum, hc1, hn, map_sum_erase (fun r => y.getD r 0) hmS]
      push_cast
      ring

lemma move_inv {d : Nat} {B : ℚ} {x : List ℚ} {T : List Nat} {i j : Nat}
    {v1 v2 : ℚ}
    (hinv : LoopInv d B x T) (hi : i ∈ T) (hj : j ∈ T) (hij : i ≠ j)
    (hvsum : v1 + v2 = x.getD i 0 + x.getD j 0)
    (hv1 : 0 ≤ v1 ∧ v1 ≤ 1) (hv2 : 0 ≤ v2 ∧ v2 ≤ 1) :
    SnapInv d B [i, j] ((x.set i v1).set j v2) T := by
  obtain ⟨h1, h2, h3, h4, h5, h6, h7⟩ := hinv
  have hid : i < d := h3 i hi
  have hjd : j < d := h3 j hj
  have hilen : i < x.length := by rw [h1]; exact hid
  have hjlen : j < x.length := by rw [h1]; exact hjd
  have hjlen' : j < (x.set i v1).length := by
    rw [List.length_set]
    exact hjlen
  have hval : ∀ r, ((x.set i v1).set j v2).getD r 0 =
      if r = j then v2 else if r = i then v1 else x.getD r 0 := by
    intro r
    rw [list_getD_set, list_getD_set]
    by_cases hrj : r = j
    · subst hrj
      rw [if_pos ⟨rfl, hjlen'⟩, if_pos rfl]
    · rw [if_neg (fun hc => hrj hc.1.symm), if_neg hrj]
      by_cases hri : r = i
      · subst hri
        rw [if_pos ⟨rfl, hilen⟩, if_pos rfl]
      · rw [if_neg (fun hc => hri hc.1.symm), if_neg hri]
  have hsum : ((x.set i v1).set j v2).sum = x.sum := by
    rw [list_sum_set _ j _ hjlen', list_sum_set _ i _ hilen]
    have hgj : (x.set i v1).getD j 0 = x.getD j 0 := by
      rw [list_getD_set, if_neg (fun hc => hij hc.1)]
    rw [hgj]
    linarith [hvsum]
  refine ⟨by rw [List.length_set, List.length_set]; exact h1, h2, h3,
    ?_, ?_, ?_, ?_⟩
  · intro r hrd hr
    rw [hval]
    rw [if_neg (fun he => hr (by rw [he]; exact hj)),
      if_neg (fun he => hr (by rw [he]; exact hi))]
    exact h4 r hrd hr
  · intro r hr
    rw [hval]
    by_cases hrj : r = j
    · subst hrj
      rw [if_pos rfl]
      exact Or.inr ⟨by simp, hv2⟩
    · rw [if_neg hrj]
      by_cases hri : r = i
      · subst hri
        rw [if_pos rfl]
        exact Or.inr ⟨by simp, hv1⟩
      · rw [if_neg hri]
        exact Or.inl (h5 r hr)
  · rw [hsum]
    exact h6
  · obtain ⟨n, hn⟩ := h7
    refine ⟨n, ?_⟩
    rw [hsum, hn]
    have hjmem' : j ∈ T.erase i := (List.mem_erase_of_ne hij.symm).2 hj
    rw [map_sum_erase (fun r => ((x.set i v1).set j v2).getD r 0) hi,
      map_sum_erase (fun r => ((x.set i v1).set j v2).getD r 0) hjmem',
      map_sum_erase (fun r => x.getD r 0) hi,
      map_sum_erase (fun r => x.getD r 0) hjmem']
    have hfi : ((x.set i v1).set j v2).getD i 0 = v1 := by
      rw [hval, if_neg (fun he => hij he), if_pos rfl]
    have hfj : ((x.set i v1).set j v2).getD j 0 = v2 := by
      rw [hval, if_pos rfl]
    have hrest : ((T.erase i).erase j).map
        (fun r => ((x.set i v1).set j v2).getD r 0) =
        ((T.erase i).erase j).map (fun r => x.getD r 0) := by
      apply List.map_congr_left
      intro r hr
      have hrj : r ≠ j := fun he => ((h2.erase i).not_mem_erase) (he ▸ hr)
      have hri : r ≠ i := fun he =>
        (h2.not_mem_erase) (he ▸ List.mem_of_mem_erase hr)
      rw [hval, if_neg hrj, if_neg hri]
    rw [hfi, hfj, hrest]
    linarith [hvsum]

lemma getD_set2_i {x : List ℚ} {i j : Nat} {v1 v2 : ℚ} (hij : i ≠ j)
    (hilen : i < x.length) :
    ((x.set i v1).set j v2).getD i 0 = v1 := by
  rw [list_getD_set, if_neg (fun hc => hij hc.1.symm), list_getD_set,
    if_pos ⟨rfl, hilen⟩]

lemma getD_set2_j {x : List ℚ} {i j : Nat} {v1 v2 : ℚ}
    (hjlen : j < x.length) :
    ((x.set i v1).set j v2).getD j 0 = v2 := by
  rw [list_getD_set,
    if_pos ⟨rfl, by rw [List.length_set]; exact hjlen⟩]

lemma snapAt_inv {d : Nat} {B : ℚ} {E : List Nat} {s : List ℚ × List Nat}
    {m : Nat} (h : SnapInv d B E s.1 s.2) (hm : m ∈ s.2) :
    SnapInv d B (E.erase m) (snapAt m s).1 (snapAt m s).2 ∧
    (snapAt m s).2.length ≤ s.2.length ∧
    ((s.1.getD m 0 = 0 ∨ s.1.getD m 0 = 1) →
      (snapAt m s).2.length < s.2.length) ∧
    (∀ r, r ≠ m → (snapAt m s).1.getD r 0 = s.1.getD r 0) ∧
    (∀ r ∈ s.2, r ≠ m → r ∈ (snapAt m s).2) := by
  unfold snapAt
  split
  · next hc =>
    obtain ⟨hS, hlen, hunch⟩ := snap_fired h hm hc
    exact ⟨hS, le_of_lt hlen, fun _ => hlen, hunch,
      fun r hr hne => (List.mem_erase_of_ne hne).2 hr⟩
  · next hc =>
    refine ⟨snap_unfired h hm hc, le_rfl, fun hb => ?_, fun r _ => rfl,
      fun r hr _ => hr⟩
    exfalso
    rcases hb with h0 | h1
    · exact hc (Or.inr (by rw [h0]; norm_num [peps]))
    · exact hc (Or.inl (by rw [h1]; norm_num [peps]))

lemma snaps_assemble {d : Nat} {B : ℚ} {x1 : List ℚ} {T : List Nat}
    {i j : Nat} (hS : SnapInv d B [i, j] x1 T) (hiT : i ∈ T) (hjT : j ∈ T)
    (hij : i ≠ j)
    (hbound : x1.getD i 0 = 0 ∨ x1.getD i 0 = 1 ∨
      x1.getD j 0 = 0 ∨ x1.getD j 0 = 1) :
    LoopInv d B (snapAt j (snapAt i (x1, T))).1
      (snapAt j (snapAt i (x1, T))).2 ∧
    (snapAt j (snapAt i (x1, T))).2.length < T.length := by
  have h1 := snapAt_inv (m := i) (s := (x1, T)) hS hiT
  rw [show ([i, j].erase i) = [j] from by simp] at h1
  obtain ⟨hS1, hle1, hlt1, hunch1, hkeep1⟩ := h1
  have hjT1 : j ∈ (snapAt i (x1, T)).2 :=
    hkeep1 j hjT (fun he => hij he.symm)
  have h2 := snapAt_inv (m := j) hS1 hjT1
  rw [show ([j].erase j) = [] from by simp] at h2
  obtain ⟨hS2, hle2, hlt2, hunch2, hkeep2⟩ := h2
  refine ⟨loopInv_iff_snapInv.2 hS2, ?_⟩
  rcases hbound with hb | hb | hb | hb
  · exact lt_of_le_of_lt hle2 (hlt1 (Or.inl hb))
  · exact lt_of_le_of_lt hle2 (hlt1 (Or.inr hb))
  · have hv : (snapAt i (x1, T)).1.getD j 0 = x1.getD j 0 :=
      hunch1 j (fun he => hij he.symm)
    exact lt_of_lt_of_le (hlt2 (by rw [hv]; exact Or.inl hb)) hle1
  · have hv : (snapAt i (x1, T)).1.getD j 0 = x1.getD j 0 :=
      hunch1 j (fun he => hij he.symm)
    exact lt_of_lt_of_le (hlt2 (by rw [hv]; exact Or.inr hb)) hle1

lemma pipageBody_inv {o : POracle} {t d : Nat} {B : ℚ}
    {x : List ℚ} {T : List Nat}
    (hinv : LoopInv d B x T)
    (hi : (o.pair t).1 ∈ T) (hj : (o.pair t).2 ∈ T)
    (hij : (o.pair t).1 ≠ (o.pair t).2) :
    ∃ x' T', pipageBody o t x T = some (x', T') ∧ LoopInv d B x' T' ∧
      T'.length < T.length := by
  unfold pipageBody
  rcases hpair : o.pair t with ⟨i, j⟩
  rw [hpair] at hi hj hij
  simp only [hpair]
  have hai := hinv.2.2.2.2.1 i hi
  have haj := hinv.2.2.2.2.1 j hj
  have hilen : i < x.length := by
    rw [hinv.1]
    exact hinv.2.2.1 i hi
  have hjlen : j < x.length := by
    rw [hinv.1]
    exact hinv.2.2.1 j hj
  have hdi : 0 < min (1 - x.getD i 0) (x.getD j 0) :=
    lt_min (by linarith [hai.2]) haj.1
  have hdj : 0 < min (1 - x.getD j 0) (x.getD i 0) :=
    lt_min (by linarith [haj.2]) hai.1
  rw [if_neg (ne_of_gt (add_pos hdj hdi))]
  rw [if_neg (not_not_intro ?hp)]
  case hp =>
    rw [abs_of_nonneg (div_nonneg (le_of_lt hdi) (by linarith))]
    have hlt : min (1 - x.getD i 0) (x.getD j 0) /
        (min (1 - x.getD j 0) (x.getD i 0) +
          min (1 - x.getD i 0) (x.getD j 0)) < 1 := by
      rw [div_lt_one (by linarith)]
      linarith
    unfold peps
    linarith
  by_cases hflip : o.flip t = true
  · rw [if_pos hflip]
    have hvs : (x.getD i 0 - min (1 - x.getD j 0) (x.getD i 0)) +
        (x.getD j 0 + min (1 - x.getD j 0) (x.getD i 0)) =
        x.getD i 0 + x.getD j 0 := by ring
    have hmove := move_inv hinv hi hj hij hvs
      ⟨by linarith [min_le_right (1 - x.getD j 0) (x.getD i 0)],
       by linarith [hai.2]⟩
      ⟨by linarith [haj.1],
       by linarith [min_le_left (1 - x.getD j 0) (x.getD i 0)]⟩
    have hbound :
        ((x.set i (x.getD i 0 - min (1 - x.getD j 0) (x.getD i 0))).set j
          (x.getD j 0 + min (1 - x.getD j 0) (x.getD i 0))).getD i 0 = 0 ∨
        ((x.set i (x.getD i 0 - min (1 - x.getD j 0) (x.getD i 0))).set j
          (x.getD j 0 + min (1 - x.getD j 0) (x.getD i 0))).getD i 0 = 1 ∨
        ((x.set i (x.getD i 0 - min (1 - x.getD j 0) (x.getD i 0))).set j
          (x.getD j 0 + min (1 - x.getD j 0) (x.getD i 0))).getD j 0 = 0 ∨
        ((x.set i (x.getD i 0 - min (1 - x.getD j 0) (x.getD i 0))).set j
          (x.getD j 0 + min (1 - x.getD j 0) (x.getD i 0))).getD j 0 = 1 := by
      rw [getD_set2_i hij hilen, getD_set2_j hjlen]
      rcases min_cases (1 - x.getD j 0) (x.getD i 0) with ⟨he, _⟩ | ⟨he, _⟩
      · right
        right
        right
        rw [he]
        ring
      · left
        rw [he]
        ring
    obtain ⟨hLI, hlen⟩ := snaps_assemble hmove hi hj hij hbound
    exact ⟨_, _, congrArg some Prod.mk.eta.symm, hLI, hlen⟩
  · rw [if_neg hflip]
    have hvs : (x.getD i 0 + min (1 - x.getD i 0) (x.getD j 0)) +
        (x.getD j 0 - min (1 - x.getD i 0) (x.getD j 0)) =
        x.getD i 0 + x.getD j 0 := by ring
    have hmove := move_inv hinv hi hj hij hvs
      ⟨by linarith [hai.1],
       by linarith [min_le_left (1 - x.getD i 0) (x.getD j 0)]⟩
      ⟨by linarith [min_le_right (1 - x.getD i 0) (x.getD j 0)],
       by linarith [haj.2]⟩
    have hbound :
        ((x.set i (x.getD i 0 + min (1 - x.getD i 0) (x.getD j 0))).set j
          (x.getD j 0 - min (1 - x.getD i 0) (x.getD j 0))).getD i 0 = 0 ∨
        ((x.set i (x.getD i 0 + min (1 - x.getD i 0) (x.getD j 0))).set j
          (x.getD j 0 - min (1 - x.getD i 0) (x.getD j 0))).getD i 0 = 1 ∨
        ((x.set i (x.getD i 0 + min (1 - x.getD i 0) (x.getD j 0))).set j
          (x.getD j 0 - min (1 - x.getD i 0) (x.getD j 0))).getD j 0 = 0 ∨
        ((x.set i (x.getD i 0 + min (1 - x.getD i 0) (x.getD j 0))).set j
          (x.getD j 0 - min (1 - x.getD i 0) (x.getD j 0))).getD j 0 = 1 := by
      rw [getD_set2_i hij hilen, getD_set2_j hjlen]
      rcases min_cases (1 - x.getD i 0) (x.getD j 0) with ⟨he, _⟩ | ⟨he, _⟩
      · right
        left
        rw [he]
        ring
      · right
        right
        left
        rw [he]
        ring
    obtain ⟨hLI, hlen⟩ := snaps_assemble hmove hi hj hij hbound
    exact ⟨_, _, congrArg some Prod.mk.eta.symm, hLI, hlen⟩

lemma pipageLoop_inv {o : POracle} {d : Nat} {B : ℚ} :
    ∀ (fuel t : Nat) (x : List ℚ) (T : List Nat),
      LoopInv d B x T → T.length ≤ fuel →
      validPairs o fuel t x T = true →
      ∃ x' T' t', pipageLoop o fuel t x T = some (x', T', t') ∧
        LoopInv d B x' T' ∧ T'.length ≤ 1 := by
  intro fuel
  induction fuel with
  | zero =>
    intro t x T hinv hlen _
    refine ⟨x, T, t, ?_, hinv, by omega⟩
    unfold pipageLoop
    rw [if_pos (by omega)]
  | succ fuel ih =>
    intro t x T hinv hlen hvalid
    by_cases hT : T.length ≤ 1
    · refine ⟨x, T, t, ?_, hinv, hT⟩
      unfold pipageLoop
      rw [if_pos hT]
    · unfold validPairs at hvalid
      rw [if_neg hT] at hvalid
      simp only [Bool.and_eq_true, decide_eq_true_eq, bne_iff_ne] at hvalid
      obtain ⟨⟨⟨hiT, hjT⟩, hij⟩, hrest⟩ := hvalid
      obtain ⟨x', T', hbody, hinv', hlt⟩ := pipageBody_inv hinv hiT hjT hij
      rw [hbody] at hrest
      unfold pipageLoop
      rw [if_neg hT, hbody]
      exact ih (t + 1) x' T' hinv' (by omega) hrest

lemma sum01_nat {l : List ℚ} (h : ∀ q ∈ l, q = 0 ∨ q = 1) :
    ∃ n : ℕ, l.sum = n := by
  induction l with
  | nil => exact ⟨0, by simp⟩
  | cons a tl ih =>
    obtain ⟨n, hn⟩ := ih (fun q hq => h q (List.mem_cons_of_mem a hq))
    rcases h a (List.mem_cons_self a tl) with rfl | rfl
    · exact ⟨n, by simp [hn]⟩
    · refine ⟨n + 1, ?_⟩
      rw [List.sum_cons, hn]
      push_cast
      ring

lemma getD_map_round10 {x : List ℚ} {m : Nat} (hm : m < x.length) :
    (x.map round10).getD m 0 = round10 (x.getD m 0) := by
  rw [List.getD_eq_getElem _ _ (by simpa using hm), List.getElem_map,
    List.getD_eq_getElem _ _ hm]

lemma sum_map_round10_le (x : List ℚ) :
    (x.map round10).sum ≤ x.sum + x.length * (1 / (2 * 10 ^ 10)) := by
  induction x with
  | nil => simp
  | cons a tl ih =>
    simp only [List.map_cons, List.sum_cons, List.length_cons]
    have hd := (abs_le.1 (round10_drift a)).2
    push_cast
    linarith [ih]

lemma pipage_init {x : List ℚ} (hx : ∀ q ∈ x, 0 ≤ q ∧ q ≤ 1) :
    LoopInv x.length
      ((x.map round10).sum + peps * (pipageT (x.map round10)).length)
      (x.map round10) (pipageT (x.map round10)) := by
  have hb : ∀ m, m < x.length →
      0 ≤ (x.map round10).getD m 0 ∧ (x.map round10).getD m 0 ≤ 1 := by
    intro m hm
    rw [getD_map_round10 hm]
    have := hx (x.getD m 0) (by rw [List.getD_eq_getElem _ _ hm]; exact List.getElem_mem hm)
    exact round10_mem01 this.1 this.2
  have hlenmap : (x.map round10).length = x.length := List.length_map x _
  refine ⟨hlenmap, List.Nodup.filter _ (List.nodup_range _), ?_, ?_, ?_,
    le_rfl, ?_⟩
  · intro m hm
    rw [← hlenmap]
    exact (mem_pipageT.1 hm).1
  · intro m hmd hm
    have hne :
        ¬((roundHalfEven ((x.map round10).getD m 0) : ℚ) ≠
          (x.map round10).getD m 0) := by
      intro hcon
      exact hm (mem_pipageT.2 ⟨by rw [hlenmap]; exact hmd, hcon⟩)
    push_neg at hne
    have hbm := hb m hmd
    have hint : (0 : ℤ) ≤ roundHalfEven ((x.map round10).getD m 0) ∧
        roundHalfEven ((x.map round10).getD m 0) ≤ 1 := by
      constructor
      · exact_mod_cast hne ▸ hbm.1
      · exact_mod_cast hne ▸ hbm.2
    rw [← hne]
    have : roundHalfEven ((x.map round10).getD m 0) = 0 ∨
        roundHalfEven ((x.map round10).getD m 0) = 1 := by omega
    rcases this with h' | h' <;> rw [h']
    · left
      norm_num
    · right
      norm_num
  · intro m hm
    obtain ⟨hmlen, hne⟩ := mem_pipageT.1 hm
    have hbm := hb m (by rw [← hlenmap]; exact hmlen)
    constructor
    · rcases lt_or_eq_of_le hbm.1 with h' | h'
      · exact h'
      · exfalso
        apply hne
        rw [← h', show ((0 : ℚ)) = ((0 : ℤ) : ℚ) from by norm_num,
          roundHalfEven_intCast]
    · rcases lt_or_eq_of_le hbm.2 with h' | h'
      · exact h'
      · exfalso
        apply hne
        rw [h', show ((1 : ℚ)) = ((1 : ℤ) : ℚ) from by norm_num,
          roundHalfEven_intCast]
  · have hperm := List.filter_append_perm
      (fun m => decide ((roundHalfEven ((x.map round10).getD m 0) : ℚ) -
        (x.map round10).getD m 0 ≠ 0))
      (List.range (x.map round10).length)
    have hsum := sum_eq_range_map (x.map round10)
    have hsplit : ((List.range (x.map round10).length).map
        (fun m => (x.map round10).getD m 0)).sum =
        ((pipageT (x.map round10)).map
          (fun m => (x.map round10).getD m 0)).sum +
        (((List.range (x.map round10).length).filter
          (fun m => !decide ((roundHalfEven ((x.map round10).getD m 0) : ℚ) -
            (x.map round10).getD m 0 ≠ 0))).map
          (fun m => (x.map round10).getD m 0)).sum := by
      rw [← List.sum_append, ← List.map_append]
      exact ((hperm.map _).sum_eq).symm
    have hall : ∀ q ∈ ((List.range (x.map round10).length).filter
        (fun m => !decide ((roundHalfEven ((x.map round10).getD m 0) : ℚ) -
          (x.map round10).getD m 0 ≠ 0))).map
        (fun m => (x.map round10).getD m 0), q = 0 ∨ q = 1 := by
      intro q hq
      obtain ⟨m, hmf, he⟩ := List.mem_map.1 hq
      obtain ⟨hmr, hmp⟩ := List.mem_filter.1 hmf
      have hmlen : m < (x.map round10).length := List.mem_range.1 hmr
      have heq : (roundHalfEven ((x.map round10).getD m 0) : ℚ) =
          (x.map round10).getD m 0 := by
        have := hmp
        simp only [Bool.not_eq_true', decide_eq_false_iff_not, not_not,
          sub_eq_zero] at this
        exact this
      have hbm := hb m (by rw [← hlenmap]; exact hmlen)
      have hint : (0 : ℤ) ≤ roundHalfEven ((x.map round10).getD m 0) ∧
          roundHalfEven ((x.map round10).getD m 0) ≤ 1 := by
        constructor
        · exact_mod_cast heq ▸ hbm.1
        · exact_mod_cast heq ▸ hbm.2
      rw [← he, ← heq]
      have hor : roundHalfEven ((x.map round10).getD m 0) = 0 ∨
          roundHalfEven ((x.map round10).getD m 0) = 1 := by omega
      rcases hor with h' | h' <;> rw [h']
      · left
        norm_num
      · right
        norm_num
    obtain ⟨n, hn⟩ := sum01_nat hall
    refine ⟨n, ?_⟩
    rw [hsum, hsplit, hn]
    ring

/-- C3 (corrected): for every fractional vector of dimension at most 100
with entries in `[0, 1]`, sum at most `k` with `k ≥ 1`, and an oracle that
draws valid coordinate pairs throughout the run, `pipage` succeeds and
returns a vector whose every entry is `0` or `1` and whose sum is at most
`k`. -/
theorem claim_C3 (x : List ℚ) (k : ℕ) (o : POracle) (hk : 1 ≤ k)
    (hd : x.length ≤ 100) (hx : ∀ q ∈ x, 0 ≤ q ∧ q ≤ 1)
    (hs : x.sum ≤ (k : ℚ))
    (hvalid : validPairs o (pipageT (x.map round10)).length 0
      (x.map round10) (pipageT (x.map round10)) = true) :
    ∃ y, pipage x (k : ℚ) o = some y ∧
      (∀ q ∈ y, q = 0 ∨ q = 1) ∧ y.sum ≤ (k : ℚ) := by
  have hinit := pipage_init hx
  have hT0len : (pipageT (x.map round10)).length ≤ x.length := by
    unfold pipageT
    calc ((List.range (x.map round10).length).filter _).length
        ≤ (List.range (x.map round10).length).length :=
          List.length_filter_le _ _
      _ = (x.map round10).length := List.length_range _
      _ = x.length := List.length_map x _
  have hBlt : (x.map round10).sum +
      peps * ((pipageT (x.map round10)).length : ℚ) <
      (k : ℚ) + 1/10 + 1/1000 := by
    have h1 := sum_map_round10_le x
    have h2 : (x.length : ℚ) ≤ 100 := by exact_mod_cast hd
    have h3 : ((pipageT (x.map round10)).length : ℚ) ≤ 100 := by
      exact_mod_cast le_trans hT0len hd
    unfold peps
    linarith
  obtain ⟨x1, T1, t1, hloop, hinv1, hT1len⟩ :=
    pipageLoop_inv (pipageT (x.map round10)).length 0 (x.map round10)
      (pipageT (x.map round10)) hinit le_rfl hvalid
  obtain ⟨hlen1, hnd1, hmem1, hoff1, hon1, hbud1, n, hn1⟩ := hinv1
  rcases T1 with _ | ⟨a, rest⟩
  · have hpi : pipage x (k : ℚ) o = some x1 := by
      unfold pipage
      dsimp only
      rw [hloop]
    have hsum1 : x1.sum = (n : ℚ) := by simpa using hn1
    refine ⟨x1, hpi, ?_, ?_⟩
    · intro q hq
      obtain ⟨m, hm, he⟩ := list_mem_getD.1 hq
      rw [← he]
      exact hoff1 m (by rw [← hlen1]; exact hm) (List.not_mem_nil m)
    · have hb : x1.sum ≤ (x.map round10).sum +
          peps * ((pipageT (x.map round10)).length : ℚ) := by
        simpa using hbud1
      have hnk : n ≤ k := by
        have h1 : (n : ℚ) < (k : ℚ) + 1 := by linarith [hsum1 ▸ hb]
        have h2 : n < k + 1 := by exact_mod_cast h1
        omega
      rw [hsum1]
      exact_mod_cast hnk
  · have hrest : rest = [] := by
      simp only [List.length_cons] at hT1len
      exact List.eq_nil_of_length_eq_zero (by omega)
    subst hrest
    have hpi : pipage x (k : ℚ) o =
        (if x1.sum > (k : ℚ) ∧ x1.sum < (k : ℚ) + 1/10 then
          some (x1.set a 0)
        else if x1.sum ≤ 1 then some (x1.set a 1)
        else if 0 ≤ x1.getD a 0 ∧ x1.getD a 0 ≤ 1 then
          some (x1.set a (if o.flip t1 then 1 else 0))
        else none) := by
      unfold pipage
      dsimp only
      rw [hloop]
    have ha : a < x1.length := by
      rw [hlen1]
      exact hmem1 a (List.mem_cons_self a [])
    have hv := hon1 a (List.mem_cons_self a [])
    have hsum1 : x1.sum = (n : ℚ) + x1.getD a 0 := by simpa using hn1
    have hbud : x1.sum + peps ≤ (x.map round10).sum +
        peps * ((pipageT (x.map round10)).length : ℚ) := by
      simpa using hbud1
    have hents : ∀ w : ℚ, w = 0 ∨ w = 1 →
        ∀ q ∈ x1.set a w, q = 0 ∨ q = 1 := by
      intro w hw q hq
      obtain ⟨m, hm, he⟩ := list_mem_getD.1 hq
      rw [list_getD_set] at he
      by_cases hma : a = m ∧ a < x1.length
      · rw [if_pos hma] at he
        rw [← he]
        exact hw
      · rw [if_neg hma] at he
        rw [List.length_set] at hm
        have hmne : m ∉ [a] := by
          simp only [List.mem_singleton]
          intro hcon
          exact hma ⟨hcon.symm, ha⟩
        rw [← he]
        exact hoff1 m (by rw [← hlen1]; exact hm) hmne
    have hset : ∀ w : ℚ, (x1.set a w).sum = (n : ℚ) + w := by
      intro w
      rw [list_sum_set x1 a w ha, hsum1]
      ring
    by_cases hb1 : x1.sum > (k : ℚ) ∧ x1.sum < (k : ℚ) + 1/10
    · refine ⟨x1.set a 0, ?_, hents 0 (Or.inl rfl), ?_⟩
      · rw [hpi, if_pos hb1]
      · have hnk : n ≤ k := by
          have h1 : (n : ℚ) < (k : ℚ) + 1 := by
            have := hb1.2
            rw [hsum1] at this
            linarith [hv.1]
          have h2 : n < k + 1 := by exact_mod_cast h1
          omega
        rw [hset 0, add_zero]
        exact_mod_cast hnk
    · by_cases hb2 : x1.sum ≤ 1
      · refine ⟨x1.set a 1, ?_, hents 1 (Or.inr rfl), ?_⟩
        · rw [hpi, if_neg hb1, if_pos hb2]
        · have hn0 : n = 0 := by
            have h1 : (n : ℚ) < 1 := by
              rw [hsum1] at hb2
              linarith [hv.1]
            have h2 : n < 1 := by exact_mod_cast h1
            omega
          rw [hset 1, hn0]
          have h1 : (1 : ℚ) ≤ (k : ℚ) := by exact_mod_cast hk
          simpa using h1
      · have hb3 : 0 ≤ x1.getD a 0 ∧ x1.getD a 0 ≤ 1 :=
          ⟨le_of_lt hv.1, le_of_lt hv.2⟩
        have hp : peps = 1/1000 := rfl
        have hslt : x1.sum < (k : ℚ) + 1/10 := by
          linarith [hbud, hBlt, hp]
        have hsk : x1.sum ≤ (k : ℚ) := by
          by_contra hcon
          push_neg at hcon
          exact hb1 ⟨hcon, hslt⟩
        have hnk1 : n + 1 ≤ k := by
          have h1 : (n : ℚ) < (k : ℚ) := by
            rw [hsum1] at hsk
            linarith [hv.1]
          have h2 : n < k := by exact_mod_cast h1
          omega
        cases hf : o.flip t1 with
        | false =>
          refine ⟨x1.set a 0, ?_, hents 0 (Or.inl rfl), ?_⟩
          · rw [hpi, if_neg hb1, if_neg hb2, if_pos hb3, hf]
            rfl
          · rw [hset 0, add_zero]
            have h2 : n ≤ k := by omega
            exact_mod_cast h2
        | true =>
          refine ⟨x1.set a 1, ?_, hents 1 (Or.inr rfl), ?_⟩
          · rw [hpi, if_neg hb1, if_neg hb2, if_pos hb3, hf]
            rfl
          · rw [hset 1]
            have h1 : ((n : ℚ)) + 1 ≤ (k : ℚ) := by exact_mod_cast hnk1
            linarith

/-- Witness for C3: at `x = [1/2, 1/2]`, `k = 1`, with the oracle drawing
the pair `(0, 1)` and the binomial bit `0`, `pipage` returns a 0/1 vector
of sum at most `1`. -/
theorem claim_C3_witness :
    ∃ y, pipage [1/2, 1/2] ((1 : ℕ) : ℚ)
        ⟨fun _ => (0, 1), fun _ => false⟩ = some y ∧
      (∀ q ∈ y, q = 0 ∨ q = 1) ∧ y.sum ≤ ((1 : ℕ) : ℚ) :=
  claim_C3 [1/2, 1/2] 1 ⟨fun _ => (0, 1), fun _ => false⟩ (by decide)
    (by decide) (by decide) (by decide) (by decide)

set_option maxRecDepth 10000 in
set_option maxHeartbeats 4000000 in
/-- Counterexample to C3 as stated: a 205-dimensional vector with entries
in `[0, 1]` and sum `101.99952 ≤ k = 102`, on which `pipage` (with an
oracle drawing valid pairs throughout) returns a 0/1 vector of sum
`103 > k`.  Each of the 102 loop iterations snaps `0.99901` to `1`,
gaining `0.00099`; the accumulated drift pushes the pre-rounding sum to
`102.1005`, which escapes the `(k, k + 0.1)` window of the final guard,
and the last coordinate is then rounded up by the binomial draw. -/
theorem claim_C3_counterexample :
    (∀ q ∈ (List.replicate 102 [(1:ℚ)/2, 49901/100000]).flatten ++
        [1005/10000], 0 ≤ q ∧ q ≤ 1) ∧
    ((List.replicate 102 [(1:ℚ)/2, 49901/100000]).flatten ++
        [1005/10000]).sum ≤ 102 ∧
    validPairs ⟨fun t => (2*t, 2*t+1), fun t => t == 102⟩
      (pipageT (((List.replicate 102 [(1:ℚ)/2, 49901/100000]).flatten ++
        [1005/10000]).map round10)).length 0
      (((List.replicate 102 [(1:ℚ)/2, 49901/100000]).flatten ++
        [1005/10000]).map round10)
      (pipageT (((List.replicate 102 [(1:ℚ)/2, 49901/100000]).flatten ++
        [1005/10000]).map round10)) = true ∧
    pipage ((List.replicate 102 [(1:ℚ)/2, 49901/100000]).flatten ++
        [1005/10000]) 102 ⟨fun t => (2*t, 2*t+1), fun t => t == 102⟩ =
      some ((List.replicate 102 [(1:ℚ), 0]).flatten ++ [1]) ∧
    ¬ ((List.replicate 102 [(1:ℚ), 0]).flatten ++ [1]).sum ≤ 102 :=
  ⟨by decide, by decide, by decide, by decide, by decide⟩

lemma cycleDigits_length {B a : Nat} (hB : 1 ≤ B) :
    ∀ fuel r num, r ≤ fuel → (cycleDigits B a fuel r num).length = r := by
  intro fuel
  induction fuel with
  | zero =>
    intro r num hr
    simp only [cycleDigits, List.length_nil]
    omega
  | succ fuel ih =>
    intro r num hr
    match r with
    | 0 => rfl
    | r + 1 =>
      simp only [cycleDigits, List.length_append, List.length_replicate]
      rw [ih _ _ (by omega)]
      omega

lemma cycleDigits_getD {B a : Nat} (hB : 1 ≤ B) (ha : 1 ≤ a) :
    ∀ fuel r num t, r ≤ fuel → t < r → num < a →
      (cycleDigits B a fuel r num).getD t 0 = (num + t / B) % a := by
  intro fuel
  induction fuel with
  | zero => omega
  | succ fuel ih =>
    intro r num t hr ht hnum
    match r, ht with
    | r + 1, ht =>
      simp only [cycleDigits]
      by_cases htB : t < min (r + 1) B
      · rw [List.getD_append _ _ _ _ (by rw [List.length_replicate]; exact htB),
          List.getD_eq_getElem _ _ (by rw [List.length_replicate]; exact htB),
          List.getElem_replicate]
        have h0 : t / B = 0 :=
          Nat.div_eq_of_lt (lt_of_lt_of_le htB (min_le_right _ _))
        rw [h0, Nat.add_zero, Nat.mod_eq_of_lt hnum]
      · have hBr : B < r + 1 := by omega
        have hmin : min (r + 1) B = B := min_eq_right (by omega)
        rw [hmin] at htB ⊢
        rw [List.getD_append_right _ _ _ _ (by rw [List.length_replicate]; omega),
          List.length_replicate]
        have hrec := ih (r + 1 - B) (if a - 1 < num + 1 then 0 else num + 1) (t - B)
          (by omega) (by omega) (by split <;> omega)
        rw [hrec]
        have hnum' : (if a - 1 < num + 1 then 0 else num + 1) = (num + 1) % a := by
          split
          · have hna : num + 1 = a := by omega
            rw [hna, Nat.mod_self]
          · rw [Nat.mod_eq_of_lt (by omega)]
        have htdiv : t / B = (t - B) / B + 1 := by
          rw [Nat.div_eq_sub_div (by omega) (by omega)]
        rw [hnum', htdiv, Nat.mod_add_mod]
        congr 1
        omega

lemma stepTwoDigits_length {c : Nat} (hc : 1 ≤ c) :
    ∀ fuel r num, r ≤ fuel → (stepTwoDigits c fuel r num).length = r := by
  intro fuel
  induction fuel with
  | zero =>
    intro r num hr
    simp only [stepTwoDigits, List.length_nil]
    omega
  | succ fuel ih =>
    intro r num hr
    match r with
    | 0 => rfl
    | r + 1 =>
      simp only [stepTwoDigits, List.length_append, List.length_replicate]
      rw [ih _ _ (by omega)]
      omega

lemma stepTwoDigits_getD {c : Nat} (hc : 1 ≤ c) :
    ∀ fuel r num t, r ≤ fuel → t < r →
      (stepTwoDigits c fuel r num).getD t 0 = num + t / c := by
  intro fuel
  induction fuel with
  | zero => omega
  | succ fuel ih =>
    intro r num t hr ht
    match r, ht with
    | r + 1, ht =>
      simp only [stepTwoDigits]
      by_cases htc : t < min c (r + 1)
      · rw [List.getD_append _ _ _ _ (by rw [List.length_replicate]; exact htc),
          List.getD_eq_getElem _ _ (by rw [List.length_replicate]; exact htc),
          List.getElem_replicate]
        have h0 : t / c = 0 :=
          Nat.div_eq_of_lt (lt_of_lt_of_le htc (min_le_left _ _))
        omega
      · have hmle : min c (r + 1) ≤ t := not_lt.1 htc
        have hmin : min c (r + 1) = c := by
          rcases min_choice c (r + 1) with h | h
          · exact h
          · exfalso
            rw [h] at hmle
            omega
        rw [hmin] at hmle
        rw [hmin]
        rw [List.getD_append_right _ _ _ _ (by rw [List.length_replicate]; exact hmle),
          List.length_replicate]
        have hrec := ih (r + 1 - c) (num + 1) (t - c) (by omega) (by omega)
        rw [hrec]
        have htdiv : t / c = (t - c) / c + 1 := Nat.div_eq_sub_div (by omega) hmle
        omega

lemma ssDigits_getD {n a pos m : Nat} (ha : 2 ≤ a) (hm : m < n) :
    (ssDigits n a pos).getD m 0 = digitFn n a pos m := by
  have hB : 1 ≤ a ^ pos := Nat.one_le_pow _ _ (by omega)
  have hA : 1 ≤ a ^ (pos + 1) := Nat.one_le_pow _ _ (by omega)
  have hdm : n / a ^ (pos + 1) * a ^ (pos + 1) + n % a ^ (pos + 1) = n := by
    rw [mul_comm]
    exact Nat.div_add_mod n _
  have hmodBA : n % a ^ pos ≤ n % a ^ (pos + 1) := by
    have hdvd : a ^ pos ∣ a ^ (pos + 1) := pow_dvd_pow a (by omega)
    rw [← Nat.mod_mod_of_dvd n hdvd]
    exact Nat.mod_le _ _
  have hTP : a ^ pos * (n / a ^ pos) = n - n % a ^ pos := by
    have h := Nat.div_add_mod n (a ^ pos)
    revert h
    generalize n % a ^ pos = g
    generalize a ^ pos * (n / a ^ pos) = P
    intro h
    omega
  have hcyc : (cycleDigits (a ^ pos) a (n / a ^ (pos + 1) * a ^ (pos + 1))
      (n / a ^ (pos + 1) * a ^ (pos + 1)) 0).length =
      n / a ^ (pos + 1) * a ^ (pos + 1) :=
    cycleDigits_length hB _ _ _ le_rfl
  have hstep : (stepTwoDigits ((n % a ^ (pos + 1) + a - 1) / a)
      (n - n / a ^ (pos + 1) * a ^ (pos + 1))
      (n - n / a ^ (pos + 1) * a ^ (pos + 1)) 0).length =
      n - n / a ^ (pos + 1) * a ^ (pos + 1) := by
    rcases Nat.eq_zero_or_pos (n - n / a ^ (pos + 1) * a ^ (pos + 1)) with h0 | hpos
    · rw [h0]
      rfl
    · have hr1 : 1 ≤ n % a ^ (pos + 1) := by
        revert hdm hpos
        generalize n % a ^ (pos + 1) = y
        generalize n / a ^ (pos + 1) * a ^ (pos + 1) = S
        intro hdm hpos
        omega
      have hc : 1 ≤ (n % a ^ (pos + 1) + a - 1) / a :=
        (Nat.one_le_div_iff (by omega)).2 (by
          revert hr1
          generalize n % a ^ (pos + 1) = y
          intro hr1
          omega)
      exact stepTwoDigits_length hc _ _ _ le_rfl
  have hbaselen : (cycleDigits (a ^ pos) a (n / a ^ (pos + 1) * a ^ (pos + 1))
      (n / a ^ (pos + 1) * a ^ (pos + 1)) 0 ++
      stepTwoDigits ((n % a ^ (pos + 1) + a - 1) / a)
        (n - n / a ^ (pos + 1) * a ^ (pos + 1))
        (n - n / a ^ (pos + 1) * a ^ (pos + 1)) 0).length = n := by
    rw [List.length_append, hcyc, hstep]
    exact Nat.add_sub_cancel' (Nat.div_mul_le_self n _)
  show (List.zipWith _ (List.range _) _).getD m 0 = _
  rw [hbaselen]
  have hlz : (List.zipWith
      (fun i d => if a ^ pos * (n / a ^ pos) ≤ i then d + 1 else d)
      (List.range n)
      (cycleDigits (a ^ pos) a (n / a ^ (pos + 1) * a ^ (pos + 1))
        (n / a ^ (pos + 1) * a ^ (pos + 1)) 0 ++
      stepTwoDigits ((n % a ^ (pos + 1) + a - 1) / a)
        (n - n / a ^ (pos + 1) * a ^ (pos + 1))
        (n - n / a ^ (pos + 1) * a ^ (pos + 1)) 0)).length = n := by
    rw [List.length_zipWith, List.length_range, hbaselen, min_self]
  rw [List.getD_eq_getElem _ _ (by rw [hlz]; exact hm)]
  rw [List.getElem_zipWith]
  rw [List.getElem_range]
  rw [← List.getD_eq_getElem _ 0 (by rw [hbaselen]; exact hm)]
  by_cases hreg : m < n / a ^ (pos + 1) * a ^ (pos + 1)
  · have hsuf : ¬ a ^ pos * (n / a ^ pos) ≤ m := by
      rw [hTP]
      revert hreg hdm hmodBA
      generalize n % a ^ pos = g
      generalize n % a ^ (pos + 1) = y
      generalize n / a ^ (pos + 1) * a ^ (pos + 1) = S
      intro hreg hdm hmodBA
      omega
    rw [if_neg hsuf]
    have hget : (cycleDigits (a ^ pos) a (n / a ^ (pos + 1) * a ^ (pos + 1))
        (n / a ^ (pos + 1) * a ^ (pos + 1)) 0 ++
        stepTwoDigits ((n % a ^ (pos + 1) + a - 1) / a)
          (n - n / a ^ (pos + 1) * a ^ (pos + 1))
          (n - n / a ^ (pos + 1) * a ^ (pos + 1)) 0).getD m 0 =
        (0 + m / a ^ pos) % a := by
      rw [List.getD_append _ _ _ _ (by rw [hcyc]; exact hreg)]
      exact cycleDigits_getD hB (by omega) _ _ _ _ le_rfl hreg (by omega)
    rw [hget]
    unfold digitFn
    rw [if_pos hreg, Nat.zero_add]
  · have hmS : n / a ^ (pos + 1) * a ^ (pos + 1) ≤ m := le_of_not_lt hreg
    have hc : 1 ≤ (n % a ^ (pos + 1) + a - 1) / a :=
      (Nat.one_le_div_iff (by omega)).2 (by
        revert hdm hm hmS
        generalize n % a ^ (pos + 1) = y
        generalize n / a ^ (pos + 1) * a ^ (pos + 1) = S
        intro hdm hm hmS
        omega)
    have hsub : m - n / a ^ (pos + 1) * a ^ (pos + 1) <
        n - n / a ^ (pos + 1) * a ^ (pos + 1) :=
      tsub_lt_tsub_right_of_le hmS hm
    have hget : (cycleDigits (a ^ pos) a (n / a ^ (pos + 1) * a ^ (pos + 1))
        (n / a ^ (pos + 1) * a ^ (pos + 1)) 0 ++
        stepTwoDigits ((n % a ^ (pos + 1) + a - 1) / a)
          (n - n / a ^ (pos + 1) * a ^ (pos + 1))
          (n - n / a ^ (pos + 1) * a ^ (pos + 1)) 0).getD m 0 =
        0 + (m - n / a ^ (pos + 1) * a ^ (pos + 1)) / ((n % a ^ (pos + 1) + a - 1) / a) := by
      rw [List.getD_append_right _ _ _ _ (by rw [hcyc]; exact hmS), hcyc]
      exact stepTwoDigits_getD hc _ _ _ _ le_rfl hsub
    rw [hget]
    unfold digitFn
    rw [if_neg hreg, Nat.zero_add]
    by_cases hc2 : a ^ pos * (n / a ^ pos) ≤ m
    · rw [if_pos hc2, if_pos hc2]
    · rw [if_neg hc2, if_neg hc2]
      exact (Nat.add_zero _).symm

lemma headD_filter_range (p : Nat → Bool) :
    ∀ N t, t < N → p t = true →
      p (((List.range N).filter p).headD 0) = true ∧
      ∀ s, p s = true → ((List.range N).filter p).headD 0 ≤ s := by
  intro N
  induction N with
  | zero => omega
  | succ N ih =>
    intro t ht hp
    by_cases hex : ∃ u, u < N ∧ p u = true
    · obtain ⟨u, hu, hpu⟩ := hex
      have hres := ih u hu hpu
      rw [List.range_succ, List.filter_append]
      have hne : (List.range N).filter p ≠ [] := by
        intro hcon
        have hmem := List.mem_filter.2 ⟨List.mem_range.2 hu, hpu⟩
        rw [hcon] at hmem
        exact List.not_mem_nil _ hmem
      obtain ⟨x, xs, hxx⟩ := List.exists_cons_of_ne_nil hne
      rw [hxx, List.cons_append, List.headD_cons]
      rw [hxx, List.headD_cons] at hres
      exact hres
    · have htN : t = N := by
        rcases Nat.lt_or_ge t N with h | h
        · exact absurd ⟨t, h, hp⟩ hex
        · omega
      rw [htN] at hp
      rw [List.range_succ, List.filter_append]
      have hnil : (List.range N).filter p = [] := by
        rw [List.filter_eq_nil_iff]
        intro u hu
        simp only [List.mem_range] at hu
        intro hpu
        exact hex ⟨u, hu, hpu⟩
      rw [hnil, List.nil_append]
      have hone : List.filter p [N] = [N] := by
        simp [List.filter_cons, hp]
      rw [hone, List.headD_cons]
      refine ⟨hp, ?_⟩
      intro s hps
      rcases Nat.lt_or_ge s N with h | h
      · exact absurd ⟨s, h, hps⟩ hex
      · exact h

lemma ceilLog_spec {a n : Nat} (ha : 2 ≤ a) :
    n ≤ a ^ ceilLog a n ∧ ∀ t, n ≤ a ^ t → ceilLog a n ≤ t := by
  have hn : n < a ^ n := Nat.lt_pow_self (by omega) n
  have hmain := headD_filter_range (fun l => decide (n ≤ a ^ l)) (n + 1) n
    (by omega) (by rw [decide_eq_true_eq]; exact le_of_lt hn)
  unfold ceilLog
  constructor
  · have h1 := hmain.1
    rw [decide_eq_true_eq] at h1
    exact h1
  · intro t hnt
    exact hmain.2 t (by rw [decide_eq_true_eq]; exact hnt)

lemma digits_mod_eq {a : Nat} (i j : Nat) :
    ∀ P, (∀ pos, pos < P → i / a ^ pos % a = j / a ^ pos % a) →
      i % a ^ P = j % a ^ P := by
  intro P
  induction P with
  | zero => intro _; simp [Nat.mod_one]
  | succ P ih =>
    intro h
    have hP := ih (fun pos hpos => h pos (by omega))
    have hdig := h P (by omega)
    rw [pow_succ, Nat.mod_mul, Nat.mod_mul, hP, hdig]

lemma sPrefix_step {a n p : Nat} :
    n / a ^ (p + 2) * a ^ (p + 2) ≤ n / a ^ (p + 1) * a ^ (p + 1) := by
  have h1 : a ^ (p + 2) = a ^ (p + 1) * a := by ring
  rw [h1, ← Nat.div_div_eq_div_mul]
  calc n / a ^ (p + 1) / a * (a ^ (p + 1) * a)
      = n / a ^ (p + 1) / a * a * a ^ (p + 1) := by ring
    _ ≤ n / a ^ (p + 1) * a ^ (p + 1) :=
        Nat.mul_le_mul_right _ (Nat.div_mul_le_self _ _)

lemma sPrefix_antitone {a n : Nat} : ∀ {p1 p2 : Nat}, p1 ≤ p2 →
    n / a ^ (p2 + 1) * a ^ (p2 + 1) ≤ n / a ^ (p1 + 1) * a ^ (p1 + 1) := by
  intro p1 p2 h
  induction p2 with
  | zero =>
    have hp : p1 = 0 := by omega
    subst hp
    exact le_rfl
  | succ p2 ih =>
    rcases Nat.lt_or_ge p1 (p2 + 1) with h2 | h2
    · exact le_trans sPrefix_step (ih (by omega))
    · have hp : p1 = p2 + 1 := by omega
      subst hp
      exact le_rfl

lemma digitFn_le {n a pos m : Nat} (ha : 2 ≤ a) (hm : m < n) :
    digitFn n a pos m ≤ a := by
  unfold digitFn
  split
  · have hmod := Nat.mod_lt (m / a ^ pos) (show 0 < a by omega)
    omega
  · rename_i hreg
    have hmS : n / a ^ (pos + 1) * a ^ (pos + 1) ≤ m := le_of_not_lt hreg
    have hdm : n / a ^ (pos + 1) * a ^ (pos + 1) + n % a ^ (pos + 1) = n := by
      rw [mul_comm]
      exact Nat.div_add_mod n _
    have hrac : n % a ^ (pos + 1) ≤ a * ((n % a ^ (pos + 1) + a - 1) / a) := by
      have hd := Nat.div_add_mod (n % a ^ (pos + 1) + a - 1) a
      have hmod := Nat.mod_lt (n % a ^ (pos + 1) + a - 1) (show 0 < a by omega)
      revert hd hmod
      generalize n % a ^ (pos + 1) = r
      generalize (r + a - 1) / a = c
      generalize (r + a - 1) % a = M
      intro hd hmod
      omega
    have hmr : m - n / a ^ (pos + 1) * a ^ (pos + 1) < n % a ^ (pos + 1) := by
      revert hdm hm hmS
      generalize n % a ^ (pos + 1) = r
      generalize n / a ^ (pos + 1) * a ^ (pos + 1) = S
      intro hdm hm hmS
      omega
    have hc1 : 0 < (n % a ^ (pos + 1) + a - 1) / a :=
      (Nat.one_le_div_iff (show 0 < a by omega)).2 (by
        revert hmr
        generalize n % a ^ (pos + 1) = r
        generalize m - n / a ^ (pos + 1) * a ^ (pos + 1) = u
        intro hmr
        omega)
    have hfl : (m - n / a ^ (pos + 1) * a ^ (pos + 1)) /
        ((n % a ^ (pos + 1) + a - 1) / a) < a := by
      rw [Nat.div_lt_iff_lt_mul hc1]
      revert hrac hmr
      generalize m - n / a ^ (pos + 1) * a ^ (pos + 1) = u
      generalize n % a ^ (pos + 1) = r
      generalize a * ((r + a - 1) / a) = w
      intro hrac hmr
      omega
    by_cases hc2 : a ^ pos * (n / a ^ pos) ≤ m
    · rw [if_pos hc2]
      exact hfl
    · rw [if_neg hc2, Nat.add_zero]
      exact Nat.le_of_lt hfl

lemma digitFn_r1 {n a pos m : Nat} (h : m < n / a ^ (pos + 1) * a ^ (pos + 1)) :
    digitFn n a pos m = m / a ^ pos % a := by
  unfold digitFn
  rw [if_pos h]

lemma digitFn_r2 {n a pos m : Nat} (h1 : n / a ^ (pos + 1) * a ^ (pos + 1) ≤ m)
    (h2 : ¬ a ^ pos * (n / a ^ pos) ≤ m) :
    digitFn n a pos m =
      (m - n / a ^ (pos + 1) * a ^ (pos + 1)) / ((n % a ^ (pos + 1) + a - 1) / a) := by
  unfold digitFn
  rw [if_neg (not_lt.2 h1), if_neg h2, Nat.add_zero]

lemma digitFn_r2s {n a pos m : Nat} (h1 : n / a ^ (pos + 1) * a ^ (pos + 1) ≤ m)
    (h2 : a ^ pos * (n / a ^ pos) ≤ m) :
    digitFn n a pos m =
      (m - n / a ^ (pos + 1) * a ^ (pos + 1)) / ((n % a ^ (pos + 1) + a - 1) / a) + 1 := by
  unfold digitFn
  rw [if_neg (not_lt.2 h1), if_pos h2]

lemma sub_lt_of_div_eq {x y c : Nat} (hc : 0 < c) (hxy : x ≤ y)
    (h : y / c = x / c) : y - x < c := by
  have hx := Nat.div_add_mod x c
  have hy := Nat.div_add_mod y c
  rw [h] at hy
  have hmy := Nat.mod_lt y hc
  revert hx hy hmy
  generalize c * (x / c) = t
  generalize x % c = mx
  generalize y % c = my
  intro hx hy hmy
  omega

lemma digitFn_inj {n a L : Nat} (ha : 2 ≤ a) (hL : n ≤ a ^ L) :
    ∀ i j, i < n → j < n →
      (∀ pos, pos < L → digitFn n a pos i = digitFn n a pos j) → i = j := by
  suffices hlt : ∀ i j, i < j → j < n →
      (∀ pos, pos < L → digitFn n a pos i = digitFn n a pos j) → False by
    intro i j hi hj hd
    rcases Nat.lt_trichotomy i j with h | h | h
    · exact absurd (hlt i j h hj hd) (fun f => f)
    · exact h
    · exact absurd (hlt j i h hi (fun pos hp => (hd pos hp).symm)) (fun f => f)
  intro i j hij hj hd
  rcases eq_or_lt_of_le hL with heq | hlt2
  · -- n = a ^ L : every position is in the base-a prefix
    have hbase : ∀ pos, pos < L → i / a ^ pos % a = j / a ^ pos % a := by
      intro pos hpos
      have hdvd : a ^ (pos + 1) ∣ n := heq ▸ pow_dvd_pow a (by omega)
      have hfull : n / a ^ (pos + 1) * a ^ (pos + 1) = n := Nat.div_mul_cancel hdvd
      have hi' := digitFn_r1 (m := i) (hfull ▸ (lt_of_lt_of_le hij (le_of_lt hj)))
      have hj' := digitFn_r1 (m := j) (hfull ▸ hj)
      rw [← hi', ← hj']
      exact hd pos hpos
    have hm := digits_mod_eq i j L hbase
    rw [Nat.mod_eq_of_lt (heq ▸ lt_trans hij hj), Nat.mod_eq_of_lt (heq ▸ hj)] at hm
    omega
  · -- n < a ^ L
    have hL1 : 1 ≤ L := by
      by_contra hcon
      push_neg at hcon
      interval_cases L
      simp at hlt2
      omega
    have hS0 : n / a ^ L * a ^ L = 0 := by
      rw [Nat.div_eq_of_lt hlt2, Nat.zero_mul]
    have hexi : ∃ pos, n / a ^ (pos + 1) * a ^ (pos + 1) ≤ i := by
      refine ⟨L - 1, ?_⟩
      rw [Nat.sub_add_cancel hL1, hS0]
      exact Nat.zero_le _
    have hexj : ∃ pos, n / a ^ (pos + 1) * a ^ (pos + 1) ≤ j := by
      refine ⟨L - 1, ?_⟩
      rw [Nat.sub_add_cancel hL1, hS0]
      exact Nat.zero_le _
    have hPiL : Nat.find hexi ≤ L - 1 := by
      apply Nat.find_min'
      rw [Nat.sub_add_cancel hL1, hS0]
      exact Nat.zero_le _
    have hSi : n / a ^ (Nat.find hexi + 1) * a ^ (Nat.find hexi + 1) ≤ i :=
      Nat.find_spec hexi
    have hSj : n / a ^ (Nat.find hexj + 1) * a ^ (Nat.find hexj + 1) ≤ j :=
      Nat.find_spec hexj
    have hPjPi : Nat.find hexj ≤ Nat.find hexi :=
      Nat.find_min' hexj (le_trans hSi (le_of_lt hij))
    rcases eq_or_lt_of_le hPjPi with hPeq | hPlt
    · -- same threshold position P
      obtain ⟨P, hPdef⟩ : ∃ P, Nat.find hexi = P := ⟨_, rfl⟩
      rw [hPdef] at hSi hPeq hPiL
      have hSjP : n / a ^ (P + 1) * a ^ (P + 1) ≤ j := by
        rw [hPeq] at hSj
        exact hSj
      have hbase : ∀ pos, pos < P → i / a ^ pos % a = j / a ^ pos % a := by
        intro pos hpos
        have hni : i < n / a ^ (pos + 1) * a ^ (pos + 1) :=
          lt_of_not_le (Nat.find_min hexi (by rw [hPdef]; exact hpos))
        have hnj : j < n / a ^ (pos + 1) * a ^ (pos + 1) :=
          lt_of_not_le (Nat.find_min hexj (by rw [hPeq]; exact hpos))
        have hi' := digitFn_r1 (m := i) hni
        have hj' := digitFn_r1 (m := j) hnj
        rw [← hi', ← hj']
        exact hd pos (by omega)
      have hmP := digits_mod_eq i j P hbase
      have hindi : ¬ a ^ P * (n / a ^ P) ≤ i := by
        rcases Nat.eq_zero_or_pos P with hP0 | hP1
        · rw [hP0, pow_zero, Nat.one_mul, Nat.div_one]
          omega
        · obtain ⟨P', rfl⟩ : ∃ P', P = P' + 1 := ⟨P - 1, by omega⟩
          rw [mul_comm]
          exact Nat.find_min hexi (by rw [hPdef]; omega)
      have hindj : ¬ a ^ P * (n / a ^ P) ≤ j := by
        rcases Nat.eq_zero_or_pos P with hP0 | hP1
        · rw [hP0, pow_zero, Nat.one_mul, Nat.div_one]
          omega
        · obtain ⟨P', rfl⟩ : ∃ P', P = P' + 1 := ⟨P - 1, by omega⟩
          rw [mul_comm]
          exact Nat.find_min hexj (by rw [hPeq]; omega)
      have hdP := hd P (by omega)
      rw [digitFn_r2 hSi hindi, digitFn_r2 hSjP hindj] at hdP
      have hr1 : 1 ≤ n % a ^ (P + 1) := by
        have hdm : n / a ^ (P + 1) * a ^ (P + 1) + n % a ^ (P + 1) = n := by
          rw [mul_comm]
          exact Nat.div_add_mod n _
        revert hdm hSi
        generalize n % a ^ (P + 1) = r
        generalize n / a ^ (P + 1) * a ^ (P + 1) = S
        intro hdm hSi
        omega
      have hc1 : 0 < (n % a ^ (P + 1) + a - 1) / a :=
        (Nat.one_le_div_iff (show 0 < a by omega)).2 (by
          revert hr1
          generalize n % a ^ (P + 1) = r
          intro hr1
          omega)
      have hsub : (j - n / a ^ (P + 1) * a ^ (P + 1)) -
          (i - n / a ^ (P + 1) * a ^ (P + 1)) < (n % a ^ (P + 1) + a - 1) / a :=
        sub_lt_of_div_eq hc1 (by
          revert hSi
          generalize n / a ^ (P + 1) * a ^ (P + 1) = S
          intro hSi
          omega) hdP.symm
      have hji : j - i < (n % a ^ (P + 1) + a - 1) / a := by
        revert hsub hSi
        generalize (n % a ^ (P + 1) + a - 1) / a = c
        generalize n / a ^ (P + 1) * a ^ (P + 1) = S
        intro hsub hSi
        omega
      have hcP : (n % a ^ (P + 1) + a - 1) / a ≤ a ^ P := by
        have hrA : n % a ^ (P + 1) < a ^ (P + 1) :=
          Nat.mod_lt _ (Nat.one_le_pow _ _ (by omega))
        have hlt3 : (n % a ^ (P + 1) + a - 1) / a < a ^ P + 1 := by
          rw [Nat.div_lt_iff_lt_mul (show 0 < a by omega)]
          have hmul : (a ^ P + 1) * a = a ^ (P + 1) + a := by
            rw [pow_succ]
            ring
          rw [hmul]
          revert hrA
          generalize n % a ^ (P + 1) = r
          generalize a ^ (P + 1) = A
          intro hrA
          omega
        omega
      have hdvd : a ^ P ∣ j - i :=
        (Nat.modEq_iff_dvd' (le_of_lt hij)).1 hmP
      have hple : a ^ P ≤ j - i := Nat.le_of_dvd (by omega) hdvd
      omega
    · -- strictly smaller threshold position for j
      have hdP := hd (Nat.find hexi) (by omega)
      have hSjPi : n / a ^ (Nat.find hexi + 1) * a ^ (Nat.find hexi + 1) ≤ j := by
        refine le_trans (le_trans (sPrefix_antitone hPjPi) hSj) ?_
        exact le_rfl
      have hindi : ¬ a ^ Nat.find hexi * (n / a ^ Nat.find hexi) ≤ i := by
        obtain ⟨P', hP'⟩ : ∃ P', Nat.find hexi = P' + 1 :=
          ⟨Nat.find hexi - 1, by omega⟩
        rw [hP', mul_comm]
        exact Nat.find_min hexi (by omega)
      have hindj : a ^ Nat.find hexi * (n / a ^ Nat.find hexi) ≤ j := by
        obtain ⟨P', hP'⟩ : ∃ P', Nat.find hexi = P' + 1 :=
          ⟨Nat.find hexi - 1, by omega⟩
        rw [hP', mul_comm]
        exact le_trans (le_trans (sPrefix_antitone (by omega : Nat.find hexj ≤ P')) hSj) le_rfl
      rw [digitFn_r2 hSi hindi, digitFn_r2s hSjPi hindj] at hdP
      have hdiv : (i - n / a ^ (Nat.find hexi + 1) * a ^ (Nat.find hexi + 1)) /
          ((n % a ^ (Nat.find hexi + 1) + a - 1) / a) ≤
          (j - n / a ^ (Nat.find hexi + 1) * a ^ (Nat.find hexi + 1)) /
          ((n % a ^ (Nat.find hexi + 1) + a - 1) / a) :=
        Nat.div_le_div_right (by
          revert hSi
          generalize n / a ^ (Nat.find hexi + 1) * a ^ (Nat.find hexi + 1) = S
          intro hSi
          omega)
      revert hdP hdiv
      generalize (i - n / a ^ (Nat.find hexi + 1) * a ^ (Nat.find hexi + 1)) /
          ((n % a ^ (Nat.find hexi + 1) + a - 1) / a) = x
      generalize (j - n / a ^ (Nat.find hexi + 1) * a ^ (Nat.find hexi + 1)) /
          ((n % a ^ (Nat.find hexi + 1) + a - 1) / a) = y
      intro hdP hdiv
      omega

lemma ss_separates {n k : Nat} (hk : 1 ≤ k) (hkn : k < n) :
    ∃ ss, ss_construct n k = some ss ∧ ∀ i j, i < n → j < n → i ≠ j →
      separates ss i j = true := by
  have hk0 : ¬ k = 0 := by omega
  have ha : 2 ≤ (n + k - 1) / k := by
    rw [Nat.le_div_iff_mul_le (by omega)]
    omega
  unfold ss_construct
  dsimp only
  rw [if_neg hk0, if_neg (by omega : ¬ (n + k - 1) / k ≤ 1)]
  refine ⟨_, rfl, ?_⟩
  intro i j hi hj hij
  have hLspec := ceilLog_spec (a := (n + k - 1) / k) (n := n) ha
  have hdiff : ∃ pos, pos < ceilLog ((n + k - 1) / k) n ∧
      digitFn n ((n + k - 1) / k) pos i ≠ digitFn n ((n + k - 1) / k) pos j := by
    by_contra hcon
    push_neg at hcon
    exact hij (digitFn_inj ha hLspec.1 i j hi hj (fun pos hp => hcon pos hp))
  obtain ⟨pos, hposL, hne⟩ := hdiff
  have hbi := @digitFn_le n ((n + k - 1) / k) pos i ha hi
  have hbj := @digitFn_le n ((n + k - 1) / k) pos j ha hj
  have hdig : ((List.range (ceilLog ((n + k - 1) / k) n)).map
      (ssDigits n ((n + k - 1) / k))).getD pos [] =
      ssDigits n ((n + k - 1) / k) pos := by
    rw [List.getD_eq_getElem _ _
      (by rw [List.length_map, List.length_range]; exact hposL),
      List.getElem_map, List.getElem_range]
  rw [separates, List.any_eq_true]
  rcases Nat.lt_or_ge (digitFn n ((n + k - 1) / k) pos i)
      (digitFn n ((n + k - 1) / k) pos j) with hv | hv
  · refine ⟨(List.range n).filter (fun m =>
      (((List.range (ceilLog ((n + k - 1) / k) n)).map
        (ssDigits n ((n + k - 1) / k))).getD pos []).getD m 0 =
        digitFn n ((n + k - 1) / k) pos i), ?_, ?_⟩
    · exact List.mem_flatMap.2 ⟨pos, List.mem_range.2 hposL,
        List.mem_map.2 ⟨digitFn n ((n + k - 1) / k) pos i,
          List.mem_range.2 (lt_of_lt_of_le hv hbj), rfl⟩⟩
    · have hci : ((List.range n).filter (fun m =>
          (((List.range (ceilLog ((n + k - 1) / k) n)).map
            (ssDigits n ((n + k - 1) / k))).getD pos []).getD m 0 =
            digitFn n ((n + k - 1) / k) pos i)).contains i = true := by
        refine List.elem_eq_true_of_mem (List.mem_filter.2
          ⟨List.mem_range.2 hi, ?_⟩)
        rw [decide_eq_true_eq, hdig, ssDigits_getD ha hi]
      have hcj : ((List.range n).filter (fun m =>
          (((List.range (ceilLog ((n + k - 1) / k) n)).map
            (ssDigits n ((n + k - 1) / k))).getD pos []).getD m 0 =
            digitFn n ((n + k - 1) / k) pos i)).contains j = false := by
        rw [Bool.eq_false_iff]
        intro hcon
        have hmem := List.mem_filter.1 (List.elem_iff.1 hcon)
        have h2 := hmem.2
        rw [decide_eq_true_eq, hdig, ssDigits_getD ha hj] at h2
        omega
      rw [hci, hcj]
      rfl
  · have hvlt : digitFn n ((n + k - 1) / k) pos j <
        digitFn n ((n + k - 1) / k) pos i := by omega
    refine ⟨(List.range n).filter (fun m =>
      (((List.range (ceilLog ((n + k - 1) / k) n)).map
        (ssDigits n ((n + k - 1) / k))).getD pos []).getD m 0 =
        digitFn n ((n + k - 1) / k) pos j), ?_, ?_⟩
    · exact List.mem_flatMap.2 ⟨pos, List.mem_range.2 hposL,
        List.mem_map.2 ⟨digitFn n ((n + k - 1) / k) pos j,
          List.mem_range.2 (lt_of_lt_of_le hvlt hbi), rfl⟩⟩
    · have hci : ((List.range n).filter (fun m =>
          (((List.range (ceilLog ((n + k - 1) / k) n)).map
            (ssDigits n ((n + k - 1) / k))).getD pos []).getD m 0 =
            digitFn n ((n + k - 1) / k) pos j)).contains i = false := by
        rw [Bool.eq_false_iff]
        intro hcon
        have hmem := List.mem_filter.1 (List.elem_iff.1 hcon)
        have h2 := hmem.2
        rw [decide_eq_true_eq, hdig, ssDigits_getD ha hi] at h2
        omega
      have hcj : ((List.range n).filter (fun m =>
          (((List.range (ceilLog ((n + k - 1) / k) n)).map
            (ssDigits n ((n + k - 1) / k))).getD pos []).getD m 0 =
            digitFn n ((n + k - 1) / k) pos j)).contains j = true := by
        refine List.elem_eq_true_of_mem (List.mem_filter.2
          ⟨List.mem_range.2 hj, ?_⟩)
        rw [decide_eq_true_eq, hdig, ssDigits_getD ha hj]
      rw [hci, hcj]
      rfl

lemma ss_none {n : Nat} (hn : 1 ≤ n) : ss_construct n n = none := by
  unfold ss_construct
  dsimp only
  rw [if_neg (by omega : ¬ n = 0)]
  have h2 : (n + n - 1) / n < 2 := by
    rw [Nat.div_lt_iff_lt_mul (by omega)]
    omega
  rw [if_pos (by omega : (n + n - 1) / n ≤ 1)]

set_option maxRecDepth 10000 in
/-- C6 (corrected): for every `N` and every `1 ≤ k < N`, `ss_construct(N, k)`
succeeds and every pair of distinct node indices below `N` is separated by
at least one of its candidates — proved for all `N` via the labelling
lemma (distinct nodes receive distinct labels, and a differing digit
position yields a separating candidate); moreover `ss_construct(6, 2)`
separates all 15 pairs with every candidate of size at most `2`.  But at
`k = N` the claim fails for every `N`: the alphabet size `ceil(N/k)` is
`1`, on which `math.log` raises (modelled as `None`), so no pair is
separated and the claim's range `1 ≤ k ≤ N` is too wide. -/
theorem claim_C6 :
    (∀ n k : Nat, 1 ≤ k → k < n → ∃ ss, ss_construct n k = some ss ∧
      ∀ i j, i < n → j < n → i ≠ j → separates ss i j = true) ∧
    (∀ n : Nat, 1 ≤ n → ss_construct n n = none) ∧
    (ss_construct 6 2).isSome = true ∧
    ((ss_construct 6 2).getD []).all (fun s => decide (s.length ≤ 2)) = true ∧
    ((List.range 6).all (fun i => (List.range 6).all (fun j =>
      i == j || separatesWithin 2 ((ss_construct 6 2).getD []) i j))) = true :=
  ⟨fun _ k hk hkn => ss_separates hk hkn,
   fun _ hn => ss_none hn,
   by decide, by decide, by decide⟩

/-- Witness for C6 at concrete inputs: `ss_construct 7 3` succeeds and
separates every pair below `7`, and `ss_construct 4 4` is `None`. -/
theorem claim_C6_witness :
    (∃ ss, ss_construct 7 3 = some ss ∧ ∀ i j, i < 7 → j < 7 → i ≠ j →
      separates ss i j = true) ∧ ss_construct 4 4 = none :=
  ⟨claim_C6.1 7 3 (by decide) (by decide), claim_C6.2.1 4 (by decide)⟩

end MPED
